import Mathlib

set_option linter.unusedSectionVars false

/-!
Shallow embedding of the polonius fact store and its CFG-simplification
pass (`polonius-engine/src/facts.rs`), together with a model of the
tab-delimited fact loader (`src/tab_delim.rs`).  Relations are embedded as
Lean lists (Rust `Vec`s); the successor/predecessor hash maps of
`isolated_edges` are embedded as association lists with distinct keys, and
the `while let` walk of `isolated_chains` is embedded with explicit fuel
(the size of the map bounds the number of iterations, since every
iteration removes one entry).
-/

namespace Polonius

/-- The seven fact relations of `AllFacts` (facts.rs lines 6-29). -/
structure AllFacts (R L P : Type) where
  borrow_region : List (R × L × P)
  universal_region : List R
  cfg_edge : List (P × P)
  killed : List (L × P)
  outlives : List (R × R × P)
  region_live_at : List (R × P)
  invalidates : List (P × L)
deriving DecidableEq, Repr

section Engine

variable {R L P : Type} [DecidableEq R] [DecidableEq L] [DecidableEq P]

/-- `live_regions_at` (facts.rs lines 120-131). -/
def live_regions_at (f : AllFacts R L P) (desired_point : P) : List R :=
  f.region_live_at.filterMap fun rp => if rp.2 = desired_point then some rp.1 else none

/-- `killed_loans_at` (facts.rs lines 133-144). -/
def killed_loans_at (f : AllFacts R L P) (desired_point : P) : List L :=
  f.killed.filterMap fun lp => if lp.2 = desired_point then some lp.1 else none

/-- `outlives_at` (facts.rs lines 146-157). -/
def outlives_at (f : AllFacts R L P) (desired_point : P) : List (R × R) :=
  f.outlives.filterMap fun t => if t.2.2 = desired_point then some (t.1, t.2.1) else none

/-- `invalidates_at` (facts.rs lines 159-170). -/
def invalidates_at (f : AllFacts R L P) (desired_point : P) : List L :=
  f.invalidates.filterMap fun pl => if pl.1 = desired_point then some pl.2 else none

/-- `is_edge_collapsible` (facts.rs lines 110-118): the `Vec` equality of
live regions, together with emptiness of the killed/outlives/invalidates
facts at both points. -/
def is_edge_collapsible (f : AllFacts R L P) (first second : P) : Bool :=
  decide (live_regions_at f first = live_regions_at f second)
    && (killed_loans_at f first).isEmpty
    && (killed_loans_at f second).isEmpty
    && (outlives_at f first).isEmpty
    && (outlives_at f second).isEmpty
    && (invalidates_at f first).isEmpty
    && (invalidates_at f second).isEmpty

/-- `is_endpoint` (facts.rs lines 180-182): no edge leaves the point. -/
def is_endpoint (f : AllFacts R L P) (queried_point : P) : Bool :=
  f.cfg_edge.all fun e => decide (e.1 ≠ queried_point)

/-- `is_startpoint` (facts.rs lines 184-186): no edge enters the point. -/
def is_startpoint (f : AllFacts R L P) (queried_point : P) : Bool :=
  f.cfg_edge.all fun e => decide (e.2 ≠ queried_point)

/-- `collapse_edge_keeping_first_point` (facts.rs lines 188-202). -/
def collapse_edge_keeping_first_point (f : AllFacts R L P) (first second : P) :
    AllFacts R L P where
  borrow_region := f.borrow_region.filter fun t => decide (t.2.2 ≠ second)
  universal_region := f.universal_region
  cfg_edge :=
    (f.cfg_edge.filter fun e => decide (e.2 ≠ second)).map
      fun e => if e.1 = second then (first, e.2) else e
  killed := f.killed.filter fun t => decide (t.2 ≠ second)
  outlives := f.outlives.filter fun t => decide (t.2.2 ≠ second)
  region_live_at := f.region_live_at.filter fun t => decide (t.2 ≠ second)
  invalidates := f.invalidates.filter fun t => decide (t.1 ≠ second)

/-- `collapse_edge_keeping_second_point` (facts.rs lines 204-218). -/
def collapse_edge_keeping_second_point (f : AllFacts R L P) (first second : P) :
    AllFacts R L P where
  borrow_region := f.borrow_region.filter fun t => decide (t.2.2 ≠ first)
  universal_region := f.universal_region
  cfg_edge :=
    (f.cfg_edge.filter fun e => decide (e.1 ≠ first)).map
      fun e => if e.2 = first then (e.1, second) else e
  killed := f.killed.filter fun t => decide (t.2 ≠ first)
  outlives := f.outlives.filter fun t => decide (t.2.2 ≠ first)
  region_live_at := f.region_live_at.filter fun t => decide (t.2 ≠ first)
  invalidates := f.invalidates.filter fun t => decide (t.1 ≠ first)

/-- `collapse_edge` (facts.rs lines 172-178). -/
def collapse_edge (f : AllFacts R L P) (first second : P) : AllFacts R L P :=
  if !(is_endpoint f second) then collapse_edge_keeping_first_point f first second
  else if !(is_startpoint f first) then collapse_edge_keeping_second_point f first second
  else f

/-- The successor slot of `p` in the `successors` map built by
`isolated_edges` (facts.rs lines 65-80): `some q` exactly when `p` is the
source of exactly one edge (counting duplicates), namely `(p, q)`. -/
def succOf (edges : List (P × P)) (p : P) : Option P :=
  match edges.filter fun e => decide (e.1 = p) with
  | [e] => some e.2
  | _ => none

/-- The predecessor slot of `q` in the `predecessors` map built by
`isolated_edges`: `some p` exactly when `q` is the target of exactly one
edge (counting duplicates), namely `(p, q)`. -/
def predOf (edges : List (P × P)) (q : P) : Option P :=
  match edges.filter fun e => decide (e.2 = q) with
  | [e] => some e.1
  | _ => none

/-- The isolated-edge map as a partial function: the `filter` over
`unique_successors` in `isolated_edges` (facts.rs lines 82-93). -/
def isolatedSucc (edges : List (P × P)) (p : P) : Option P :=
  (succOf edges p).bind fun q => if (predOf edges q).isSome then some q else none

/-- `isolated_edges` (facts.rs lines 64-94), as an association list with
pairwise-distinct keys (representing the returned `HashMap<Point, Point>`;
the key order — first occurrence as an edge source — is one choice of the
hash map's unspecified iteration order). -/
def isolatedEdges (edges : List (P × P)) : List (P × P) :=
  ((edges.map Prod.fst).dedup).filterMap fun p => (isolatedSucc edges p).map fun q => (p, q)

/-- The `chain_heads` set of `isolated_chains` (facts.rs lines 40-45):
keys of the isolated-edge map that are not values of it. -/
def chainHeads (m : List (P × P)) : List P :=
  (m.map Prod.fst).filter fun p => !(m.any fun e => decide (e.2 = p))

/-- The `while let Some(next) = isolated_edges.remove(&current)` walk of
`isolated_chains` (facts.rs lines 53-56), with explicit fuel: each
iteration removes the entry for `current` from the map, so `m.length` fuel
always suffices. Returns the tail of the chain and the reduced map. -/
def walk : Nat → List (P × P) → P → List P × List (P × P)
  | 0, m, _ => ([], m)
  | Nat.succ fuel, m, current =>
    match m.find? fun e => decide (e.1 = current) with
    | none => ([], m)
    | some e =>
      let m' := m.filter fun e2 => decide (e2.1 ≠ current)
      let w := walk fuel m' e.2
      (e.2 :: w.1, w.2)

/-- The loop over chain heads in `isolated_chains` (facts.rs lines 47-59),
threading the shrinking isolated-edge map through the walks. -/
def chainsGo : List P → List (P × P) → List (List P)
  | [], _ => []
  | h :: hs, m =>
    let w := walk m.length m h
    (h :: w.1) :: chainsGo hs w.2

/-- `isolated_chains` (facts.rs lines 38-62). -/
def isolated_chains (edges : List (P × P)) : List (List P) :=
  chainsGo (chainHeads (isolatedEdges edges)) (isolatedEdges edges)

/-- The anchor-walking loop of `simplify_chain` (facts.rs lines 99-107):
`current` is the anchor; a collapsible edge is collapsed leaving the
anchor unchanged, otherwise the anchor advances. -/
def simplify_chain_go (f : AllFacts R L P) (current : P) : List P → AllFacts R L P
  | [] => f
  | s :: rest =>
    if is_edge_collapsible f current s then
      simplify_chain_go (collapse_edge f current s) current rest
    else
      simplify_chain_go f s rest

/-- `simplify_chain` (facts.rs lines 96-108).  The Rust code reads
`chain[0]`, which would panic on an empty chain; `isolated_chains` never
produces one (see `simplify_chain_checked` for the panic model). -/
def simplify_chain (f : AllFacts R L P) (chain : List P) : AllFacts R L P :=
  match chain with
  | [] => f
  | first :: rest => simplify_chain_go f first rest

/-- Panic model of `simplify_chain`: the `chain[0]` index (facts.rs line
97) is out of bounds on an empty chain, modelled as `none`. -/
def simplify_chain_checked (f : AllFacts R L P) : List P → Option (AllFacts R L P)
  | [] => none
  | first :: rest => some (simplify_chain_go f first rest)

/-- `simplify_cfg` (facts.rs lines 32-36): fold `simplify_chain` over the
chains computed once from the initial store. -/
def simplify_cfg (f : AllFacts R L P) : AllFacts R L P :=
  (isolated_chains f.cfg_edge).foldl simplify_chain f

/-- Panic model of `simplify_cfg`: `none` if any `simplify_chain` call
would panic. -/
def simplify_cfg_checked (f : AllFacts R L P) : Option (AllFacts R L P) :=
  (isolated_chains f.cfg_edge).foldlM simplify_chain_checked f

/-- Instrumented `simplify_chain` loop: additionally records, for every
invocation of `collapse_edge`, the store at the moment of the invocation
together with the two points of the collapsed edge. -/
def simplify_chain_go_trace (f : AllFacts R L P) (current : P) :
    List P → AllFacts R L P × List (AllFacts R L P × P × P)
  | [] => (f, [])
  | s :: rest =>
    if is_edge_collapsible f current s then
      let w := simplify_chain_go_trace (collapse_edge f current s) current rest
      (w.1, (f, current, s) :: w.2)
    else
      simplify_chain_go_trace f s rest

/-- One chain of the instrumented `simplify_cfg`, accumulating the
recorded `collapse_edge` invocations. -/
def simplify_cfg_trace_step (acc : AllFacts R L P × List (AllFacts R L P × P × P))
    (chain : List P) : AllFacts R L P × List (AllFacts R L P × P × P) :=
  match chain with
  | [] => acc
  | first :: rest =>
    let w := simplify_chain_go_trace acc.1 first rest
    (w.1, acc.2 ++ w.2)

/-- Instrumented `simplify_cfg`: the simplified store together with the
list of all `collapse_edge` invocations performed during the run. -/
def simplify_cfg_trace (f : AllFacts R L P) :
    AllFacts R L P × List (AllFacts R L P × P × P) :=
  (isolated_chains f.cfg_edge).foldl simplify_cfg_trace_step (f, [])

/-- The condition the spec asserts at every performed collapse: the event
`(g, p, q)` (store `g` at the moment `collapse_edge` was invoked on the
edge `(p, q)`) has identical live-region *sets* at `p` and `q` and no
killed, outlives, or invalidates tuples at either point. -/
def collapseEventOk (ev : AllFacts R L P × P × P) : Prop :=
  (∀ r : R, r ∈ live_regions_at ev.1 ev.2.1 ↔ r ∈ live_regions_at ev.1 ev.2.2)
    ∧ (∀ t ∈ ev.1.killed, t.2 ≠ ev.2.1 ∧ t.2 ≠ ev.2.2)
    ∧ (∀ t ∈ ev.1.outlives, t.2.2 ≠ ev.2.1 ∧ t.2.2 ≠ ev.2.2)
    ∧ (∀ t ∈ ev.1.invalidates, t.1 ≠ ev.2.1 ∧ t.1 ≠ ev.2.2)

/-- The structural invariant that the simplification pass maintains on
the untested part of a chain: the current anchor `c` has exactly one
outgoing edge, to the next chain point `s`; `s` has exactly one incoming
edge, from `c`; and so on down the chain.  The last point's outgoing
edges and the anchor's incoming edges are unconstrained. -/
def chainLinks (g : AllFacts R L P) : P → List P → Prop
  | _, [] => True
  | c, s :: rest =>
    g.cfg_edge.filter (fun e => decide (e.1 = c)) = [(c, s)]
      ∧ g.cfg_edge.filter (fun e => decide (e.2 = s)) = [(c, s)]
      ∧ chainLinks g s rest

/-- A chain fit for processing: nonempty, duplicate-free, and linked. -/
def validChain (g : AllFacts R L P) (chain : List P) : Prop :=
  match chain with
  | [] => False
  | c :: rest => chain.Nodup ∧ chainLinks g c rest

/-- A family of chains fit for processing in any order: every chain is
valid and the chains are pairwise disjoint. -/
def chainsOk (g : AllFacts R L P) (cs : List (List P)) : Prop :=
  (∀ ch ∈ cs, validChain g ch)
    ∧ cs.Pairwise fun c₁ c₂ => ∀ x ∈ c₁, x ∉ c₂

/-- Out-degree of a point: how many `cfg_edge` tuples leave it (the count
underlying `is_endpoint` and the `successors` map). -/
def outDeg (f : AllFacts R L P) (x : P) : Nat :=
  f.cfg_edge.countP fun e => decide (e.1 = x)

/-- In-degree of a point: how many `cfg_edge` tuples enter it (the count
underlying `is_startpoint` and the `predecessors` map). -/
def inDeg (f : AllFacts R L P) (x : P) : Nat :=
  f.cfg_edge.countP fun e => decide (e.2 = x)

/-- `u` immediately precedes `v` somewhere in the list. -/
def consecPair (ch : List P) (u v : P) : Prop :=
  ∃ l₁ l₂, ch = l₁ ++ u :: v :: l₂

/-- The map threading of `isolated_chains` (facts.rs lines 47-59), keeping
the final isolated-edge map instead of the chains: what remains after all
walks have consumed their entries. -/
def chainsGoMap : List P → List (P × P) → List (P × P)
  | [], m => m
  | h :: hs, m => chainsGoMap hs (walk m.length m h).2

/-- The isolated-edge entries never consumed by any chain walk (the
cyclically linked part of the isolated-edge map, which `isolated_chains`
leaves untouched). -/
def leftoverMap (edges : List (P × P)) : List (P × P) :=
  chainsGoMap (chainHeads (isolatedEdges edges)) (isolatedEdges edges)

/-- A collapsible edge on which `collapse_edge` nevertheless does nothing:
the fall-through branch of `collapse_edge` (facts.rs line 177). -/
def exemptPair (f : AllFacts R L P) (u v : P) : Prop :=
  is_endpoint f v = true ∧ is_startpoint f u = true

/-- An isolated edge the pass would still shrink: present, uniquely sourced
and targeted, collapsible, and not the no-op case. -/
def badPair (f : AllFacts R L P) (u v : P) : Prop :=
  (u, v) ∈ f.cfg_edge ∧ outDeg f u = 1 ∧ inDeg f v = 1
    ∧ is_edge_collapsible f u v = true ∧ ¬ exemptPair f u v

/-- What the pass knows about the current anchor of a chain walk: if the
anchor has exactly one incoming edge, that edge either has a branching
source or is not collapsible (it was just tested and rejected, or it was
never an isolated edge at all). -/
def anchorOk (f : AllFacts R L P) (a : P) : Prop :=
  ∀ x, (x, a) ∈ f.cfg_edge → inDeg f a = 1 →
    2 ≤ outDeg f x ∨ is_edge_collapsible f x a = false

/-- The behaviour of `collapse_edge` as described by the specification,
with the one correction the code forces: when the collapse keeps `p`, the
code drops *every* edge whose target is `q` (not only the edge `(p, q)`),
and symmetrically, when it keeps `q`, every edge whose source is `p`.
Branch conditions follow the spec: `q` is not an endpoint iff some edge of
the current `cfg_edge` has `q` as source; `p` is not a startpoint iff some
edge has `p` as target; if neither holds the store is left unchanged. -/
def collapse_edge_described (f : AllFacts R L P) (p q : P) : AllFacts R L P :=
  if ∃ e ∈ f.cfg_edge, e.1 = q then
    { borrow_region := f.borrow_region.filter fun t => decide (t.2.2 ≠ q)
      universal_region := f.universal_region
      cfg_edge :=
        (f.cfg_edge.filter fun e => decide (e.2 ≠ q)).map
          fun e => if e.1 = q then (p, e.2) else e
      killed := f.killed.filter fun t => decide (t.2 ≠ q)
      outlives := f.outlives.filter fun t => decide (t.2.2 ≠ q)
      region_live_at := f.region_live_at.filter fun t => decide (t.2 ≠ q)
      invalidates := f.invalidates.filter fun t => decide (t.1 ≠ q) }
  else if ∃ e ∈ f.cfg_edge, e.2 = p then
    { borrow_region := f.borrow_region.filter fun t => decide (t.2.2 ≠ p)
      universal_region := f.universal_region
      cfg_edge :=
        (f.cfg_edge.filter fun e => decide (e.1 ≠ p)).map
          fun e => if e.2 = p then (e.1, q) else e
      killed := f.killed.filter fun t => decide (t.2 ≠ p)
      outlives := f.outlives.filter fun t => decide (t.2.2 ≠ p)
      region_live_at := f.region_live_at.filter fun t => decide (t.2 ≠ p)
      invalidates := f.invalidates.filter fun t => decide (t.1 ≠ p) }
  else f

/-- The behaviour of `collapse_edge` exactly as the claim words it: only
the edge `(p, q)` itself is dropped, and every remaining edge with source
`q` (resp. target `p`) is rewritten; other edges touching the removed
point are kept. -/
def collapse_edge_claimed (f : AllFacts R L P) (p q : P) : AllFacts R L P :=
  if ∃ e ∈ f.cfg_edge, e.1 = q then
    { borrow_region := f.borrow_region.filter fun t => decide (t.2.2 ≠ q)
      universal_region := f.universal_region
      cfg_edge :=
        (f.cfg_edge.filter fun e => decide (e ≠ (p, q))).map
          fun e => if e.1 = q then (p, e.2) else e
      killed := f.killed.filter fun t => decide (t.2 ≠ q)
      outlives := f.outlives.filter fun t => decide (t.2.2 ≠ q)
      region_live_at := f.region_live_at.filter fun t => decide (t.2 ≠ q)
      invalidates := f.invalidates.filter fun t => decide (t.1 ≠ q) }
  else if ∃ e ∈ f.cfg_edge, e.2 = p then
    { borrow_region := f.borrow_region.filter fun t => decide (t.2.2 ≠ p)
      universal_region := f.universal_region
      cfg_edge :=
        (f.cfg_edge.filter fun e => decide (e ≠ (p, q))).map
          fun e => if e.2 = p then (e.1, q) else e
      killed := f.killed.filter fun t => decide (t.2 ≠ p)
      outlives := f.outlives.filter fun t => decide (t.2.2 ≠ p)
      region_live_at := f.region_live_at.filter fun t => decide (t.2 ≠ p)
      invalidates := f.invalidates.filter fun t => decide (t.1 ≠ p) }
  else f

end Engine

/-- A fact store over `usize` atoms whose only nonempty relation is
`cfg_edge`, as built by `assert_reduction` (facts.rs lines 299-306). -/
def edgeOnlyFacts (edges : List (Nat × Nat)) : AllFacts Nat Nat Nat where
  borrow_region := []
  universal_region := []
  cfg_edge := edges
  killed := []
  outlives := []
  region_live_at := []
  invalidates := []

/-- The `chain_with_loop` test input (facts.rs lines 278-297). -/
def loopFacts : AllFacts Nat Nat Nat :=
  edgeOnlyFacts
    [(0, 1), (1, 2), (2, 3), (3, 4), (4, 5), (5, 6), (6, 7), (7, 8), (8, 9),
      (3, 10), (10, 11), (11, 8)]

/-- A store where regions 1 and 2 are live at both point 0 and point 1,
but recorded in opposite orders, so the live-region *sets* agree while the
live-region `Vec`s differ. -/
def liveMismatchFacts : AllFacts Nat Nat Nat where
  borrow_region := []
  universal_region := []
  cfg_edge := []
  killed := []
  outlives := []
  region_live_at := [(1, 0), (2, 0), (2, 1), (1, 1)]
  invalidates := []

section Loader

/-!
Model of the fact-file loader (`src/tab_delim.rs`).  The loader's
collaborators `crate::intern` (the interning tables) and the binary
crate's `crate::facts::AllFacts` are not part of the sources; they are
modelled from the spec below.  Atoms of the three kinds are dense integer
indices into per-kind interning tables.
-/

/-- The three kinds of atoms resolved through separate interning tables. -/
inductive AtomKind : Type
  | region
  | loan
  | point
deriving DecidableEq, Repr

/-- Modelled from the spec: the per-kind string interning tables of the
missing `crate::intern` module ("string values resolved through a shared
per-kind interning table").  Each table maps the atom index to the token
interned at that index. -/
structure InternerTables where
  regions : List String
  loans : List String
  points : List String
deriving DecidableEq, Repr

/-- The table of one kind. -/
def tableOf (k : AtomKind) (t : InternerTables) : List String :=
  match k with
  | .region => t.regions
  | .loan => t.loans
  | .point => t.points

/-- Modelled from the spec: interning into one table — an already-known
token resolves to its existing index, a fresh token is appended and gets
the next dense index. -/
def internIn (table : List String) (s : String) : Nat × List String :=
  match table.findIdx? (· == s) with
  | some i => (i, table)
  | none => (table.length, table ++ [s])

/-- Modelled from the spec: `InternTo::intern` of the missing
`crate::intern` module, dispatching on the atom kind. -/
def intern (k : AtomKind) (t : InternerTables) (s : String) : Nat × InternerTables :=
  match k with
  | .region =>
    let r := internIn t.regions s
    (r.1, { t with regions := r.2 })
  | .loan =>
    let r := internIn t.loans s
    (r.1, { t with loans := r.2 })
  | .point =>
    let r := internIn t.points s
    (r.1, { t with points := r.2 })

/-- Split a character list at every occurrence of the separator
character. -/
def splitOnChar (sep : Char) : List Char → List (List Char)
  | [] => [[]]
  | c :: cs =>
    let r := splitOnChar sep cs
    if c = sep then [] :: r
    else
      match r with
      | [] => [[c]]
      | h :: t => (c :: h) :: t

/-- `line.split("\t")` (tab_delim.rs line 61): the tab-separated columns
of one line.  The separator is the single character `'\t'`, so splitting
the character list at tabs is exact. -/
def tabColumns (line : String) : List String :=
  (splitOnChar '\t' line.data).map fun cs => { data := cs }

/-- One `inputs.next()` plus interning step of `FromTabDelimited::parse`
(tab_delim.rs lines 85-92): `none` when the columns are exhausted. -/
def parseAtom (k : AtomKind) (t : InternerTables) (cols : List String) :
    Option (InternerTables × Nat × List String) :=
  match cols with
  | [] => none
  | c :: cs =>
    let r := intern k t c
    some (r.2, r.1, cs)

/-- Parse one line into a 1-tuple row, failing (fatally) on too few or
leftover columns (tab_delim.rs lines 59-75). -/
def parseLine1 (k1 : AtomKind) (t : InternerTables) (line : String) :
    Option (InternerTables × Nat) :=
  (parseAtom k1 t (tabColumns line)).bind fun w =>
    if w.2.2.isEmpty then some (w.1, w.2.1) else none

/-- Parse one line into a pair row (tab_delim.rs lines 94-107 plus the
leftover-column check of lines 71-74). -/
def parseLine2 (k1 k2 : AtomKind) (t : InternerTables) (line : String) :
    Option (InternerTables × Nat × Nat) :=
  (parseAtom k1 t (tabColumns line)).bind fun w =>
    (parseAtom k2 w.1 w.2.2).bind fun w2 =>
      if w2.2.2.isEmpty then some (w2.1, w.2.1, w2.2.1) else none

/-- Parse one line into a triple row (tab_delim.rs lines 109-124 plus the
leftover-column check). -/
def parseLine3 (k1 k2 k3 : AtomKind) (t : InternerTables) (line : String) :
    Option (InternerTables × Nat × Nat × Nat) :=
  (parseAtom k1 t (tabColumns line)).bind fun w =>
    (parseAtom k2 w.1 w.2.2).bind fun w2 =>
      (parseAtom k3 w2.1 w2.2.2).bind fun w3 =>
        if w3.2.2.isEmpty then some (w3.1, w.2.1, w2.2.1, w3.2.1) else none

/-- `load_tab_delimited_file` for a 1-column relation (tab_delim.rs lines
53-79): parse every line, threading the interning tables; any line
failure aborts the whole load (`process::exit(1)` is modelled by `none`). -/
def parseFile1 (k1 : AtomKind) : InternerTables → List String →
    Option (InternerTables × List Nat)
  | t, [] => some (t, [])
  | t, line :: rest =>
    (parseLine1 k1 t line).bind fun w =>
      (parseFile1 k1 w.1 rest).map fun w2 => (w2.1, w.2 :: w2.2)

/-- `load_tab_delimited_file` for a 2-column relation. -/
def parseFile2 (k1 k2 : AtomKind) : InternerTables → List String →
    Option (InternerTables × List (Nat × Nat))
  | t, [] => some (t, [])
  | t, line :: rest =>
    (parseLine2 k1 k2 t line).bind fun w =>
      (parseFile2 k1 k2 w.1 rest).map fun w2 => (w2.1, w.2 :: w2.2)

/-- `load_tab_delimited_file` for a 3-column relation. -/
def parseFile3 (k1 k2 k3 : AtomKind) : InternerTables → List String →
    Option (InternerTables × List (Nat × Nat × Nat))
  | t, [] => some (t, [])
  | t, line :: rest =>
    (parseLine3 k1 k2 k3 t line).bind fun w =>
      (parseFile3 k1 k2 k3 w.1 rest).map fun w2 => (w2.1, w.2 :: w2.2)

/-- One `map.entry(k).or_insert(Vec::new()).push(v)` step of the fold in
`load_tab_delimited_facts` (tab_delim.rs lines 30-33). -/
def insertGrouped {V : Type} [DecidableEq V] (m : List (Nat × List V)) (k : Nat) (v : V) :
    List (Nat × List V) :=
  if m.any fun e => decide (e.1 = k) then
    m.map fun e => if e.1 = k then (e.1, e.2 ++ [v]) else e
  else
    m ++ [(k, [v])]

/-- The `fold(HashMap::new(), ...)` of `load_tab_delimited_facts`,
grouping rows by key (the resulting `HashMap<K, Vec<V>>` is represented
as an association list in first-occurrence key order). -/
def groupByKey {V : Type} [DecidableEq V] (rows : List (Nat × V)) : List (Nat × List V) :=
  rows.foldl (fun m r => insertGrouped m r.1 r.2) []

/-- Ungrouping: the relation (multiset of tuples) represented by a
grouped, point-indexed map. -/
def ungroup {V : Type} (m : List (Nat × List V)) : List (Nat × V) :=
  m.flatMap fun e => e.2.map fun v => (e.1, v)

/-- Modelled from the spec: the binary crate's `crate::facts::AllFacts`
(not under the sources), whose five point-indexed relations are the
grouped maps produced by `load_tab_delimited_facts` ("an index keyed by
one column ... both are valid representations of the same relation"). -/
structure AllFactsLoaded where
  borrow_region : List (Nat × List (Nat × Nat))
  universal_region : List Nat
  cfg_edge : List (Nat × Nat)
  killed : List (Nat × List Nat)
  outlives : List (Nat × List (Nat × Nat))
  region_live_at : List (Nat × List Nat)
  invalidates : List (Nat × List Nat)
deriving DecidableEq, Repr

/-- The seven fact file names, one per relation (tab_delim.rs line 25:
`format!("{}.facts", stringify!($t))`). -/
def factFileNames : List String :=
  ["borrow_region.facts", "universal_region.facts", "cfg_edge.facts", "killed.facts",
    "outlives.facts", "region_live_at.facts", "invalidates.facts"]

/-- The column schemas of the seven relations, in macro order
(tab_delim.rs lines 40-50). -/
def relationSchemas : List (String × List AtomKind) :=
  [("borrow_region", [.region, .loan, .point]),
    ("universal_region", [.region]),
    ("cfg_edge", [.point, .point]),
    ("killed", [.loan, .point]),
    ("outlives", [.region, .region, .point]),
    ("region_live_at", [.region, .point]),
    ("invalidates", [.point, .loan])]

/-- `load_tab_delimited_facts` (tab_delim.rs lines 16-51): load the seven
`<relation>.facts` files (the directory is modelled as a partial map from
file name to the file's lines; a missing file is `File::open` failing),
threading the interning tables through the relations in macro order, and
build the grouped `AllFacts`.  Any parse failure aborts the whole load. -/
def loadFilesA (t : InternerTables) (dir : String → Option (List String)) :
    Option (InternerTables × List (Nat × Nat × Nat) × List Nat × List (Nat × Nat)) := do
  let l1 ← dir "borrow_region.facts"
  let w1 ← parseFile3 AtomKind.region AtomKind.loan AtomKind.point t l1
  let l2 ← dir "universal_region.facts"
  let w2 ← parseFile1 AtomKind.region w1.1 l2
  let l3 ← dir "cfg_edge.facts"
  let w3 ← parseFile2 AtomKind.point AtomKind.point w2.1 l3
  some (w3.1, w1.2, w2.2, w3.2)

def loadFilesB (t : InternerTables) (dir : String → Option (List String)) :
    Option (InternerTables × List (Nat × Nat) × List (Nat × Nat × Nat)) := do
  let l4 ← dir "killed.facts"
  let w4 ← parseFile2 AtomKind.loan AtomKind.point t l4
  let l5 ← dir "outlives.facts"
  let w5 ← parseFile3 AtomKind.region AtomKind.region AtomKind.point w4.1 l5
  some (w5.1, w4.2, w5.2)

def loadFilesC (t : InternerTables) (dir : String → Option (List String)) :
    Option (InternerTables × List (Nat × Nat) × List (Nat × Nat)) := do
  let l6 ← dir "region_live_at.facts"
  let w6 ← parseFile2 AtomKind.region AtomKind.point t l6
  let l7 ← dir "invalidates.facts"
  let w7 ← parseFile2 AtomKind.point AtomKind.loan w6.1 l7
  some (w7.1, w6.2, w7.2)

def load_tab_delimited_facts (t : InternerTables) (dir : String → Option (List String)) :
    Option (InternerTables × AllFactsLoaded) := do
  let a ← loadFilesA t dir
  let b ← loadFilesB a.1 dir
  let c ← loadFilesC b.1 dir
  some (c.1,
    { borrow_region := groupByKey (a.2.1.map fun r => (r.2.2, (r.1, r.2.1)))
      universal_region := a.2.2.1
      cfg_edge := a.2.2.2
      killed := groupByKey (b.2.1.map fun r => (r.2, r.1))
      outlives := groupByKey (b.2.2.map fun r => (r.2.2, (r.1, r.2.1)))
      region_live_at := groupByKey (c.2.1.map fun r => (r.2, r.1))
      invalidates := groupByKey (c.2.2.map fun r => (r.1, r.2)) })

/-- An example facts directory: every relation file is present and empty
except `cfg_edge.facts`, which holds one well-formed line. -/
def exampleDir : String → Option (List String) :=
  fun name => if name = "cfg_edge.facts" then some ["a\tb"] else
    if name ∈ factFileNames then some [] else none

/-- An example facts directory whose `killed.facts` has a line with too
few columns. -/
def badColumnsDir : String → Option (List String) :=
  fun name => if name = "killed.facts" then some ["only_one_column"] else
    if name ∈ factFileNames then some [] else none

/-- The empty interning tables. -/
def emptyTables : InternerTables where
  regions := []
  loans := []
  points := []

end Loader

section Lemmas

variable {R L P : Type} [DecidableEq R] [DecidableEq L] [DecidableEq P]

theorem killed_loans_at_eq_nil_iff (f : AllFacts R L P) (p : P) :
    killed_loans_at f p = [] ↔ ∀ t ∈ f.killed, t.2 ≠ p := by
  simp only [killed_loans_at, List.filterMap_eq_nil_iff]
  refine forall_congr' fun t => imp_congr_right fun _ => ?_
  by_cases h : t.2 = p <;> simp [h]

theorem outlives_at_eq_nil_iff (f : AllFacts R L P) (p : P) :
    outlives_at f p = [] ↔ ∀ t ∈ f.outlives, t.2.2 ≠ p := by
  simp only [outlives_at, List.filterMap_eq_nil_iff]
  refine forall_congr' fun t => imp_congr_right fun _ => ?_
  by_cases h : t.2.2 = p <;> simp [h]

theorem invalidates_at_eq_nil_iff (f : AllFacts R L P) (p : P) :
    invalidates_at f p = [] ↔ ∀ t ∈ f.invalidates, t.1 ≠ p := by
  simp only [invalidates_at, List.filterMap_eq_nil_iff]
  refine forall_congr' fun t => imp_congr_right fun _ => ?_
  by_cases h : t.1 = p <;> simp [h]

theorem is_edge_collapsible_eq_true (f : AllFacts R L P) (p q : P) :
    is_edge_collapsible f p q = true ↔
      (live_regions_at f p = live_regions_at f q
        ∧ (∀ t ∈ f.killed, t.2 ≠ p ∧ t.2 ≠ q)
        ∧ (∀ t ∈ f.outlives, t.2.2 ≠ p ∧ t.2.2 ≠ q)
        ∧ (∀ t ∈ f.invalidates, t.1 ≠ p ∧ t.1 ≠ q)) := by
  simp only [is_edge_collapsible, Bool.and_eq_true, decide_eq_true_eq, List.isEmpty_iff,
    killed_loans_at_eq_nil_iff, outlives_at_eq_nil_iff, invalidates_at_eq_nil_iff]
  constructor
  · rintro ⟨⟨⟨⟨⟨⟨h1, h2⟩, h3⟩, h4⟩, h5⟩, h6⟩, h7⟩
    exact ⟨h1, fun t ht => ⟨h2 t ht, h3 t ht⟩, fun t ht => ⟨h4 t ht, h5 t ht⟩,
      fun t ht => ⟨h6 t ht, h7 t ht⟩⟩
  · rintro ⟨h1, h2, h3, h4⟩
    exact ⟨⟨⟨⟨⟨⟨h1, fun t ht => (h2 t ht).1⟩, fun t ht => (h2 t ht).2⟩,
      fun t ht => (h3 t ht).1⟩, fun t ht => (h3 t ht).2⟩,
      fun t ht => (h4 t ht).1⟩, fun t ht => (h4 t ht).2⟩

theorem is_endpoint_eq_false_iff (f : AllFacts R L P) (pt : P) :
    is_endpoint f pt = false ↔ ∃ e ∈ f.cfg_edge, e.1 = pt := by
  simp [is_endpoint, List.all_eq_false]

theorem is_startpoint_eq_false_iff (f : AllFacts R L P) (pt : P) :
    is_startpoint f pt = false ↔ ∃ e ∈ f.cfg_edge, e.2 = pt := by
  simp [is_startpoint, List.all_eq_false]

theorem collapse_edge_universal_region (f : AllFacts R L P) (p q : P) :
    (collapse_edge f p q).universal_region = f.universal_region := by
  unfold collapse_edge
  split_ifs <;> rfl

theorem simplify_chain_go_universal_region (chain : List P) :
    ∀ (f : AllFacts R L P) (c : P),
      (simplify_chain_go f c chain).universal_region = f.universal_region := by
  induction chain with
  | nil => intro f c; rfl
  | cons s rest ih =>
    intro f c
    simp only [simplify_chain_go]
    split_ifs with h
    · rw [ih, collapse_edge_universal_region]
    · exact ih f s

theorem foldl_simplify_chain_universal_region (cs : List (List P)) :
    ∀ f : AllFacts R L P, (cs.foldl simplify_chain f).universal_region = f.universal_region := by
  induction cs with
  | nil => intro f; rfl
  | cons c cs ih =>
    intro f
    rw [List.foldl_cons, ih]
    cases c with
    | nil => rfl
    | cons h t => exact simplify_chain_go_universal_region t f h

theorem filter_eq_singleton_iff {α : Type _} (p : α → Bool) (l : List α) (a : α) :
    l.filter p = [a] ↔ a ∈ l ∧ p a = true ∧ l.countP p = 1 := by
  constructor
  · intro h
    have ha : a ∈ l.filter p := by rw [h]; exact List.mem_singleton.mpr rfl
    rw [List.mem_filter] at ha
    refine ⟨ha.1, ha.2, ?_⟩
    rw [List.countP_eq_length_filter, h]
    rfl
  · rintro ⟨ha, hpa, hc⟩
    rw [List.countP_eq_length_filter] at hc
    obtain ⟨b, hb⟩ := List.length_eq_one.mp hc
    have hmem : a ∈ l.filter p := List.mem_filter.mpr ⟨ha, hpa⟩
    rw [hb] at hmem ⊢
    rw [List.mem_singleton] at hmem
    rw [hmem]

theorem succOf_eq_some_iff (edges : List (P × P)) (p q : P) :
    succOf edges p = some q ↔ edges.filter (fun e => decide (e.1 = p)) = [(p, q)] := by
  cases h : edges.filter fun e => decide (e.1 = p) with
  | nil => simp [succOf, h]
  | cons e rest =>
    cases rest with
    | nil =>
      have he : e ∈ edges.filter fun e => decide (e.1 = p) := by
        rw [h]; exact List.mem_singleton.mpr rfl
      rw [List.mem_filter] at he
      have he1 : e.1 = p := by simpa using he.2
      simp only [succOf, h]
      constructor
      · rintro hq
        have hq' : e.2 = q := by simpa using hq
        have : e = (p, q) := by
          cases e; simp_all
        rw [this]
      · intro hh
        have : e = (p, q) := by simpa using hh
        rw [this]
    | cons e2 rest2 => simp [succOf, h]

theorem predOf_eq_some_iff (edges : List (P × P)) (p q : P) :
    predOf edges q = some p ↔ edges.filter (fun e => decide (e.2 = q)) = [(p, q)] := by
  cases h : edges.filter fun e => decide (e.2 = q) with
  | nil => simp [predOf, h]
  | cons e rest =>
    cases rest with
    | nil =>
      have he : e ∈ edges.filter fun e => decide (e.2 = q) := by
        rw [h]; exact List.mem_singleton.mpr rfl
      rw [List.mem_filter] at he
      have he2 : e.2 = q := by simpa using he.2
      simp only [predOf, h]
      constructor
      · rintro hq
        have hq' : e.1 = p := by simpa using hq
        have : e = (p, q) := by
          cases e; simp_all
        rw [this]
      · intro hh
        have : e = (p, q) := by simpa using hh
        rw [this]
    | cons e2 rest2 => simp [predOf, h]

theorem predOf_isSome_iff (edges : List (P × P)) (q : P) :
    (predOf edges q).isSome = true ↔ edges.countP (fun e => decide (e.2 = q)) = 1 := by
  rw [List.countP_eq_length_filter]
  cases h : edges.filter fun e => decide (e.2 = q) with
  | nil => simp [predOf, h]
  | cons e rest =>
    cases rest with
    | nil => simp [predOf, h]
    | cons e2 rest2 => simp [predOf, h]

theorem isolatedSucc_eq_some_iff (edges : List (P × P)) (p q : P) :
    isolatedSucc edges p = some q ↔
      succOf edges p = some q ∧ (predOf edges q).isSome = true := by
  unfold isolatedSucc
  cases hs : succOf edges p with
  | none => simp
  | some q' =>
    simp only [Option.some_bind]
    by_cases h : (predOf edges q').isSome = true
    · rw [if_pos h]
      constructor
      · intro hh
        have : q' = q := by simpa using hh
        subst this
        exact ⟨rfl, h⟩
      · rintro ⟨h1, _⟩
        simpa using h1
    · rw [if_neg h]
      constructor
      · intro hh; simp at hh
      · rintro ⟨h1, h2⟩
        have : q' = q := by simpa using h1
        subst this
        exact absurd h2 h

theorem chainsGo_ne_nil (hs : List P) :
    ∀ (m : List (P × P)) (c : List P), c ∈ chainsGo hs m → c ≠ [] := by
  induction hs with
  | nil => intro m c hc; simp [chainsGo] at hc
  | cons h t ih =>
    intro m c hc
    simp only [chainsGo] at hc
    rcases List.mem_cons.mp hc with h1 | h2
    · rw [h1]; simp
    · exact ih _ c h2

theorem foldlM_simplify_chain_checked (cs : List (List P)) :
    (∀ c ∈ cs, c ≠ []) → ∀ f : AllFacts R L P,
      cs.foldlM simplify_chain_checked f = some (cs.foldl simplify_chain f) := by
  induction cs with
  | nil => intro _ f; rfl
  | cons c cs ih =>
    intro h f
    cases c with
    | nil => exact absurd rfl (h [] (List.mem_cons_self _ _))
    | cons hd tl =>
      have step : simplify_chain_checked f (hd :: tl) = some (simplify_chain f (hd :: tl)) := rfl
      simp only [List.foldlM_cons, step, List.foldl_cons, Option.some_bind]
      exact ih (fun c hc => h c (List.mem_cons_of_mem _ hc)) _

theorem walk_congr (fuel₁ : Nat) :
    ∀ (fuel₂ : Nat) (m : List (P × P)) (c : P),
      m.length ≤ fuel₁ → m.length ≤ fuel₂ → walk fuel₁ m c = walk fuel₂ m c := by
  induction fuel₁ with
  | zero =>
    intro fuel₂ m c h1 _
    have hm : m = [] := List.eq_nil_of_length_eq_zero (Nat.le_zero.mp h1)
    subst hm
    cases fuel₂ <;> rfl
  | succ n ih =>
    intro fuel₂ m c h1 h2
    cases fuel₂ with
    | zero =>
      have hm : m = [] := List.eq_nil_of_length_eq_zero (Nat.le_zero.mp h2)
      subst hm
      rfl
    | succ k =>
      simp only [walk]
      cases hf : m.find? fun e => decide (e.1 = c) with
      | none => rfl
      | some e =>
        have hlt : (m.filter fun e2 => decide (e2.1 ≠ c)).length < m.length := by
          rw [List.length_filter_lt_length_iff_exists]
          exact ⟨e, List.mem_of_find?_eq_some hf, by simpa using List.find?_some hf⟩
        have heq := ih k (m.filter fun e2 => decide (e2.1 ≠ c)) e.2
          (by omega) (by omega)
        dsimp only
        rw [heq]

theorem simplify_chain_go_trace_fst (chain : List P) :
    ∀ (f : AllFacts R L P) (c : P),
      (simplify_chain_go_trace f c chain).1 = simplify_chain_go f c chain := by
  induction chain with
  | nil => intro f c; rfl
  | cons s rest ih =>
    intro f c
    simp only [simplify_chain_go_trace, simplify_chain_go]
    split_ifs with h
    · exact ih _ _
    · exact ih _ _

theorem simplify_chain_go_trace_sound (chain : List P) :
    ∀ (f : AllFacts R L P) (c : P) (ev : AllFacts R L P × P × P),
      ev ∈ (simplify_chain_go_trace f c chain).2 → collapseEventOk ev := by
  induction chain with
  | nil => intro f c ev hev; simp [simplify_chain_go_trace] at hev
  | cons s rest ih =>
    intro f c ev hev
    simp only [simplify_chain_go_trace] at hev
    split_ifs at hev with h
    · rcases List.mem_cons.mp hev with h1 | hev'
      · obtain ⟨h1', h2, h3, h4⟩ := (is_edge_collapsible_eq_true f c s).mp h
        rw [h1]
        exact ⟨fun r => by rw [h1'], h2, h3, h4⟩
      · exact ih _ _ _ hev'
    · exact ih _ _ _ hev

theorem foldl_trace_fst (cs : List (List P)) :
    ∀ acc : AllFacts R L P × List (AllFacts R L P × P × P),
      (cs.foldl simplify_cfg_trace_step acc).1 = cs.foldl simplify_chain acc.1 := by
  induction cs with
  | nil => intro acc; rfl
  | cons c cs ih =>
    intro acc
    rw [List.foldl_cons, List.foldl_cons, ih]
    cases c with
    | nil => rfl
    | cons hd tl =>
      have : (simplify_cfg_trace_step acc (hd :: tl)).1 = simplify_chain acc.1 (hd :: tl) := by
        simp only [simplify_cfg_trace_step, simplify_chain]
        exact simplify_chain_go_trace_fst tl acc.1 hd
      rw [this]

theorem foldl_trace_sound (cs : List (List P)) :
    ∀ acc : AllFacts R L P × List (AllFacts R L P × P × P),
      (∀ ev ∈ acc.2, collapseEventOk ev) →
        ∀ ev ∈ (cs.foldl simplify_cfg_trace_step acc).2, collapseEventOk ev := by
  induction cs with
  | nil => intro acc hacc ev hev; exact hacc ev hev
  | cons c cs ih =>
    intro acc hacc ev hev
    rw [List.foldl_cons] at hev
    refine ih _ ?_ ev hev
    intro ev' hev'
    cases c with
    | nil => exact hacc ev' hev'
    | cons hd tl =>
      simp only [simplify_cfg_trace_step] at hev'
      rcases List.mem_append.mp hev' with h1 | h2
      · exact hacc ev' h1
      · exact simplify_chain_go_trace_sound tl acc.1 hd ev' h2

theorem mem_isolatedEdges_iff (edges : List (P × P)) (p q : P) :
    (p, q) ∈ isolatedEdges edges ↔ isolatedSucc edges p = some q := by
  unfold isolatedEdges
  rw [List.mem_filterMap]
  constructor
  · rintro ⟨a, _, hm⟩
    rw [Option.map_eq_some'] at hm
    obtain ⟨b, hb, heq⟩ := hm
    have ha : a = p := congrArg Prod.fst heq
    have hbq : b = q := congrArg Prod.snd heq
    rw [ha, hbq] at hb
    exact hb
  · intro h
    refine ⟨p, ?_, by rw [h]; rfl⟩
    rw [List.mem_dedup]
    have hsucc : succOf edges p = some q := ((isolatedSucc_eq_some_iff edges p q).mp h).1
    have hfil := (succOf_eq_some_iff edges p q).mp hsucc
    have hmem : (p, q) ∈ edges :=
      ((filter_eq_singleton_iff _ edges (p, q)).mp hfil).1
    exact List.mem_map.mpr ⟨(p, q), hmem, rfl⟩

theorem isolatedEdges_mem_edges (edges : List (P × P)) {p q : P}
    (h : (p, q) ∈ isolatedEdges edges) : (p, q) ∈ edges := by
  have hs : succOf edges p = some q :=
    ((isolatedSucc_eq_some_iff edges p q).mp ((mem_isolatedEdges_iff edges p q).mp h)).1
  exact ((filter_eq_singleton_iff _ edges (p, q)).mp ((succOf_eq_some_iff edges p q).mp hs)).1

theorem isolatedEdges_inj (edges : List (P × P)) {p1 p2 q : P}
    (h1 : (p1, q) ∈ isolatedEdges edges) (h2 : (p2, q) ∈ isolatedEdges edges) : p1 = p2 := by
  have hm1 := isolatedEdges_mem_edges edges h1
  have hm2 := isolatedEdges_mem_edges edges h2
  have hps : (predOf edges q).isSome = true :=
    ((isolatedSucc_eq_some_iff edges p1 q).mp ((mem_isolatedEdges_iff edges p1 q).mp h1)).2
  obtain ⟨p0, hp0⟩ := Option.isSome_iff_exists.mp hps
  have hfil := (predOf_eq_some_iff edges p0 q).mp hp0
  have e1 : (p1, q) ∈ edges.filter fun e => decide (e.2 = q) :=
    List.mem_filter.mpr ⟨hm1, by simp⟩
  have e2 : (p2, q) ∈ edges.filter fun e => decide (e.2 = q) :=
    List.mem_filter.mpr ⟨hm2, by simp⟩
  rw [hfil, List.mem_singleton] at e1 e2
  have : p1 = p0 := congrArg Prod.fst e1
  have : p2 = p0 := congrArg Prod.fst e2
  simp_all

theorem walk_final_sublist (fuel : Nat) :
    ∀ (m : List (P × P)) (c : P), (walk fuel m c).2.Sublist m := by
  induction fuel with
  | zero => intro m c; exact List.Sublist.refl m
  | succ n ih =>
    intro m c
    simp only [walk]
    cases hf : m.find? fun e => decide (e.1 = c) with
    | none => exact List.Sublist.refl m
    | some e =>
      dsimp only
      exact (ih _ _).trans (List.filter_sublist m)

theorem walk_tail_mem (fuel : Nat) :
    ∀ (m : List (P × P)) (c : P) (x : P), x ∈ (walk fuel m c).1 → ∃ k, (k, x) ∈ m := by
  induction fuel with
  | zero => intro m c x hx; simp [walk] at hx
  | succ n ih =>
    intro m c x hx
    simp only [walk] at hx
    cases hf : m.find? fun e => decide (e.1 = c) with
    | none => rw [hf] at hx; simp at hx
    | some e =>
      rw [hf] at hx
      dsimp only at hx
      have hem : e ∈ m := List.mem_of_find?_eq_some hf
      rcases List.mem_cons.mp hx with h1 | h2
      · exact ⟨e.1, by rw [h1]; exact hem⟩
      · obtain ⟨k, hk⟩ := ih _ _ _ h2
        exact ⟨k, (List.filter_sublist m).mem hk⟩

theorem walk_tail_not_value_final (fuel : Nat) :
    ∀ (m : List (P × P)) (c : P),
      (∀ p1 p2 q, (p1, q) ∈ m → (p2, q) ∈ m → p1 = p2) →
        ∀ x ∈ (walk fuel m c).1, ∀ k, (k, x) ∈ (walk fuel m c).2 → False := by
  induction fuel with
  | zero => intro m c _ x hx; simp [walk] at hx
  | succ n ih =>
    intro m c hK2 x hx k hk
    simp only [walk] at hx hk
    cases hf : m.find? fun e => decide (e.1 = c) with
    | none => rw [hf] at hx; simp at hx
    | some e =>
      rw [hf] at hx hk
      dsimp only at hx hk
      have hem : e ∈ m := List.mem_of_find?_eq_some hf
      have hec : e.1 = c := by simpa using List.find?_some hf
      have hK2' : ∀ p1 p2 q, (p1, q) ∈ m.filter (fun e2 => decide (e2.1 ≠ c)) →
          (p2, q) ∈ m.filter (fun e2 => decide (e2.1 ≠ c)) → p1 = p2 := by
        intro p1 p2 q hp1 hp2
        exact hK2 p1 p2 q ((List.filter_sublist m).mem hp1) ((List.filter_sublist m).mem hp2)
      rcases List.mem_cons.mp hx with h1 | h2
      · have hkm : (k, x) ∈ m.filter fun e2 => decide (e2.1 ≠ c) :=
          (walk_final_sublist n _ _).mem hk
        have hkm' : (k, x) ∈ m := (List.filter_sublist m).mem hkm
        have hx2 : (e.1, x) ∈ m := by rw [h1]; exact hem
        have hke : k = e.1 := hK2 k e.1 x hkm' hx2
        have hne : decide (k ≠ c) = true := (List.mem_filter.mp hkm).2
        simp only [decide_eq_true_eq] at hne
        exact hne (hke.trans hec)
      · exact ih _ _ hK2' x h2 k hk

theorem walk_tail_nodup (fuel : Nat) :
    ∀ (m : List (P × P)) (c : P),
      (∀ p1 p2 q, (p1, q) ∈ m → (p2, q) ∈ m → p1 = p2) →
      (∀ k, (k, c) ∉ m) →
        (walk fuel m c).1.Nodup ∧ c ∉ (walk fuel m c).1 := by
  induction fuel with
  | zero => intro m c _ _; simp [walk]
  | succ n ih =>
    intro m c hK2 hc
    simp only [walk]
    cases hf : m.find? fun e => decide (e.1 = c) with
    | none => simp
    | some e =>
      dsimp only
      have hem : e ∈ m := List.mem_of_find?_eq_some hf
      have hec : e.1 = c := by simpa using List.find?_some hf
      have hcm : (c, e.2) ∈ m := by rw [← hec]; exact hem
      have hK2' : ∀ p1 p2 q, (p1, q) ∈ m.filter (fun e2 => decide (e2.1 ≠ c)) →
          (p2, q) ∈ m.filter (fun e2 => decide (e2.1 ≠ c)) → p1 = p2 := by
        intro p1 p2 q hp1 hp2
        exact hK2 p1 p2 q ((List.filter_sublist m).mem hp1) ((List.filter_sublist m).mem hp2)
      have hc' : ∀ k, (k, e.2) ∉ m.filter (fun e2 => decide (e2.1 ≠ c)) := by
        intro k hkm
        have hkm' : (k, e.2) ∈ m := (List.filter_sublist m).mem hkm
        have hke : k = c := (hK2 k c e.2 hkm' hcm).trans rfl
        have : decide (k ≠ c) = true := (List.mem_filter.mp hkm).2
        simp only [decide_eq_true_eq] at this
        exact this hke
      obtain ⟨hnd, hnin⟩ := ih _ _ hK2' hc'
      refine ⟨List.nodup_cons.mpr ⟨hnin, hnd⟩, ?_⟩
      intro hcmem
      rcases List.mem_cons.mp hcmem with h1 | h2
      · exact hc c (h1 ▸ hcm)
      · obtain ⟨k, hk⟩ := walk_tail_mem n _ _ _ h2
        exact hc k ((List.filter_sublist m).mem hk)

theorem chainsGo_mem_src (hs : List P) :
    ∀ (m : List (P × P)) (c : List P) (x : P),
      c ∈ chainsGo hs m → x ∈ c → x ∈ hs ∨ ∃ k, (k, x) ∈ m := by
  induction hs with
  | nil => intro m c x hc; simp [chainsGo] at hc
  | cons h t ih =>
    intro m c x hc hx
    simp only [chainsGo] at hc
    rcases List.mem_cons.mp hc with h1 | h2
    · subst h1
      rcases List.mem_cons.mp hx with h3 | h4
      · exact Or.inl (h3 ▸ List.mem_cons_self h t)
      · exact Or.inr (walk_tail_mem _ _ _ _ h4)
    · rcases ih _ c x h2 hx with h3 | ⟨k, hk⟩
      · exact Or.inl (List.mem_cons_of_mem h h3)
      · exact Or.inr ⟨k, (walk_final_sublist _ _ _).mem hk⟩

theorem chainsGo_nodup (m₀ : List (P × P))
    (hK2 : ∀ p1 p2 q, (p1, q) ∈ m₀ → (p2, q) ∈ m₀ → p1 = p2) (hs : List P) :
    ∀ m : List (P × P), m.Sublist m₀ → (∀ h ∈ hs, ∀ k, (k, h) ∉ m₀) →
      ∀ c ∈ chainsGo hs m, c.Nodup := by
  induction hs with
  | nil => intro m _ _ c hc; simp [chainsGo] at hc
  | cons h t ih =>
    intro m hsub hh c hc
    have hK2m : ∀ p1 p2 q, (p1, q) ∈ m → (p2, q) ∈ m → p1 = p2 := by
      intro p1 p2 q hp1 hp2
      exact hK2 p1 p2 q (hsub.mem hp1) (hsub.mem hp2)
    simp only [chainsGo] at hc
    rcases List.mem_cons.mp hc with h1 | h2
    · subst h1
      have hcm : ∀ k, (k, h) ∉ m := fun k hk =>
        hh h (List.mem_cons_self h t) k (hsub.mem hk)
      obtain ⟨hnd, hnin⟩ := walk_tail_nodup m.length m h hK2m hcm
      exact List.nodup_cons.mpr ⟨hnin, hnd⟩
    · exact ih _ ((walk_final_sublist _ _ _).trans hsub)
        (fun h' hh' k => hh h' (List.mem_cons_of_mem h hh') k) c h2

theorem chainsGo_pairwise (m₀ : List (P × P))
    (hK2 : ∀ p1 p2 q, (p1, q) ∈ m₀ → (p2, q) ∈ m₀ → p1 = p2) (hs : List P) :
    ∀ m : List (P × P), m.Sublist m₀ → hs.Nodup → (∀ h ∈ hs, ∀ k, (k, h) ∉ m₀) →
      List.Pairwise (fun c₁ c₂ => ∀ x ∈ c₁, x ∉ c₂) (chainsGo hs m) := by
  induction hs with
  | nil => intro m _ _ _; simp [chainsGo]
  | cons h t ih =>
    intro m hsub hnd hh
    have hK2m : ∀ p1 p2 q, (p1, q) ∈ m → (p2, q) ∈ m → p1 = p2 := by
      intro p1 p2 q hp1 hp2
      exact hK2 p1 p2 q (hsub.mem hp1) (hsub.mem hp2)
    simp only [chainsGo]
    refine List.pairwise_cons.mpr ⟨?_, ih _ ((walk_final_sublist _ _ _).trans hsub)
      (List.nodup_cons.mp hnd).2 (fun h' hh' k => hh h' (List.mem_cons_of_mem h hh') k)⟩
    intro c' hc' x hx hx'
    rcases chainsGo_mem_src t _ c' x hc' hx' with hxt | ⟨k, hk⟩
    · rcases List.mem_cons.mp hx with h1 | h2
      · exact (List.nodup_cons.mp hnd).1 (h1 ▸ hxt)
      · obtain ⟨k, hk⟩ := walk_tail_mem _ _ _ _ h2
        exact hh x (List.mem_cons_of_mem h hxt) k (hsub.mem hk)
    · rcases List.mem_cons.mp hx with h1 | h2
      · subst h1
        exact hh x (List.mem_cons_self x t) k
          (hsub.mem ((walk_final_sublist _ _ _).mem hk))
      · exact walk_tail_not_value_final _ _ _ hK2m x h2 k hk

theorem filterMap_pair_map_fst {α β : Type _} (g : α → Option β) (l : List α) :
    (l.filterMap fun p => (g p).map fun q => (p, q)).map Prod.fst
      = l.filter fun p => (g p).isSome := by
  induction l with
  | nil => rfl
  | cons a l ih =>
    cases h : g a <;> simp [List.filterMap_cons, h, ih, List.filter_cons]

theorem isolatedEdges_keys_nodup (edges : List (P × P)) :
    ((isolatedEdges edges).map Prod.fst).Nodup := by
  unfold isolatedEdges
  rw [filterMap_pair_map_fst]
  exact (List.nodup_dedup _).filter _

theorem chainHeads_not_value (m : List (P × P)) {h : P} (hh : h ∈ chainHeads m) :
    ∀ k, (k, h) ∉ m := by
  intro k hk
  have h2 := (List.mem_filter.mp hh).2
  simp only [Bool.not_eq_true', List.any_eq_false] at h2
  have h3 := h2 (k, h) hk
  simp at h3

theorem chainHeads_key (m : List (P × P)) {h : P} (hh : h ∈ chainHeads m) :
    ∃ q, (h, q) ∈ m := by
  have := (List.mem_filter.mp hh).1
  obtain ⟨e, he, hfst⟩ := List.mem_map.mp this
  exact ⟨e.2, by rw [← hfst]; exact he⟩

theorem chainHeads_nodup (m : List (P × P)) (hkeys : (m.map Prod.fst).Nodup) :
    (chainHeads m).Nodup :=
  hkeys.filter _

theorem countP_or_disjoint {α : Type _} (p q : α → Bool) (l : List α)
    (h : ∀ a ∈ l, ¬(p a = true ∧ q a = true)) :
    l.countP (fun a => p a || q a) = l.countP p + l.countP q := by
  induction l with
  | nil => rfl
  | cons a l ih =>
    have ih' := ih fun a ha => h a (List.mem_cons_of_mem _ ha)
    have ha := h a (List.mem_cons_self _ _)
    cases hp : p a with
    | false =>
      cases hq : q a <;> simp [List.countP_cons, hp, hq, ih'] <;> omega
    | true =>
      cases hq : q a with
      | false => simp [List.countP_cons, hp, hq, ih']; omega
      | true => exact absurd ⟨hp, hq⟩ ha

theorem all_eq_all_filter {α : Type _} (l : List α) (p q : α → Bool)
    (h : ∀ a ∈ l, q a = false → p a = true) : (l.filter q).all p = l.all p := by
  induction l with
  | nil => rfl
  | cons a l ih =>
    have ih' := ih fun a ha => h a (List.mem_cons_of_mem _ ha)
    cases hq : q a
    · rw [List.filter_cons, if_neg (by simp [hq])]
      rw [List.all_cons, h a (List.mem_cons_self _ _) hq, Bool.true_and, ih']
    · rw [List.filter_cons, if_pos (by simp [hq])]
      rw [List.all_cons, List.all_cons, ih']

theorem filterMap_point_filter_ne {τ γ : Type _} (l : List τ) (π : τ → P) (v : τ → γ)
    (d x : P) (hx : x ≠ d) :
    ((l.filter fun t => decide (π t ≠ d)).filterMap fun t => if π t = x then some (v t) else none)
      = l.filterMap fun t => if π t = x then some (v t) else none := by
  induction l with
  | nil => rfl
  | cons t l ih =>
    by_cases ht : π t = d
    · rw [List.filter_cons, if_neg (by simp [ht])]
      rw [List.filterMap_cons, if_neg (fun hh : π t = x => hx (hh ▸ ht ▸ rfl))]
      exact ih
    · rw [List.filter_cons, if_pos (by simp [ht])]
      rw [List.filterMap_cons, List.filterMap_cons]
      cases hif : if π t = x then some (v t) else none
      · exact ih
      · rw [ih]

theorem live_regions_at_collapse_outside (g : AllFacts R L P) (c s x : P)
    (hx1 : x ≠ c) (hx2 : x ≠ s) :
    live_regions_at (collapse_edge g c s) x = live_regions_at g x := by
  unfold collapse_edge
  split_ifs
  · exact filterMap_point_filter_ne g.region_live_at (fun t => t.2) (fun t => t.1) s x hx2
  · exact filterMap_point_filter_ne g.region_live_at (fun t => t.2) (fun t => t.1) c x hx1
  · rfl

theorem killed_loans_at_collapse_outside (g : AllFacts R L P) (c s x : P)
    (hx1 : x ≠ c) (hx2 : x ≠ s) :
    killed_loans_at (collapse_edge g c s) x = killed_loans_at g x := by
  unfold collapse_edge
  split_ifs
  · exact filterMap_point_filter_ne g.killed (fun t => t.2) (fun t => t.1) s x hx2
  · exact filterMap_point_filter_ne g.killed (fun t => t.2) (fun t => t.1) c x hx1
  · rfl

theorem outlives_at_collapse_outside (g : AllFacts R L P) (c s x : P)
    (hx1 : x ≠ c) (hx2 : x ≠ s) :
    outlives_at (collapse_edge g c s) x = outlives_at g x := by
  unfold collapse_edge
  split_ifs
  · exact filterMap_point_filter_ne g.outlives (fun t => t.2.2) (fun t => (t.1, t.2.1)) s x hx2
  · exact filterMap_point_filter_ne g.outlives (fun t => t.2.2) (fun t => (t.1, t.2.1)) c x hx1
  · rfl

theorem invalidates_at_collapse_outside (g : AllFacts R L P) (c s x : P)
    (hx1 : x ≠ c) (hx2 : x ≠ s) :
    invalidates_at (collapse_edge g c s) x = invalidates_at g x := by
  unfold collapse_edge
  split_ifs
  · exact filterMap_point_filter_ne g.invalidates (fun t => t.1) (fun t => t.2) s x hx2
  · exact filterMap_point_filter_ne g.invalidates (fun t => t.1) (fun t => t.2) c x hx1
  · rfl

theorem all_congr_mem {α : Type _} (l : List α) (p q : α → Bool)
    (h : ∀ a ∈ l, p a = q a) : l.all p = l.all q := by
  rcases hq : l.all q with _ | _
  · rw [List.all_eq_false] at hq ⊢
    obtain ⟨a, ha, hpa⟩ := hq
    exact ⟨a, ha, by rw [h a ha]; exact hpa⟩
  · rw [List.all_eq_true] at hq ⊢
    intro a ha
    rw [h a ha]
    exact hq a ha

theorem is_endpoint_collapse_outside (g : AllFacts R L P) (c s x : P)
    (hx1 : x ≠ c) (hx2 : x ≠ s)
    (hsrc : g.cfg_edge.filter (fun e => decide (e.1 = c)) = [(c, s)])
    (htgt : g.cfg_edge.filter (fun e => decide (e.2 = s)) = [(c, s)]) :
    is_endpoint (collapse_edge g c s) x = is_endpoint g x := by
  unfold collapse_edge
  split_ifs
  · show is_endpoint (collapse_edge_keeping_first_point g c s) x = _
    unfold is_endpoint collapse_edge_keeping_first_point
    rw [List.all_map]
    rw [all_congr_mem _ _ (fun e => decide (e.1 ≠ x)) ?_]
    · refine all_eq_all_filter _ _ _ fun e he hq => ?_
      have hes : e.2 = s := by simpa using hq
      have hmem : e ∈ g.cfg_edge.filter fun e => decide (e.2 = s) :=
        List.mem_filter.mpr ⟨he, by simp [hes]⟩
      rw [htgt, List.mem_singleton] at hmem
      rw [hmem]
      simp [Ne.symm hx1]
    · intro e _
      by_cases hes : e.1 = s
      · simp [Function.comp, hes, Ne.symm hx1, Ne.symm hx2]
      · simp [Function.comp, hes]
  · show is_endpoint (collapse_edge_keeping_second_point g c s) x = _
    unfold is_endpoint collapse_edge_keeping_second_point
    rw [List.all_map]
    rw [all_congr_mem _ _ (fun e => decide (e.1 ≠ x)) ?_]
    · refine all_eq_all_filter _ _ _ fun e he hq => ?_
      have hec : e.1 = c := by simpa using hq
      have hmem : e ∈ g.cfg_edge.filter fun e => decide (e.1 = c) :=
        List.mem_filter.mpr ⟨he, by simp [hec]⟩
      rw [hsrc, List.mem_singleton] at hmem
      rw [hmem]
      simp [Ne.symm hx1]
    · intro e _
      by_cases hec : e.2 = c
      · simp [Function.comp, hec]
      · simp [Function.comp, hec]
  · rfl

theorem is_startpoint_collapse_outside (g : AllFacts R L P) (c s x : P)
    (hx1 : x ≠ c) (hx2 : x ≠ s)
    (hsrc : g.cfg_edge.filter (fun e => decide (e.1 = c)) = [(c, s)])
    (htgt : g.cfg_edge.filter (fun e => decide (e.2 = s)) = [(c, s)]) :
    is_startpoint (collapse_edge g c s) x = is_startpoint g x := by
  unfold collapse_edge
  split_ifs
  · show is_startpoint (collapse_edge_keeping_first_point g c s) x = _
    unfold is_startpoint collapse_edge_keeping_first_point
    rw [List.all_map]
    rw [all_congr_mem _ _ (fun e => decide (e.2 ≠ x)) ?_]
    · refine all_eq_all_filter _ _ _ fun e he hq => ?_
      have hes : e.2 = s := by simpa using hq
      rw [hes]
      simp [Ne.symm hx2]
    · intro e _
      by_cases hes : e.1 = s
      · simp [Function.comp, hes]
      · simp [Function.comp, hes]
  · show is_startpoint (collapse_edge_keeping_second_point g c s) x = _
    unfold is_startpoint collapse_edge_keeping_second_point
    rw [List.all_map]
    rw [all_congr_mem _ _ (fun e => decide (e.2 ≠ x)) ?_]
    · refine all_eq_all_filter _ _ _ fun e he hq => ?_
      have hec : e.1 = c := by simpa using hq
      have hmem : e ∈ g.cfg_edge.filter fun e => decide (e.1 = c) :=
        List.mem_filter.mpr ⟨he, by simp [hec]⟩
      rw [hsrc, List.mem_singleton] at hmem
      rw [hmem]
      simp [Ne.symm hx2]
    · intro e _
      by_cases hec : e.2 = c
      · simp [Function.comp, hec, Ne.symm hx1, Ne.symm hx2]
      · simp [Function.comp, hec]
  · rfl

theorem filter_src_collapse_outside (g : AllFacts R L P) (c s x y : P)
    (hx1 : x ≠ c) (hx2 : x ≠ s) (hy1 : y ≠ c) (hy2 : y ≠ s)
    (hsrc : g.cfg_edge.filter (fun e => decide (e.1 = c)) = [(c, s)])
    (htgt : g.cfg_edge.filter (fun e => decide (e.2 = s)) = [(c, s)])
    (hfil : g.cfg_edge.filter (fun e => decide (e.1 = x)) = [(x, y)]) :
    (collapse_edge g c s).cfg_edge.filter (fun e => decide (e.1 = x)) = [(x, y)] := by
  unfold collapse_edge
  split_ifs
  · show (collapse_edge_keeping_first_point g c s).cfg_edge.filter _ = _
    unfold collapse_edge_keeping_first_point
    rw [List.filter_map]
    rw [List.filter_congr (q := fun e => decide (e.1 = x)) ?_]
    · rw [List.filter_comm, hfil]
      simp [hy2, hx2]
    · intro e _
      by_cases hes : e.1 = s
      · simp [Function.comp, hes, Ne.symm hx1, Ne.symm hx2]
      · simp [Function.comp, hes]
  · show (collapse_edge_keeping_second_point g c s).cfg_edge.filter _ = _
    unfold collapse_edge_keeping_second_point
    rw [List.filter_map]
    rw [List.filter_congr (q := fun e => decide (e.1 = x)) ?_]
    · rw [List.filter_comm, hfil]
      simp [hx1, hy1]
    · intro e _
      by_cases hec : e.2 = c
      · simp [Function.comp, hec]
      · simp [Function.comp, hec]
  · exact hfil

theorem filter_tgt_collapse_outside (g : AllFacts R L P) (c s x y : P)
    (hx1 : x ≠ c) (hx2 : x ≠ s) (hy1 : y ≠ c) (hy2 : y ≠ s)
    (hsrc : g.cfg_edge.filter (fun e => decide (e.1 = c)) = [(c, s)])
    (htgt : g.cfg_edge.filter (fun e => decide (e.2 = s)) = [(c, s)])
    (hfil : g.cfg_edge.filter (fun e => decide (e.2 = y)) = [(x, y)]) :
    (collapse_edge g c s).cfg_edge.filter (fun e => decide (e.2 = y)) = [(x, y)] := by
  unfold collapse_edge
  split_ifs
  · show (collapse_edge_keeping_first_point g c s).cfg_edge.filter _ = _
    unfold collapse_edge_keeping_first_point
    rw [List.filter_map]
    rw [List.filter_congr (q := fun e => decide (e.2 = y)) ?_]
    · rw [List.filter_comm, hfil]
      simp [hy2, hx2]
    · intro e _
      by_cases hes : e.1 = s
      · simp [Function.comp, hes]
      · simp [Function.comp, hes]
  · show (collapse_edge_keeping_second_point g c s).cfg_edge.filter _ = _
    unfold collapse_edge_keeping_second_point
    rw [List.filter_map]
    rw [List.filter_congr (q := fun e => decide (e.2 = y)) ?_]
    · rw [List.filter_comm, hfil]
      simp [hx1, hy1]
    · intro e _
      by_cases hec : e.2 = c
      · simp [Function.comp, hec, Ne.symm hy1, Ne.symm hy2]
      · simp [Function.comp, hec]
  · exact hfil

theorem chainLinks_collapse_outside (g : AllFacts R L P) (c s : P)
    (hsrc : g.cfg_edge.filter (fun e => decide (e.1 = c)) = [(c, s)])
    (htgt : g.cfg_edge.filter (fun e => decide (e.2 = s)) = [(c, s)]) :
    ∀ (rest : List P) (b : P), b ≠ c → b ≠ s → (∀ x ∈ rest, x ≠ c ∧ x ≠ s) →
      chainLinks g b rest → chainLinks (collapse_edge g c s) b rest := by
  intro rest
  induction rest with
  | nil => intro b _ _ _ _; trivial
  | cons t rest ih =>
    intro b hb1 hb2 hrest hcl
    obtain ⟨h1, h2, h3⟩ := hcl
    have ht := hrest t (List.mem_cons_self _ _)
    exact ⟨filter_src_collapse_outside g c s b t hb1 hb2 ht.1 ht.2 hsrc htgt h1,
      filter_tgt_collapse_outside g c s b t hb1 hb2 ht.1 ht.2 hsrc htgt h2,
      ih t ht.1 ht.2 (fun x hx => hrest x (List.mem_cons_of_mem _ hx)) h3⟩

theorem chainLinks_collapse_step (g : AllFacts R L P) (c s : P) (rest : List P)
    (hnd : (c :: s :: rest).Nodup) (h : chainLinks g c (s :: rest)) :
    chainLinks (collapse_edge g c s) c rest := by
  obtain ⟨hsrc, htgt, hrest⟩ := h
  cases rest with
  | nil => trivial
  | cons s' rest' =>
    obtain ⟨hsrc2, htgt2, hdeep⟩ := hrest
    have hc_not : c ∉ (s :: s' :: rest') := (List.nodup_cons.mp hnd).1
    have hnd2 := (List.nodup_cons.mp hnd).2
    have hs_not : s ∉ (s' :: rest') := (List.nodup_cons.mp hnd2).1
    have hcs : c ≠ s := fun hh => hc_not (by rw [hh]; exact List.mem_cons_self _ _)
    have hcs' : c ≠ s' := fun hh =>
      hc_not (by rw [hh]; exact List.mem_cons_of_mem _ (List.mem_cons_self _ _))
    have hss' : s ≠ s' := fun hh => hs_not (by rw [hh]; exact List.mem_cons_self _ _)
    have hout : ∀ x ∈ s' :: rest', x ≠ c ∧ x ≠ s := fun x hx =>
      ⟨fun hxc => hc_not (List.mem_cons_of_mem _ (hxc ▸ hx)), fun hxs => hs_not (hxs ▸ hx)⟩
    have hmem2 : (s, s') ∈ g.cfg_edge := by
      have hm : (s, s') ∈ g.cfg_edge.filter fun e => decide (e.1 = s) := by
        rw [hsrc2]; exact List.mem_singleton.mpr rfl
      exact (List.mem_filter.mp hm).1
    have hend : is_endpoint g s = false :=
      (is_endpoint_eq_false_iff g s).mpr ⟨(s, s'), hmem2, rfl⟩
    have hframe := chainLinks_collapse_outside g c s hsrc htgt rest' s'
      (hout s' (List.mem_cons_self _ _)).1 (hout s' (List.mem_cons_self _ _)).2
      (fun x hx => hout x (List.mem_cons_of_mem _ hx)) hdeep
    have hcol : collapse_edge g c s = collapse_edge_keeping_first_point g c s := by
      unfold collapse_edge; rw [hend]; rfl
    rw [hcol] at hframe ⊢
    refine ⟨?_, ?_, hframe⟩
    · refine (filter_eq_singleton_iff _ _ _).mpr ⟨?_, by simp, ?_⟩
      · show (c, s') ∈ (g.cfg_edge.filter fun e => decide (e.2 ≠ s)).map
          fun e => if e.1 = s then (c, e.2) else e
        exact List.mem_map.mpr ⟨(s, s'),
          List.mem_filter.mpr ⟨hmem2, by simp [Ne.symm hss']⟩, by simp⟩
      · show List.countP _ ((g.cfg_edge.filter fun e => decide (e.2 ≠ s)).map
          fun e => if e.1 = s then (c, e.2) else e) = 1
        rw [List.countP_map]
        have hstep : ∀ e ∈ g.cfg_edge.filter fun e => decide (e.2 ≠ s),
            (((fun e => decide (e.1 = c)) ∘ fun e => if e.1 = s then (c, e.2) else e) e = true)
              ↔ ((decide (e.1 = s) || decide (e.1 = c)) = true) := by
          intro e _
          by_cases hes : e.1 = s <;> simp [Function.comp, hes]
        rw [List.countP_congr hstep]
        rw [countP_or_disjoint _ _ _ ?_]
        · rw [List.countP_filter, List.countP_filter]
          have hub : g.cfg_edge.countP (fun e => decide (e.1 = s) && decide (e.2 ≠ s))
              ≤ g.cfg_edge.countP fun e => decide (e.1 = s) :=
            List.countP_mono_left fun e _ hpe => by
              simp only [Bool.and_eq_true] at hpe
              exact hpe.1
          have htot : (g.cfg_edge.countP fun e => decide (e.1 = s)) = 1 := by
            rw [List.countP_eq_length_filter, hsrc2]
            rfl
          have hlb : 0 < g.cfg_edge.countP fun e => decide (e.1 = s) && decide (e.2 ≠ s) :=
            List.countP_pos.mpr ⟨(s, s'), hmem2, by simp [Ne.symm hss']⟩
          have hzero : (g.cfg_edge.countP fun e => decide (e.1 = c) && decide (e.2 ≠ s)) = 0 := by
            rw [List.countP_eq_zero]
            intro e he hpe
            simp only [Bool.and_eq_true, decide_eq_true_eq] at hpe
            have hm : e ∈ g.cfg_edge.filter fun e => decide (e.1 = c) :=
              List.mem_filter.mpr ⟨he, by simp [hpe.1]⟩
            rw [hsrc, List.mem_singleton] at hm
            exact hpe.2 (by rw [hm])
          omega
        · intro e _ hpe
          obtain ⟨h1, h2⟩ := hpe
          simp only [decide_eq_true_eq] at h1 h2
          exact hcs (h2 ▸ h1 ▸ rfl)
    · refine (filter_eq_singleton_iff _ _ _).mpr ⟨?_, by simp, ?_⟩
      · show (c, s') ∈ (g.cfg_edge.filter fun e => decide (e.2 ≠ s)).map
          fun e => if e.1 = s then (c, e.2) else e
        exact List.mem_map.mpr ⟨(s, s'),
          List.mem_filter.mpr ⟨hmem2, by simp [Ne.symm hss']⟩, by simp⟩
      · show List.countP _ ((g.cfg_edge.filter fun e => decide (e.2 ≠ s)).map
          fun e => if e.1 = s then (c, e.2) else e) = 1
        rw [List.countP_map]
        have hstep : ∀ e ∈ g.cfg_edge.filter fun e => decide (e.2 ≠ s),
            (((fun e => decide (e.2 = s')) ∘ fun e => if e.1 = s then (c, e.2) else e) e = true)
              ↔ (decide (e.2 = s') = true) := by
          intro e _
          by_cases hes : e.1 = s <;> simp [Function.comp, hes]
        rw [List.countP_congr hstep, List.countP_filter]
        have hcollapse : (g.cfg_edge.countP fun e => decide (e.2 = s') && decide (e.2 ≠ s))
            = g.cfg_edge.countP fun e => decide (e.2 = s') :=
          List.countP_congr fun e _ => by
            by_cases hh : e.2 = s' <;> simp [hh, Ne.symm hss']
        rw [hcollapse, List.countP_eq_length_filter, htgt2]
        rfl

theorem is_edge_collapsible_collapse_outside (g : AllFacts R L P) (c s a b : P)
    (ha1 : a ≠ c) (ha2 : a ≠ s) (hb1 : b ≠ c) (hb2 : b ≠ s) :
    is_edge_collapsible (collapse_edge g c s) a b = is_edge_collapsible g a b := by
  unfold is_edge_collapsible
  rw [live_regions_at_collapse_outside g c s a ha1 ha2,
    live_regions_at_collapse_outside g c s b hb1 hb2,
    killed_loans_at_collapse_outside g c s a ha1 ha2,
    killed_loans_at_collapse_outside g c s b hb1 hb2,
    outlives_at_collapse_outside g c s a ha1 ha2,
    outlives_at_collapse_outside g c s b hb1 hb2,
    invalidates_at_collapse_outside g c s a ha1 ha2,
    invalidates_at_collapse_outside g c s b hb1 hb2]

theorem filter_map_filter_map_comm {α : Type _} (l : List α) (p q : α → Bool) (f g : α → α)
    (hpg : ∀ x, p (g x) = p x) (hqf : ∀ x, q (f x) = q x)
    (hfg : ∀ x, f (g x) = g (f x)) :
    (((l.filter p).map f).filter q).map g = (((l.filter q).map g).filter p).map f := by
  rw [List.filter_map, List.filter_map, List.map_map, List.map_map]
  have h1 : (l.filter p).filter (q ∘ f) = (l.filter p).filter q :=
    List.filter_congr fun x _ => by simp [Function.comp, hqf x]
  have h2 : (l.filter q).filter (p ∘ g) = (l.filter q).filter p :=
    List.filter_congr fun x _ => by simp [Function.comp, hpg x]
  rw [h1, h2, List.filter_comm]
  exact List.map_congr_left fun x _ => by simp [Function.comp, hfg x]

theorem collapse_kf (g : AllFacts R L P) (first second : P)
    (h : is_endpoint g second = false) :
    collapse_edge g first second = collapse_edge_keeping_first_point g first second := by
  unfold collapse_edge
  rw [h]
  rfl

theorem collapse_ks (g : AllFacts R L P) (first second : P)
    (h1 : is_endpoint g second = true) (h2 : is_startpoint g first = false) :
    collapse_edge g first second = collapse_edge_keeping_second_point g first second := by
  unfold collapse_edge
  rw [h1, h2]
  rfl

theorem collapse_noop (g : AllFacts R L P) (first second : P)
    (h1 : is_endpoint g second = true) (h2 : is_startpoint g first = true) :
    collapse_edge g first second = g := by
  unfold collapse_edge
  rw [h1, h2]
  rfl

theorem collapse_collapse_comm (g : AllFacts R L P) (a s b t : P)
    (hsrc1 : g.cfg_edge.filter (fun e => decide (e.1 = a)) = [(a, s)])
    (htgt1 : g.cfg_edge.filter (fun e => decide (e.2 = s)) = [(a, s)])
    (hsrc2 : g.cfg_edge.filter (fun e => decide (e.1 = b)) = [(b, t)])
    (htgt2 : g.cfg_edge.filter (fun e => decide (e.2 = t)) = [(b, t)])
    (hab : a ≠ b) (hat : a ≠ t) (hsb : s ≠ b) (hst : s ≠ t) :
    collapse_edge (collapse_edge g a s) b t = collapse_edge (collapse_edge g b t) a s := by
  have ht_end : is_endpoint (collapse_edge g a s) t = is_endpoint g t :=
    is_endpoint_collapse_outside g a s t (Ne.symm hat) (Ne.symm hst) hsrc1 htgt1
  have hb_start : is_startpoint (collapse_edge g a s) b = is_startpoint g b :=
    is_startpoint_collapse_outside g a s b (Ne.symm hab) (Ne.symm hsb) hsrc1 htgt1
  have hs_end : is_endpoint (collapse_edge g b t) s = is_endpoint g s :=
    is_endpoint_collapse_outside g b t s hsb hst hsrc2 htgt2
  have ha_start : is_startpoint (collapse_edge g b t) a = is_startpoint g a :=
    is_startpoint_collapse_outside g b t a hab hat hsrc2 htgt2
  cases he1 : is_endpoint g s with
  | true =>
    cases hs1 : is_startpoint g a with
    | true =>
      rw [collapse_noop g a s he1 hs1,
        collapse_noop (collapse_edge g b t) a s (hs_end.trans he1) (ha_start.trans hs1)]
    | false =>
      have hA : collapse_edge g a s = collapse_edge_keeping_second_point g a s :=
        collapse_ks g a s he1 hs1
      have hA' : collapse_edge (collapse_edge g b t) a s
          = collapse_edge_keeping_second_point (collapse_edge g b t) a s :=
        collapse_ks (collapse_edge g b t) a s (hs_end.trans he1) (ha_start.trans hs1)
      cases he2 : is_endpoint g t with
      | true =>
        cases hs2 : is_startpoint g b with
        | true =>
          rw [collapse_noop (collapse_edge g a s) b t (ht_end.trans he2) (hb_start.trans hs2),
            collapse_noop g b t he2 hs2]
        | false =>
          have hB : collapse_edge g b t = collapse_edge_keeping_second_point g b t :=
            collapse_ks g b t he2 hs2
          have hB' : collapse_edge (collapse_edge g a s) b t
              = collapse_edge_keeping_second_point (collapse_edge g a s) b t :=
            collapse_ks (collapse_edge g a s) b t (ht_end.trans he2) (hb_start.trans hs2)
          rw [hB', hA', hA, hB]
          simp only [collapse_edge_keeping_second_point, AllFacts.mk.injEq]
          refine ⟨List.filter_comm _ _ _, trivial, ?_, List.filter_comm _ _ _,
            List.filter_comm _ _ _, List.filter_comm _ _ _, List.filter_comm _ _ _⟩
          refine filter_map_filter_map_comm g.cfg_edge _ _ _ _
            (fun x => ?_) (fun x => ?_) (fun x => ?_)
          · by_cases h : x.2 = b <;> simp [h, hab, hat, hsb, hst, Ne.symm hab, Ne.symm hat, Ne.symm hsb, Ne.symm hst]
          · by_cases h : x.2 = a <;> simp [h, hab, hat, hsb, hst, Ne.symm hab, Ne.symm hat, Ne.symm hsb, Ne.symm hst]
          · by_cases h1 : x.2 = a <;> by_cases h2 : x.2 = b
            · exact absurd (h1.symm.trans h2) hab
            · simp [h1, h2, hsb, hab, hat, hsb, hst, Ne.symm hab, Ne.symm hat, Ne.symm hsb, Ne.symm hst]
            · simp [h1, h2, Ne.symm hat, hab, hat, hsb, hst, Ne.symm hab, Ne.symm hat, Ne.symm hsb, Ne.symm hst]
            · simp [h1, h2, hab, hat, hsb, hst, Ne.symm hab, Ne.symm hat, Ne.symm hsb, Ne.symm hst]
      | false =>
        have hB : collapse_edge g b t = collapse_edge_keeping_first_point g b t :=
          collapse_kf g b t he2
        have hB' : collapse_edge (collapse_edge g a s) b t
            = collapse_edge_keeping_first_point (collapse_edge g a s) b t :=
          collapse_kf (collapse_edge g a s) b t (ht_end.trans he2)
        rw [hB', hA', hA, hB]
        simp only [collapse_edge_keeping_first_point, collapse_edge_keeping_second_point,
          AllFacts.mk.injEq]
        refine ⟨List.filter_comm _ _ _, trivial, ?_, List.filter_comm _ _ _,
          List.filter_comm _ _ _, List.filter_comm _ _ _, List.filter_comm _ _ _⟩
        refine filter_map_filter_map_comm g.cfg_edge _ _ _ _
          (fun x => ?_) (fun x => ?_) (fun x => ?_)
        · by_cases h : x.1 = t <;> simp [h, Ne.symm hab, Ne.symm hat, hab, hat, hsb, hst, Ne.symm hab, Ne.symm hat, Ne.symm hsb, Ne.symm hst]
        · by_cases h : x.2 = a <;> simp [h, hst, hat, hab, hat, hsb, hst, Ne.symm hab, Ne.symm hat, Ne.symm hsb, Ne.symm hst]
        · by_cases h1 : x.2 = a <;> by_cases h2 : x.1 = t <;> simp [h1, h2, hab, hat, hsb, hst, Ne.symm hab, Ne.symm hat, Ne.symm hsb, Ne.symm hst]
  | false =>
    have hA : collapse_edge g a s = collapse_edge_keeping_first_point g a s :=
      collapse_kf g a s he1
    have hA' : collapse_edge (collapse_edge g b t) a s
        = collapse_edge_keeping_first_point (collapse_edge g b t) a s :=
      collapse_kf (collapse_edge g b t) a s (hs_end.trans he1)
    cases he2 : is_endpoint g t with
    | true =>
      cases hs2 : is_startpoint g b with
      | true =>
        rw [collapse_noop (collapse_edge g a s) b t (ht_end.trans he2) (hb_start.trans hs2),
          collapse_noop g b t he2 hs2]
      | false =>
        have hB : collapse_edge g b t = collapse_edge_keeping_second_point g b t :=
          collapse_ks g b t he2 hs2
        have hB' : collapse_edge (collapse_edge g a s) b t
            = collapse_edge_keeping_second_point (collapse_edge g a s) b t :=
          collapse_ks (collapse_edge g a s) b t (ht_end.trans he2) (hb_start.trans hs2)
        rw [hB', hA', hA, hB]
        simp only [collapse_edge_keeping_first_point, collapse_edge_keeping_second_point,
          AllFacts.mk.injEq]
        refine ⟨List.filter_comm _ _ _, trivial, ?_, List.filter_comm _ _ _,
          List.filter_comm _ _ _, List.filter_comm _ _ _, List.filter_comm _ _ _⟩
        refine filter_map_filter_map_comm g.cfg_edge _ _ _ _
          (fun x => ?_) (fun x => ?_) (fun x => ?_)
        · by_cases h : x.2 = b <;> simp [h, Ne.symm hst, Ne.symm hsb, hab, hat, hsb, hst, Ne.symm hab, Ne.symm hat, Ne.symm hsb, Ne.symm hst]
        · by_cases h : x.1 = s <;> simp [h, hab, hsb, hab, hat, hsb, hst, Ne.symm hab, Ne.symm hat, Ne.symm hsb, Ne.symm hst]
        · by_cases h1 : x.1 = s <;> by_cases h2 : x.2 = b <;> simp [h1, h2, hab, hat, hsb, hst, Ne.symm hab, Ne.symm hat, Ne.symm hsb, Ne.symm hst]
    | false =>
      have hB : collapse_edge g b t = collapse_edge_keeping_first_point g b t :=
        collapse_kf g b t he2
      have hB' : collapse_edge (collapse_edge g a s) b t
          = collapse_edge_keeping_first_point (collapse_edge g a s) b t :=
        collapse_kf (collapse_edge g a s) b t (ht_end.trans he2)
      rw [hB', hA', hA, hB]
      simp only [collapse_edge_keeping_first_point, AllFacts.mk.injEq]
      refine ⟨List.filter_comm _ _ _, trivial, ?_, List.filter_comm _ _ _,
        List.filter_comm _ _ _, List.filter_comm _ _ _, List.filter_comm _ _ _⟩
      refine filter_map_filter_map_comm g.cfg_edge _ _ _ _
        (fun x => ?_) (fun x => ?_) (fun x => ?_)
      · by_cases h : x.1 = t <;> simp [h, hab, hat, hsb, hst, Ne.symm hab, Ne.symm hat, Ne.symm hsb, Ne.symm hst]
      · by_cases h : x.1 = s <;> simp [h, hab, hat, hsb, hst, Ne.symm hab, Ne.symm hat, Ne.symm hsb, Ne.symm hst]
      · by_cases h1 : x.1 = s <;> by_cases h2 : x.1 = t
        · exact absurd (h1.symm.trans h2) hst
        · simp [h1, h2, hat, hab, hat, hsb, hst, Ne.symm hab, Ne.symm hat, Ne.symm hsb, Ne.symm hst]
        · simp [h1, h2, Ne.symm hsb, hab, hat, hsb, hst, Ne.symm hab, Ne.symm hat, Ne.symm hsb, Ne.symm hst]
        · simp [h1, h2, hab, hat, hsb, hst, Ne.symm hab, Ne.symm hat, Ne.symm hsb, Ne.symm hst]

theorem nodup_cons_of_cons_cons {α : Type _} {b t : α} {l : List α}
    (h : (b :: t :: l).Nodup) : (b :: l).Nodup := by
  have h1 := List.nodup_cons.mp h
  exact List.nodup_cons.mpr
    ⟨fun hb => h1.1 (List.mem_cons_of_mem _ hb), (List.nodup_cons.mp h1.2).2⟩

theorem not_mem_cons_of_cons_cons {α : Type _} {x b t : α} {l : List α}
    (h : x ∉ b :: t :: l) : x ∉ b :: l := by
  intro hx
  rcases List.mem_cons.mp hx with h1 | h1
  · exact h (List.mem_cons.mpr (Or.inl h1))
  · exact h (List.mem_cons_of_mem _ (List.mem_cons_of_mem _ h1))

theorem go_is_edge_collapsible :
    ∀ (btl : List P) (g : AllFacts R L P) (b : P),
      chainLinks g b btl → (b :: btl).Nodup →
      ∀ x y : P, x ∉ b :: btl → y ∉ b :: btl →
        is_edge_collapsible (simplify_chain_go g b btl) x y = is_edge_collapsible g x y := by
  intro btl
  induction btl with
  | nil => intro g b _ _ x y _ _; rfl
  | cons t btl ih =>
    intro g b hlinks hnd x y hx hy
    obtain ⟨hsrcB, htgtB, hrest⟩ := hlinks
    have hxb : x ≠ b := fun hh => hx (List.mem_cons.mpr (Or.inl hh))
    have hxt : x ≠ t := fun hh =>
      hx (List.mem_cons_of_mem _ (List.mem_cons.mpr (Or.inl hh)))
    have hyb : y ≠ b := fun hh => hy (List.mem_cons.mpr (Or.inl hh))
    have hyt : y ≠ t := fun hh =>
      hy (List.mem_cons_of_mem _ (List.mem_cons.mpr (Or.inl hh)))
    simp only [simplify_chain_go]
    cases hc : is_edge_collapsible g b t with
    | true =>
      rw [if_pos rfl]
      rw [ih (collapse_edge g b t) b
        (chainLinks_collapse_step g b t btl hnd ⟨hsrcB, htgtB, hrest⟩)
        (nodup_cons_of_cons_cons hnd) x y
        (not_mem_cons_of_cons_cons hx) (not_mem_cons_of_cons_cons hy)]
      exact is_edge_collapsible_collapse_outside g b t x y hxb hxt hyb hyt
    | false =>
      rw [if_neg (by simp)]
      exact ih g t hrest (List.nodup_cons.mp hnd).2 x y
        (fun hh => hx (List.mem_cons_of_mem _ hh))
        (fun hh => hy (List.mem_cons_of_mem _ hh))

theorem collapse_go_comm :
    ∀ (btl : List P) (g : AllFacts R L P) (a s b : P),
      g.cfg_edge.filter (fun e => decide (e.1 = a)) = [(a, s)] →
      g.cfg_edge.filter (fun e => decide (e.2 = s)) = [(a, s)] →
      chainLinks g b btl → (b :: btl).Nodup →
      a ∉ b :: btl → s ∉ b :: btl →
      simplify_chain_go (collapse_edge g a s) b btl
        = collapse_edge (simplify_chain_go g b btl) a s := by
  intro btl
  induction btl with
  | nil => intro g a s b _ _ _ _ _ _; rfl
  | cons t btl ih =>
    intro g a s b hsrc htgt hlinks hnd ha hs
    obtain ⟨hsrcB, htgtB, hrest⟩ := hlinks
    have hab : a ≠ b := fun hh => ha (List.mem_cons.mpr (Or.inl hh))
    have hat : a ≠ t := fun hh =>
      ha (List.mem_cons_of_mem _ (List.mem_cons.mpr (Or.inl hh)))
    have hsb : s ≠ b := fun hh => hs (List.mem_cons.mpr (Or.inl hh))
    have hst : s ≠ t := fun hh =>
      hs (List.mem_cons_of_mem _ (List.mem_cons.mpr (Or.inl hh)))
    have hcoll : is_edge_collapsible (collapse_edge g a s) b t = is_edge_collapsible g b t :=
      is_edge_collapsible_collapse_outside g a s b t
        (Ne.symm hab) (Ne.symm hsb) (Ne.symm hat) (Ne.symm hst)
    simp only [simplify_chain_go]
    rw [hcoll]
    cases hc : is_edge_collapsible g b t with
    | true =>
      rw [if_pos rfl, if_pos rfl]
      rw [collapse_collapse_comm g a s b t hsrc htgt hsrcB htgtB hab hat hsb hst]
      exact ih (collapse_edge g b t) a s b
        (filter_src_collapse_outside g b t a s hab hat hsb hst hsrcB htgtB hsrc)
        (filter_tgt_collapse_outside g b t a s hab hat hsb hst hsrcB htgtB htgt)
        (chainLinks_collapse_step g b t btl hnd ⟨hsrcB, htgtB, hrest⟩)
        (nodup_cons_of_cons_cons hnd)
        (not_mem_cons_of_cons_cons ha) (not_mem_cons_of_cons_cons hs)
    | false =>
      rw [if_neg (by simp), if_neg (by simp)]
      exact ih g a s t hsrc htgt hrest (List.nodup_cons.mp hnd).2
        (fun hh => ha (List.mem_cons_of_mem _ hh))
        (fun hh => hs (List.mem_cons_of_mem _ hh))

theorem go_chainLinks :
    ∀ (btl : List P) (g : AllFacts R L P) (b : P),
      chainLinks g b btl → (b :: btl).Nodup →
      ∀ (x : P) (xtl : List P), x ∉ b :: btl → (∀ z ∈ xtl, z ∉ b :: btl) →
        chainLinks g x xtl → chainLinks (simplify_chain_go g b btl) x xtl := by
  intro btl
  induction btl with
  | nil => intro g b _ _ x xtl _ _ h; exact h
  | cons t btl ih =>
    intro g b hlinks hnd x xtl hx hxtl hchain
    obtain ⟨hsrcB, htgtB, hrest⟩ := hlinks
    have hxb : x ≠ b := fun hh => hx (List.mem_cons.mpr (Or.inl hh))
    have hxt : x ≠ t := fun hh =>
      hx (List.mem_cons_of_mem _ (List.mem_cons.mpr (Or.inl hh)))
    simp only [simplify_chain_go]
    cases hc : is_edge_collapsible g b t with
    | true =>
      rw [if_pos rfl]
      refine ih (collapse_edge g b t) b
        (chainLinks_collapse_step g b t btl hnd ⟨hsrcB, htgtB, hrest⟩)
        (nodup_cons_of_cons_cons hnd) x xtl
        (not_mem_cons_of_cons_cons hx)
        (fun z hz => not_mem_cons_of_cons_cons (hxtl z hz)) ?_
      refine chainLinks_collapse_outside g b t hsrcB htgtB xtl x hxb hxt
        (fun z hz => ?_) hchain
      have hz' := hxtl z hz
      exact ⟨fun hh => hz' (List.mem_cons.mpr (Or.inl hh)),
        fun hh => hz' (List.mem_cons_of_mem _ (List.mem_cons.mpr (Or.inl hh)))⟩
    | false =>
      rw [if_neg (by simp)]
      exact ih g t hrest (List.nodup_cons.mp hnd).2 x xtl
        (fun hh => hx (List.mem_cons_of_mem _ hh))
        (fun z hz => fun hh => hxtl z hz (List.mem_cons_of_mem _ hh)) hchain

theorem go_go_comm :
    ∀ (atl : List P) (g : AllFacts R L P) (a b : P) (btl : List P),
      chainLinks g a atl → (a :: atl).Nodup →
      chainLinks g b btl → (b :: btl).Nodup →
      (∀ x ∈ a :: atl, x ∉ b :: btl) →
      simplify_chain_go (simplify_chain_go g a atl) b btl
        = simplify_chain_go (simplify_chain_go g b btl) a atl := by
  intro atl
  induction atl with
  | nil => intro g a b btl _ _ _ _ _; rfl
  | cons s atl ih =>
    intro g a b btl hA hndA hB hndB hdisj
    obtain ⟨hsrc, htgt, hrest⟩ := hA
    have hsmem : s ∈ a :: s :: atl :=
      List.mem_cons_of_mem _ (List.mem_cons_self _ _)
    have haB : a ∉ b :: btl := hdisj a (List.mem_cons_self _ _)
    have hsB : s ∉ b :: btl := hdisj s hsmem
    have hba : b ≠ a := fun hh => haB (hh ▸ List.mem_cons_self _ _)
    have hbs : b ≠ s := fun hh => hsB (hh ▸ List.mem_cons_self _ _)
    have hce : is_edge_collapsible (simplify_chain_go g b btl) a s
        = is_edge_collapsible g a s :=
      go_is_edge_collapsible btl g b hB hndB a s haB hsB
    have haux : ∀ x ∈ a :: atl, x ∈ a :: s :: atl := fun x hx => by
      rcases List.mem_cons.mp hx with h | h
      · exact List.mem_cons.mpr (Or.inl h)
      · exact List.mem_cons_of_mem _ (List.mem_cons_of_mem _ h)
    simp only [simplify_chain_go]
    rw [hce]
    cases hc : is_edge_collapsible g a s with
    | true =>
      rw [if_pos rfl, if_pos rfl]
      rw [ih (collapse_edge g a s) a b btl
        (chainLinks_collapse_step g a s atl hndA ⟨hsrc, htgt, hrest⟩)
        (nodup_cons_of_cons_cons hndA)
        (chainLinks_collapse_outside g a s hsrc htgt btl b hba hbs
          (fun z hz => ⟨fun hh => haB (hh ▸ List.mem_cons_of_mem _ hz),
            fun hh => hsB (hh ▸ List.mem_cons_of_mem _ hz)⟩) hB)
        hndB
        (fun x hx => hdisj x (haux x hx))]
      rw [collapse_go_comm btl g a s b hsrc htgt hB hndB haB hsB]
    | false =>
      rw [if_neg (by simp), if_neg (by simp)]
      exact ih g s b btl hrest (List.nodup_cons.mp hndA).2 hB hndB
        (fun x hx => hdisj x (List.mem_cons_of_mem _ hx))

theorem simplify_chain_validChain (g : AllFacts R L P) (ch ch' : List P)
    (h : validChain g ch) (h' : validChain g ch')
    (hdisj : ∀ x ∈ ch, x ∉ ch') :
    validChain (simplify_chain g ch) ch' := by
  cases ch with
  | nil => exact False.elim h
  | cons c ctl =>
    cases ch' with
    | nil => exact False.elim h'
    | cons x xtl =>
      obtain ⟨hnd, hlinks⟩ := h
      obtain ⟨hnd', hlinks'⟩ := h'
      refine ⟨hnd', ?_⟩
      show chainLinks (simplify_chain_go g c ctl) x xtl
      refine go_chainLinks ctl g c hlinks hnd x xtl
        (fun hmem => hdisj x hmem (List.mem_cons_self _ _))
        (fun z hz hmem => hdisj z hmem (List.mem_cons_of_mem _ hz)) hlinks'

theorem chainsOk_step (g : AllFacts R L P) (ch : List P) (cs : List (List P))
    (h : chainsOk g (ch :: cs)) : chainsOk (simplify_chain g ch) cs := by
  obtain ⟨hall, hpair⟩ := h
  have hhd := hall ch (List.mem_cons_self _ _)
  have hrel := (List.pairwise_cons.mp hpair).1
  exact ⟨fun ch' hch' => simplify_chain_validChain g ch ch' hhd
      (hall ch' (List.mem_cons_of_mem _ hch')) (fun x hx => hrel ch' hch' x hx),
    (List.pairwise_cons.mp hpair).2⟩

theorem simplify_chain_comm (g : AllFacts R L P) (ch₁ ch₂ : List P)
    (h₁ : validChain g ch₁) (h₂ : validChain g ch₂)
    (hdisj : ∀ x ∈ ch₁, x ∉ ch₂) :
    simplify_chain (simplify_chain g ch₁) ch₂ = simplify_chain (simplify_chain g ch₂) ch₁ := by
  cases ch₁ with
  | nil => exact False.elim h₁
  | cons a atl =>
    cases ch₂ with
    | nil => exact False.elim h₂
    | cons b btl =>
      obtain ⟨hndA, hA⟩ := h₁
      obtain ⟨hndB, hB⟩ := h₂
      exact go_go_comm atl g a b btl hA hndA hB hndB hdisj

theorem chainsOk_perm (g : AllFacts R L P) {cs cs' : List (List P)}
    (hp : cs.Perm cs') (h : chainsOk g cs) : chainsOk g cs' := by
  obtain ⟨hall, hpair⟩ := h
  refine ⟨fun ch hch => hall ch (hp.symm.subset hch), ?_⟩
  refine (List.Perm.pairwise_iff ?_ hp).mp hpair
  intro c₁ c₂ hr x hx hx'
  exact hr x hx' hx

theorem foldl_simplify_chain_perm {cs cs' : List (List P)} (hp : cs.Perm cs') :
    ∀ g : AllFacts R L P, chainsOk g cs →
      cs.foldl simplify_chain g = cs'.foldl simplify_chain g := by
  induction hp with
  | nil => intro g _; rfl
  | cons ch hp ih =>
    intro g hok
    simp only [List.foldl_cons]
    exact ih (simplify_chain g ch) (chainsOk_step g ch _ hok)
  | swap ch₁ ch₂ l =>
    intro g hok
    obtain ⟨hall, hpair⟩ := hok
    have hv₂ := hall ch₂ (List.mem_cons_self _ _)
    have hv₁ := hall ch₁ (List.mem_cons_of_mem _ (List.mem_cons_self _ _))
    have hd : ∀ z ∈ ch₂, z ∉ ch₁ :=
      (List.pairwise_cons.mp hpair).1 ch₁ (List.mem_cons_self _ _)
    simp only [List.foldl_cons]
    rw [simplify_chain_comm g ch₂ ch₁ hv₂ hv₁ hd]
  | trans h₁ h₂ ih₁ ih₂ =>
    intro g hok
    exact (ih₁ g hok).trans (ih₂ g (chainsOk_perm g h₁ hok))

theorem walk_chain (fuel : Nat) :
    ∀ (m m₀ : List (P × P)) (c : P), m.Sublist m₀ →
      List.Chain (fun u v => (u, v) ∈ m₀) c (walk fuel m c).1 := by
  induction fuel with
  | zero => intro m m₀ c _; exact List.Chain.nil
  | succ n ih =>
    intro m m₀ c hsub
    simp only [walk]
    cases hf : m.find? fun e => decide (e.1 = c) with
    | none => exact List.Chain.nil
    | some e =>
      have hmem : e ∈ m := List.mem_of_find?_eq_some hf
      have hpe : e.1 = c := by
        have hp := List.find?_some hf
        simpa using hp
      have hce : (c, e.2) ∈ m₀ := hsub.subset (by rw [← hpe]; exact hmem)
      exact List.Chain.cons hce
        (ih (m.filter fun e2 => decide (e2.1 ≠ c)) m₀ e.2
          ((List.filter_sublist m).trans hsub))

theorem chainLinks_of_chain (f : AllFacts R L P) :
    ∀ (tl : List P) (c : P),
      List.Chain (fun u v => (u, v) ∈ isolatedEdges f.cfg_edge) c tl →
        chainLinks f c tl := by
  intro tl
  induction tl with
  | nil => intro c _; trivial
  | cons s rest ih =>
    intro c hch
    cases hch with
    | cons hcs hrest =>
      have hiso := (mem_isolatedEdges_iff f.cfg_edge c s).mp hcs
      obtain ⟨hsucc, hpred⟩ := (isolatedSucc_eq_some_iff _ c s).mp hiso
      have hsrc : f.cfg_edge.filter (fun e => decide (e.1 = c)) = [(c, s)] :=
        (succOf_eq_some_iff _ c s).mp hsucc
      obtain ⟨p, hp⟩ := Option.isSome_iff_exists.mp hpred
      have htgt0 : f.cfg_edge.filter (fun e => decide (e.2 = s)) = [(p, s)] :=
        (predOf_eq_some_iff _ p s).mp hp
      have hcs_mem : (c, s) ∈ f.cfg_edge := ((filter_eq_singleton_iff _ _ _).mp hsrc).1
      have hin : (c, s) ∈ f.cfg_edge.filter fun e => decide (e.2 = s) :=
        List.mem_filter.mpr ⟨hcs_mem, by simp⟩
      rw [htgt0, List.mem_singleton] at hin
      have hcp : c = p := congrArg Prod.fst hin
      refine ⟨hsrc, ?_, ih s hrest⟩
      rw [htgt0, ← hcp]

theorem chainsGo_chainLinks (f : AllFacts R L P) (hs : List P) :
    ∀ m : List (P × P), m.Sublist (isolatedEdges f.cfg_edge) →
      ∀ ch ∈ chainsGo hs m, ∃ c tl, ch = c :: tl ∧ chainLinks f c tl := by
  induction hs with
  | nil => intro m _ ch hch; simp [chainsGo] at hch
  | cons h t ih =>
    intro m hsub ch hch
    rcases List.mem_cons.mp hch with h1 | h1
    · exact ⟨h, _, h1, chainLinks_of_chain f _ h (walk_chain m.length m _ h hsub)⟩
    · exact ih (walk m.length m h).2 ((walk_final_sublist _ _ _).trans hsub) ch h1

theorem chainsOk_isolated_chains (f : AllFacts R L P) :
    chainsOk f (isolated_chains f.cfg_edge) := by
  have hK2 : ∀ p1 p2 q, (p1, q) ∈ isolatedEdges f.cfg_edge →
      (p2, q) ∈ isolatedEdges f.cfg_edge → p1 = p2 :=
    fun p1 p2 q h1 h2 => isolatedEdges_inj f.cfg_edge h1 h2
  have hheads : ∀ h ∈ chainHeads (isolatedEdges f.cfg_edge), ∀ k,
      (k, h) ∉ isolatedEdges f.cfg_edge :=
    fun h hh k => chainHeads_not_value _ hh k
  constructor
  · intro ch hch
    obtain ⟨c, tl, hch_eq, hlinks⟩ :=
      chainsGo_chainLinks f (chainHeads (isolatedEdges f.cfg_edge)) (isolatedEdges f.cfg_edge)
        (List.Sublist.refl _) ch hch
    have hnd : ch.Nodup :=
      chainsGo_nodup _ hK2 _ _ (List.Sublist.refl _) hheads ch hch
    rw [hch_eq]
    exact ⟨hch_eq ▸ hnd, hlinks⟩
  · exact chainsGo_pairwise _ hK2 _ _ (List.Sublist.refl _)
      (chainHeads_nodup _ (isolatedEdges_keys_nodup f.cfg_edge)) hheads

theorem is_endpoint_iff_outDeg (f : AllFacts R L P) (x : P) :
    is_endpoint f x = true ↔ outDeg f x = 0 := by
  simp [is_endpoint, outDeg, List.all_eq_true, List.countP_eq_zero]

theorem is_startpoint_iff_inDeg (f : AllFacts R L P) (x : P) :
    is_startpoint f x = true ↔ inDeg f x = 0 := by
  simp [is_startpoint, inDeg, List.countP_eq_zero]

theorem mem_isolatedEdges_iff_deg (edges : List (P × P)) (u v : P) :
    (u, v) ∈ isolatedEdges edges ↔
      (u, v) ∈ edges ∧ edges.countP (fun e => decide (e.1 = u)) = 1
        ∧ edges.countP (fun e => decide (e.2 = v)) = 1 := by
  rw [mem_isolatedEdges_iff, isolatedSucc_eq_some_iff, succOf_eq_some_iff,
    predOf_isSome_iff, filter_eq_singleton_iff]
  constructor
  · rintro ⟨⟨hm, _, hc⟩, hp⟩
    exact ⟨hm, hc, hp⟩
  · rintro ⟨hm, hc, hp⟩
    exact ⟨⟨hm, by simp, hc⟩, hp⟩

theorem is_edge_collapsible_trans_left (f : AllFacts R L P) (a s y : P)
    (h : is_edge_collapsible f a s = true) :
    is_edge_collapsible f a y = is_edge_collapsible f s y := by
  simp only [is_edge_collapsible, Bool.and_eq_true, decide_eq_true_eq] at h
  obtain ⟨⟨⟨⟨⟨⟨hl, hk1⟩, hk2⟩, ho1⟩, ho2⟩, hi1⟩, hi2⟩ := h
  simp only [is_edge_collapsible, hl, hk1, hk2, ho1, ho2, hi1, hi2]

theorem is_edge_collapsible_trans_right (f : AllFacts R L P) (a s y : P)
    (h : is_edge_collapsible f a s = true) :
    is_edge_collapsible f y a = is_edge_collapsible f y s := by
  simp only [is_edge_collapsible, Bool.and_eq_true, decide_eq_true_eq] at h
  obtain ⟨⟨⟨⟨⟨⟨hl, hk1⟩, hk2⟩, ho1⟩, ho2⟩, hi1⟩, hi2⟩ := h
  simp only [is_edge_collapsible, hl, hk1, hk2, ho1, ho2, hi1, hi2]

theorem kf_live (h : AllFacts R L P) (a s x : P) (hxs : x ≠ s) :
    live_regions_at (collapse_edge_keeping_first_point h a s) x = live_regions_at h x :=
  filterMap_point_filter_ne h.region_live_at (fun t => t.2) (fun t => t.1) s x hxs

theorem kf_killed (h : AllFacts R L P) (a s x : P) (hxs : x ≠ s) :
    killed_loans_at (collapse_edge_keeping_first_point h a s) x = killed_loans_at h x :=
  filterMap_point_filter_ne h.killed (fun t => t.2) (fun t => t.1) s x hxs

theorem kf_outlives (h : AllFacts R L P) (a s x : P) (hxs : x ≠ s) :
    outlives_at (collapse_edge_keeping_first_point h a s) x = outlives_at h x :=
  filterMap_point_filter_ne h.outlives (fun t => t.2.2) (fun t => (t.1, t.2.1)) s x hxs

theorem kf_invalidates (h : AllFacts R L P) (a s x : P) (hxs : x ≠ s) :
    invalidates_at (collapse_edge_keeping_first_point h a s) x = invalidates_at h x :=
  filterMap_point_filter_ne h.invalidates (fun t => t.1) (fun t => t.2) s x hxs

theorem kf_collapsible (h : AllFacts R L P) (a s x y : P) (hxs : x ≠ s) (hys : y ≠ s) :
    is_edge_collapsible (collapse_edge_keeping_first_point h a s) x y
      = is_edge_collapsible h x y := by
  unfold is_edge_collapsible
  rw [kf_live h a s x hxs, kf_live h a s y hys, kf_killed h a s x hxs, kf_killed h a s y hys,
    kf_outlives h a s x hxs, kf_outlives h a s y hys,
    kf_invalidates h a s x hxs, kf_invalidates h a s y hys]

theorem kf_outDeg (h : AllFacts R L P) (a s x : P) (hxa : x ≠ a) (hxs : x ≠ s)
    (htgt : h.cfg_edge.filter (fun e => decide (e.2 = s)) = [(a, s)]) :
    outDeg (collapse_edge_keeping_first_point h a s) x = outDeg h x := by
  unfold outDeg collapse_edge_keeping_first_point
  rw [List.countP_map]
  have h1 : ∀ e ∈ h.cfg_edge.filter fun e => decide (e.2 ≠ s),
      (((fun e => decide (e.1 = x)) ∘ fun e => if e.1 = s then (a, e.2) else e) e = true)
        ↔ (decide (e.1 = x) = true) := by
    intro e _
    by_cases hes : e.1 = s <;> simp [Function.comp, hes, Ne.symm hxa, Ne.symm hxs]
  rw [List.countP_congr h1, List.countP_filter]
  refine List.countP_congr fun e he => ?_
  by_cases h2 : e.1 = x
  · have h3 : e.2 ≠ s := by
      intro h3
      have hm : e ∈ h.cfg_edge.filter fun e => decide (e.2 = s) :=
        List.mem_filter.mpr ⟨he, by simp [h3]⟩
      rw [htgt, List.mem_singleton] at hm
      exact hxa (h2 ▸ congrArg Prod.fst hm)
    simp [h2, h3]
  · simp [h2]

theorem kf_inDeg (h : AllFacts R L P) (a s x : P) (hxs : x ≠ s) :
    inDeg (collapse_edge_keeping_first_point h a s) x = inDeg h x := by
  unfold inDeg collapse_edge_keeping_first_point
  rw [List.countP_map]
  have h1 : ∀ e ∈ h.cfg_edge.filter fun e => decide (e.2 ≠ s),
      (((fun e => decide (e.2 = x)) ∘ fun e => if e.1 = s then (a, e.2) else e) e = true)
        ↔ (decide (e.2 = x) = true) := by
    intro e _
    by_cases hes : e.1 = s <;> simp [Function.comp, hes]
  rw [List.countP_congr h1, List.countP_filter]
  refine List.countP_congr fun e _ => ?_
  by_cases h2 : e.2 = x
  · simp [h2, hxs]
  · simp [h2]

theorem kf_outDeg_a (h : AllFacts R L P) (a s : P) (has : a ≠ s)
    (hsrc : h.cfg_edge.filter (fun e => decide (e.1 = a)) = [(a, s)])
    (htgt : h.cfg_edge.filter (fun e => decide (e.2 = s)) = [(a, s)]) :
    outDeg (collapse_edge_keeping_first_point h a s) a = outDeg h s := by
  unfold outDeg collapse_edge_keeping_first_point
  rw [List.countP_map]
  have h1 : ∀ e ∈ h.cfg_edge.filter fun e => decide (e.2 ≠ s),
      (((fun e => decide (e.1 = a)) ∘ fun e => if e.1 = s then (a, e.2) else e) e = true)
        ↔ ((decide (e.1 = s) || decide (e.1 = a)) = true) := by
    intro e _
    by_cases hes : e.1 = s <;> simp [Function.comp, hes]
  rw [List.countP_congr h1]
  rw [countP_or_disjoint _ _ _ ?_]
  · rw [List.countP_filter, List.countP_filter]
    have hc1 : (h.cfg_edge.countP fun e => decide (e.1 = s) && decide (e.2 ≠ s))
        = h.cfg_edge.countP fun e => decide (e.1 = s) := by
      refine List.countP_congr fun e he => ?_
      by_cases h2 : e.1 = s
      · have h3 : e.2 ≠ s := by
          intro h3
          have hm : e ∈ h.cfg_edge.filter fun e => decide (e.2 = s) :=
            List.mem_filter.mpr ⟨he, by simp [h3]⟩
          rw [htgt, List.mem_singleton] at hm
          exact has ((congrArg Prod.fst hm).symm.trans h2)
        simp [h2, h3]
      · simp [h2]
    have hc2 : (h.cfg_edge.countP fun e => decide (e.1 = a) && decide (e.2 ≠ s)) = 0 := by
      rw [List.countP_eq_zero]
      intro e he hpe
      simp only [Bool.and_eq_true, decide_eq_true_eq] at hpe
      have hm : e ∈ h.cfg_edge.filter fun e => decide (e.1 = a) :=
        List.mem_filter.mpr ⟨he, by simp [hpe.1]⟩
      rw [hsrc, List.mem_singleton] at hm
      exact hpe.2 (congrArg Prod.snd hm)
    rw [hc1, hc2]
    rfl
  · intro e _ hpe
    obtain ⟨h1', h2'⟩ := hpe
    simp only [decide_eq_true_eq] at h1' h2'
    exact has (h2'.symm.trans h1')

theorem kf_mem (h : AllFacts R L P) (a s x y : P) (hxa : x ≠ a) (hxs : x ≠ s) (hys : y ≠ s) :
    ((x, y) ∈ (collapse_edge_keeping_first_point h a s).cfg_edge ↔ (x, y) ∈ h.cfg_edge) := by
  show (x, y) ∈ (h.cfg_edge.filter fun e => decide (e.2 ≠ s)).map
      (fun e => if e.1 = s then (a, e.2) else e) ↔ _
  rw [List.mem_map]
  constructor
  · rintro ⟨e, he, heq⟩
    have hef := List.mem_filter.mp he
    by_cases h1 : e.1 = s
    · rw [if_pos h1] at heq
      exact absurd (congrArg Prod.fst heq) (Ne.symm hxa)
    · rw [if_neg h1] at heq
      rw [← heq]
      exact hef.1
  · intro hm
    exact ⟨(x, y), List.mem_filter.mpr ⟨hm, by simp [hys]⟩, by simp [hxs]⟩

theorem kf_mem_src_a (h : AllFacts R L P) (a s y : P) :
    (a, y) ∈ (collapse_edge_keeping_first_point h a s).cfg_edge →
      (a, y) ∈ h.cfg_edge ∨ (s, y) ∈ h.cfg_edge := by
  intro hm
  have hm' := hm
  rw [show (collapse_edge_keeping_first_point h a s).cfg_edge
      = (h.cfg_edge.filter fun e => decide (e.2 ≠ s)).map
        (fun e => if e.1 = s then (a, e.2) else e) from rfl, List.mem_map] at hm'
  obtain ⟨e, he, heq⟩ := hm'
  have hef := List.mem_filter.mp he
  by_cases h1 : e.1 = s
  · rw [if_pos h1] at heq
    right
    have hey : e.2 = y := congrArg Prod.snd heq
    have : e = (s, y) := Prod.ext h1 hey
    rw [← this]
    exact hef.1
  · rw [if_neg h1] at heq
    left
    rw [← heq]
    exact hef.1

theorem kf_mem_src_s (h : AllFacts R L P) (a s y : P) (hm : (s, y) ∈ h.cfg_edge)
    (hys : y ≠ s) : (a, y) ∈ (collapse_edge_keeping_first_point h a s).cfg_edge := by
  show (a, y) ∈ (h.cfg_edge.filter fun e => decide (e.2 ≠ s)).map
    (fun e => if e.1 = s then (a, e.2) else e)
  exact List.mem_map.mpr ⟨(s, y), List.mem_filter.mpr ⟨hm, by simp [hys]⟩, by simp⟩

theorem kf_no_s (h : AllFacts R L P) (a s : P) (has : a ≠ s) :
    ∀ e ∈ (collapse_edge_keeping_first_point h a s).cfg_edge, e.1 ≠ s ∧ e.2 ≠ s := by
  intro e' he'
  rw [show (collapse_edge_keeping_first_point h a s).cfg_edge
      = (h.cfg_edge.filter fun e => decide (e.2 ≠ s)).map
        (fun e => if e.1 = s then (a, e.2) else e) from rfl, List.mem_map] at he'
  obtain ⟨e, he, heq⟩ := he'
  have hef := List.mem_filter.mp he
  have he2 : e.2 ≠ s := by
    have := hef.2
    simpa using this
  by_cases h1 : e.1 = s
  · rw [if_pos h1] at heq
    rw [← heq]
    exact ⟨has, he2⟩
  · rw [if_neg h1] at heq
    rw [← heq]
    exact ⟨h1, he2⟩

theorem ks_live (h : AllFacts R L P) (a s x : P) (hxa : x ≠ a) :
    live_regions_at (collapse_edge_keeping_second_point h a s) x = live_regions_at h x :=
  filterMap_point_filter_ne h.region_live_at (fun t => t.2) (fun t => t.1) a x hxa

theorem ks_killed (h : AllFacts R L P) (a s x : P) (hxa : x ≠ a) :
    killed_loans_at (collapse_edge_keeping_second_point h a s) x = killed_loans_at h x :=
  filterMap_point_filter_ne h.killed (fun t => t.2) (fun t => t.1) a x hxa

theorem ks_outlives (h : AllFacts R L P) (a s x : P) (hxa : x ≠ a) :
    outlives_at (collapse_edge_keeping_second_point h a s) x = outlives_at h x :=
  filterMap_point_filter_ne h.outlives (fun t => t.2.2) (fun t => (t.1, t.2.1)) a x hxa

theorem ks_invalidates (h : AllFacts R L P) (a s x : P) (hxa : x ≠ a) :
    invalidates_at (collapse_edge_keeping_second_point h a s) x = invalidates_at h x :=
  filterMap_point_filter_ne h.invalidates (fun t => t.1) (fun t => t.2) a x hxa

theorem ks_collapsible (h : AllFacts R L P) (a s x y : P) (hxa : x ≠ a) (hya : y ≠ a) :
    is_edge_collapsible (collapse_edge_keeping_second_point h a s) x y
      = is_edge_collapsible h x y := by
  unfold is_edge_collapsible
  rw [ks_live h a s x hxa, ks_live h a s y hya, ks_killed h a s x hxa, ks_killed h a s y hya,
    ks_outlives h a s x hxa, ks_outlives h a s y hya,
    ks_invalidates h a s x hxa, ks_invalidates h a s y hya]

theorem ks_outDeg (h : AllFacts R L P) (a s x : P) (hxa : x ≠ a) :
    outDeg (collapse_edge_keeping_second_point h a s) x = outDeg h x := by
  unfold outDeg collapse_edge_keeping_second_point
  rw [List.countP_map]
  have h1 : ∀ e ∈ h.cfg_edge.filter fun e => decide (e.1 ≠ a),
      (((fun e => decide (e.1 = x)) ∘ fun e => if e.2 = a then (e.1, s) else e) e = true)
        ↔ (decide (e.1 = x) = true) := by
    intro e _
    by_cases hes : e.2 = a <;> simp [Function.comp, hes]
  rw [List.countP_congr h1, List.countP_filter]
  refine List.countP_congr fun e _ => ?_
  by_cases h2 : e.1 = x
  · simp [h2, hxa]
  · simp [h2]

theorem ks_inDeg (h : AllFacts R L P) (a s x : P) (hxa : x ≠ a) (hxs : x ≠ s)
    (hsrc : h.cfg_edge.filter (fun e => decide (e.1 = a)) = [(a, s)]) :
    inDeg (collapse_edge_keeping_second_point h a s) x = inDeg h x := by
  unfold inDeg collapse_edge_keeping_second_point
  rw [List.countP_map]
  have h1 : ∀ e ∈ h.cfg_edge.filter fun e => decide (e.1 ≠ a),
      (((fun e => decide (e.2 = x)) ∘ fun e => if e.2 = a then (e.1, s) else e) e = true)
        ↔ (decide (e.2 = x) = true) := by
    intro e _
    by_cases hes : e.2 = a <;> simp [Function.comp, hes, Ne.symm hxs, Ne.symm hxa]
  rw [List.countP_congr h1, List.countP_filter]
  refine List.countP_congr fun e he => ?_
  by_cases h2 : e.2 = x
  · have h3 : e.1 ≠ a := by
      intro h3
      have hm : e ∈ h.cfg_edge.filter fun e => decide (e.1 = a) :=
        List.mem_filter.mpr ⟨he, by simp [h3]⟩
      rw [hsrc, List.mem_singleton] at hm
      exact hxs ((congrArg Prod.snd hm ▸ h2 : (a, s).2 = x)).symm
    simp [h2, h3]
  · simp [h2]

theorem ks_inDeg_s (h : AllFacts R L P) (a s : P) (has : a ≠ s)
    (hsrc : h.cfg_edge.filter (fun e => decide (e.1 = a)) = [(a, s)])
    (htgt : h.cfg_edge.filter (fun e => decide (e.2 = s)) = [(a, s)]) :
    inDeg (collapse_edge_keeping_second_point h a s) s = inDeg h a := by
  unfold inDeg collapse_edge_keeping_second_point
  rw [List.countP_map]
  have h1 : ∀ e ∈ h.cfg_edge.filter fun e => decide (e.1 ≠ a),
      (((fun e => decide (e.2 = s)) ∘ fun e => if e.2 = a then (e.1, s) else e) e = true)
        ↔ ((decide (e.2 = a) || decide (e.2 = s)) = true) := by
    intro e _
    by_cases hes : e.2 = a <;> simp [Function.comp, hes]
  rw [List.countP_congr h1]
  rw [countP_or_disjoint _ _ _ ?_]
  · rw [List.countP_filter, List.countP_filter]
    have hc1 : (h.cfg_edge.countP fun e => decide (e.2 = a) && decide (e.1 ≠ a))
        = h.cfg_edge.countP fun e => decide (e.2 = a) := by
      refine List.countP_congr fun e he => ?_
      by_cases h2 : e.2 = a
      · have h3 : e.1 ≠ a := by
          intro h3
          have hm : e ∈ h.cfg_edge.filter fun e => decide (e.1 = a) :=
            List.mem_filter.mpr ⟨he, by simp [h3]⟩
          rw [hsrc, List.mem_singleton] at hm
          exact has (((congrArg Prod.snd hm).symm.trans h2).symm)
        simp [h2, h3]
      · simp [h2]
    have hc2 : (h.cfg_edge.countP fun e => decide (e.2 = s) && decide (e.1 ≠ a)) = 0 := by
      rw [List.countP_eq_zero]
      intro e he hpe
      simp only [Bool.and_eq_true, decide_eq_true_eq] at hpe
      have hm : e ∈ h.cfg_edge.filter fun e => decide (e.2 = s) :=
        List.mem_filter.mpr ⟨he, by simp [hpe.1]⟩
      rw [htgt, List.mem_singleton] at hm
      exact hpe.2 (congrArg Prod.fst hm)
    rw [hc1, hc2]
    rfl
  · intro e _ hpe
    obtain ⟨h1', h2'⟩ := hpe
    simp only [decide_eq_true_eq] at h1' h2'
    exact has (h1'.symm.trans h2')

theorem ks_mem (h : AllFacts R L P) (a s x y : P) (hxa : x ≠ a) (hya : y ≠ a) (hys : y ≠ s) :
    ((x, y) ∈ (collapse_edge_keeping_second_point h a s).cfg_edge ↔ (x, y) ∈ h.cfg_edge) := by
  show (x, y) ∈ (h.cfg_edge.filter fun e => decide (e.1 ≠ a)).map
      (fun e => if e.2 = a then (e.1, s) else e) ↔ _
  rw [List.mem_map]
  constructor
  · rintro ⟨e, he, heq⟩
    have hef := List.mem_filter.mp he
    by_cases h1 : e.2 = a
    · rw [if_pos h1] at heq
      exact absurd (congrArg Prod.snd heq) (Ne.symm hys)
    · rw [if_neg h1] at heq
      rw [← heq]
      exact hef.1
  · intro hm
    exact ⟨(x, y), List.mem_filter.mpr ⟨hm, by simp [hxa]⟩, by simp [hya]⟩

theorem ks_mem_tgt_s (h : AllFacts R L P) (a s x : P) :
    (x, s) ∈ (collapse_edge_keeping_second_point h a s).cfg_edge →
      (x, s) ∈ h.cfg_edge ∨ (x, a) ∈ h.cfg_edge := by
  intro hm
  rw [show (collapse_edge_keeping_second_point h a s).cfg_edge
      = (h.cfg_edge.filter fun e => decide (e.1 ≠ a)).map
        (fun e => if e.2 = a then (e.1, s) else e) from rfl, List.mem_map] at hm
  obtain ⟨e, he, heq⟩ := hm
  have hef := List.mem_filter.mp he
  by_cases h1 : e.2 = a
  · rw [if_pos h1] at heq
    right
    have hex : e.1 = x := congrArg Prod.fst heq
    have : e = (x, a) := Prod.ext hex h1
    rw [← this]
    exact hef.1
  · rw [if_neg h1] at heq
    left
    rw [← heq]
    exact hef.1

theorem ks_mem_tgt_a (h : AllFacts R L P) (a s x : P) (hm : (x, a) ∈ h.cfg_edge)
    (hxa : x ≠ a) : (x, s) ∈ (collapse_edge_keeping_second_point h a s).cfg_edge := by
  show (x, s) ∈ (h.cfg_edge.filter fun e => decide (e.1 ≠ a)).map
    (fun e => if e.2 = a then (e.1, s) else e)
  exact List.mem_map.mpr ⟨(x, a), List.mem_filter.mpr ⟨hm, by simp [hxa]⟩, by simp⟩

theorem ks_no_a (h : AllFacts R L P) (a s : P) (has : a ≠ s) :
    ∀ e ∈ (collapse_edge_keeping_second_point h a s).cfg_edge, e.1 ≠ a ∧ e.2 ≠ a := by
  intro e' he'
  rw [show (collapse_edge_keeping_second_point h a s).cfg_edge
      = (h.cfg_edge.filter fun e => decide (e.1 ≠ a)).map
        (fun e => if e.2 = a then (e.1, s) else e) from rfl, List.mem_map] at he'
  obtain ⟨e, he, heq⟩ := he'
  have hef := List.mem_filter.mp he
  have he1 : e.1 ≠ a := by
    have := hef.2
    simpa using this
  by_cases h1 : e.2 = a
  · rw [if_pos h1] at heq
    rw [← heq]
    exact ⟨he1, Ne.symm has⟩
  · rw [if_neg h1] at heq
    rw [← heq]
    exact ⟨he1, h1⟩

theorem kf_deg_s (h : AllFacts R L P) (a s : P) (has : a ≠ s) :
    outDeg (collapse_edge_keeping_first_point h a s) s = 0
      ∧ inDeg (collapse_edge_keeping_first_point h a s) s = 0 := by
  constructor
  · rw [outDeg, List.countP_eq_zero]
    intro e he
    simp only [decide_eq_true_eq]
    exact (kf_no_s h a s has e he).1
  · rw [inDeg, List.countP_eq_zero]
    intro e he
    simp only [decide_eq_true_eq]
    exact (kf_no_s h a s has e he).2

theorem ks_deg_a (h : AllFacts R L P) (a s : P) (has : a ≠ s) :
    outDeg (collapse_edge_keeping_second_point h a s) a = 0
      ∧ inDeg (collapse_edge_keeping_second_point h a s) a = 0 := by
  constructor
  · rw [outDeg, List.countP_eq_zero]
    intro e he
    simp only [decide_eq_true_eq]
    exact (ks_no_a h a s has e he).1
  · rw [inDeg, List.countP_eq_zero]
    intro e he
    simp only [decide_eq_true_eq]
    exact (ks_no_a h a s has e he).2

theorem outDeg_collapse_outside (h : AllFacts R L P) (a s x : P)
    (hxa : x ≠ a) (hxs : x ≠ s)
    (hsrc : h.cfg_edge.filter (fun e => decide (e.1 = a)) = [(a, s)])
    (htgt : h.cfg_edge.filter (fun e => decide (e.2 = s)) = [(a, s)]) :
    outDeg (collapse_edge h a s) x = outDeg h x := by
  unfold collapse_edge
  split_ifs
  · exact kf_outDeg h a s x hxa hxs htgt
  · exact ks_outDeg h a s x hxa
  · rfl

theorem inDeg_collapse_outside (h : AllFacts R L P) (a s x : P)
    (hxa : x ≠ a) (hxs : x ≠ s)
    (hsrc : h.cfg_edge.filter (fun e => decide (e.1 = a)) = [(a, s)])
    (htgt : h.cfg_edge.filter (fun e => decide (e.2 = s)) = [(a, s)]) :
    inDeg (collapse_edge h a s) x = inDeg h x := by
  unfold collapse_edge
  split_ifs
  · exact kf_inDeg h a s x hxs
  · exact ks_inDeg h a s x hxa hxs hsrc
  · rfl

theorem mem_collapse_outside (h : AllFacts R L P) (a s x y : P)
    (hxa : x ≠ a) (hxs : x ≠ s) (hya : y ≠ a) (hys : y ≠ s) :
    ((x, y) ∈ (collapse_edge h a s).cfg_edge ↔ (x, y) ∈ h.cfg_edge) := by
  unfold collapse_edge
  split_ifs
  · exact kf_mem h a s x y hxa hxs hys
  · exact ks_mem h a s x y hxa hya hys
  · exact Iff.rfl

theorem go_outDeg_outside :
    ∀ (btl : List P) (h : AllFacts R L P) (b : P),
      chainLinks h b btl → (b :: btl).Nodup →
      ∀ x, x ∉ b :: btl → outDeg (simplify_chain_go h b btl) x = outDeg h x := by
  intro btl
  induction btl with
  | nil => intro h b _ _ x _; rfl
  | cons t btl ih =>
    intro h b hlinks hnd x hx
    obtain ⟨hsrcB, htgtB, hrest⟩ := hlinks
    have hxb : x ≠ b := fun hh => hx (List.mem_cons.mpr (Or.inl hh))
    have hxt : x ≠ t := fun hh =>
      hx (List.mem_cons_of_mem _ (List.mem_cons.mpr (Or.inl hh)))
    simp only [simplify_chain_go]
    cases hc : is_edge_collapsible h b t with
    | true =>
      rw [if_pos rfl]
      rw [ih (collapse_edge h b t) b
        (chainLinks_collapse_step h b t btl hnd ⟨hsrcB, htgtB, hrest⟩)
        (nodup_cons_of_cons_cons hnd) x (not_mem_cons_of_cons_cons hx)]
      exact outDeg_collapse_outside h b t x hxb hxt hsrcB htgtB
    | false =>
      rw [if_neg (by simp)]
      exact ih h t hrest (List.nodup_cons.mp hnd).2 x
        (fun hh => hx (List.mem_cons_of_mem _ hh))

theorem go_inDeg_outside :
    ∀ (btl : List P) (h : AllFacts R L P) (b : P),
      chainLinks h b btl → (b :: btl).Nodup →
      ∀ x, x ∉ b :: btl → inDeg (simplify_chain_go h b btl) x = inDeg h x := by
  intro btl
  induction btl with
  | nil => intro h b _ _ x _; rfl
  | cons t btl ih =>
    intro h b hlinks hnd x hx
    obtain ⟨hsrcB, htgtB, hrest⟩ := hlinks
    have hxb : x ≠ b := fun hh => hx (List.mem_cons.mpr (Or.inl hh))
    have hxt : x ≠ t := fun hh =>
      hx (List.mem_cons_of_mem _ (List.mem_cons.mpr (Or.inl hh)))
    simp only [simplify_chain_go]
    cases hc : is_edge_collapsible h b t with
    | true =>
      rw [if_pos rfl]
      rw [ih (collapse_edge h b t) b
        (chainLinks_collapse_step h b t btl hnd ⟨hsrcB, htgtB, hrest⟩)
        (nodup_cons_of_cons_cons hnd) x (not_mem_cons_of_cons_cons hx)]
      exact inDeg_collapse_outside h b t x hxb hxt hsrcB htgtB
    | false =>
      rw [if_neg (by simp)]
      exact ih h t hrest (List.nodup_cons.mp hnd).2 x
        (fun hh => hx (List.mem_cons_of_mem _ hh))

theorem go_mem_outside :
    ∀ (btl : List P) (h : AllFacts R L P) (b : P),
      chainLinks h b btl → (b :: btl).Nodup →
      ∀ x y, x ∉ b :: btl → y ∉ b :: btl →
        ((x, y) ∈ (simplify_chain_go h b btl).cfg_edge ↔ (x, y) ∈ h.cfg_edge) := by
  intro btl
  induction btl with
  | nil => intro h b _ _ x y _ _; exact Iff.rfl
  | cons t btl ih =>
    intro h b hlinks hnd x y hx hy
    obtain ⟨hsrcB, htgtB, hrest⟩ := hlinks
    have hxb : x ≠ b := fun hh => hx (List.mem_cons.mpr (Or.inl hh))
    have hxt : x ≠ t := fun hh =>
      hx (List.mem_cons_of_mem _ (List.mem_cons.mpr (Or.inl hh)))
    have hyb : y ≠ b := fun hh => hy (List.mem_cons.mpr (Or.inl hh))
    have hyt : y ≠ t := fun hh =>
      hy (List.mem_cons_of_mem _ (List.mem_cons.mpr (Or.inl hh)))
    simp only [simplify_chain_go]
    cases hc : is_edge_collapsible h b t with
    | true =>
      rw [if_pos rfl]
      exact (ih (collapse_edge h b t) b
        (chainLinks_collapse_step h b t btl hnd ⟨hsrcB, htgtB, hrest⟩)
        (nodup_cons_of_cons_cons hnd) x y
        (not_mem_cons_of_cons_cons hx) (not_mem_cons_of_cons_cons hy)).trans
        (mem_collapse_outside h b t x y hxb hxt hyb hyt)
    | false =>
      rw [if_neg (by simp)]
      exact ih h t hrest (List.nodup_cons.mp hnd).2 x y
        (fun hh => hx (List.mem_cons_of_mem _ hh))
        (fun hh => hy (List.mem_cons_of_mem _ hh))

theorem consecPair_not_single (a u v : P) : ¬ consecPair [a] u v := by
  rintro ⟨l₁, l₂, hl⟩
  cases l₁ with
  | nil => simp at hl
  | cons x l₁ => simp at hl

theorem consecPair_cons (x : P) {l : List P} {u v : P} (h : consecPair l u v) :
    consecPair (x :: l) u v := by
  obtain ⟨l₁, l₂, hl⟩ := h
  exact ⟨x :: l₁, l₂, by rw [hl]; rfl⟩

theorem consecPair_cases {x : P} {l : List P} {u v : P} (h : consecPair (x :: l) u v) :
    (x = u ∧ ∃ l', l = v :: l') ∨ consecPair l u v := by
  obtain ⟨l₁, l₂, hl⟩ := h
  cases l₁ with
  | nil =>
    left
    simp only [List.nil_append, List.cons.injEq] at hl
    exact ⟨hl.1, l₂, hl.2⟩
  | cons y l₁ =>
    right
    simp only [List.cons_append, List.cons.injEq] at hl
    exact ⟨l₁, l₂, hl.2⟩

theorem consecPair_mem {ch : List P} {u v : P} (h : consecPair ch u v) :
    u ∈ ch ∧ v ∈ ch := by
  obtain ⟨l₁, l₂, hl⟩ := h
  subst hl
  constructor
  · exact List.mem_append.mpr (Or.inr (List.mem_cons_self _ _))
  · exact List.mem_append.mpr
      (Or.inr (List.mem_cons_of_mem _ (List.mem_cons_self _ _)))

theorem consecPair_head_not_snd {a : P} {l : List P} {u : P}
    (hnd : (a :: l).Nodup) (h : consecPair (a :: l) u a) : False := by
  rcases consecPair_cases h with ⟨hax, l', hl'⟩ | hcp
  · have : a ∈ l := by rw [hl']; exact List.mem_cons_self _ _
    exact (List.nodup_cons.mp hnd).1 this
  · exact (List.nodup_cons.mp hnd).1 (consecPair_mem hcp).2

theorem consecPair_pair {a s u v : P} (h : consecPair [a, s] u v) : u = a ∧ v = s := by
  rcases consecPair_cases h with ⟨hax, l', hl'⟩ | hcp
  · simp only [List.cons.injEq] at hl'
    exact ⟨hax.symm, hl'.1.symm⟩
  · exact absurd hcp (consecPair_not_single s u v)

theorem not_mem_of_outDeg_zero (f : AllFacts R L P) (x y : P) (h : outDeg f x = 0) :
    (x, y) ∉ f.cfg_edge := by
  intro hm
  rw [outDeg, List.countP_eq_zero] at h
  simpa using h (x, y) hm

theorem not_mem_of_inDeg_zero (f : AllFacts R L P) (x y : P) (h : inDeg f y = 0) :
    (x, y) ∉ f.cfg_edge := by
  intro hm
  rw [inDeg, List.countP_eq_zero] at h
  simpa using h (x, y) hm

theorem outDeg_pos_of_mem (f : AllFacts R L P) {x y : P} (hm : (x, y) ∈ f.cfg_edge) :
    1 ≤ outDeg f x := by
  by_cases h : outDeg f x = 0
  · exact absurd hm (not_mem_of_outDeg_zero f x y h)
  · omega

theorem inDeg_pos_of_mem (f : AllFacts R L P) {x y : P} (hm : (x, y) ∈ f.cfg_edge) :
    1 ≤ inDeg f y := by
  by_cases h : inDeg f y = 0
  · exact absurd hm (not_mem_of_inDeg_zero f x y h)
  · omega

theorem src_singleton_of_outDeg_one (f : AllFacts R L P) {x y : P}
    (hm : (x, y) ∈ f.cfg_edge) (h1 : outDeg f x = 1) :
    f.cfg_edge.filter (fun e => decide (e.1 = x)) = [(x, y)] :=
  (filter_eq_singleton_iff _ _ _).mpr ⟨hm, by simp, h1⟩

theorem tgt_singleton_of_inDeg_one (f : AllFacts R L P) {x y : P}
    (hm : (x, y) ∈ f.cfg_edge) (h1 : inDeg f y = 1) :
    f.cfg_edge.filter (fun e => decide (e.2 = y)) = [(x, y)] :=
  (filter_eq_singleton_iff _ _ _).mpr ⟨hm, by simp, h1⟩

theorem snd_eq_of_src_singleton (f : AllFacts R L P) {x y y' : P}
    (hs : f.cfg_edge.filter (fun e => decide (e.1 = x)) = [(x, y)])
    (hm : (x, y') ∈ f.cfg_edge) : y' = y := by
  have h2 : (x, y') ∈ f.cfg_edge.filter fun e => decide (e.1 = x) :=
    List.mem_filter.mpr ⟨hm, by simp⟩
  rw [hs, List.mem_singleton] at h2
  exact congrArg Prod.snd h2

theorem fst_eq_of_tgt_singleton (f : AllFacts R L P) {x x' y : P}
    (ht : f.cfg_edge.filter (fun e => decide (e.2 = y)) = [(x, y)])
    (hm : (x', y) ∈ f.cfg_edge) : x' = x := by
  have h2 : (x', y) ∈ f.cfg_edge.filter fun e => decide (e.2 = y) :=
    List.mem_filter.mpr ⟨hm, by simp⟩
  rw [ht, List.mem_singleton] at h2
  exact congrArg Prod.fst h2

theorem outDeg_eq_one_of_src_singleton (f : AllFacts R L P) {x y : P}
    (hs : f.cfg_edge.filter (fun e => decide (e.1 = x)) = [(x, y)]) :
    outDeg f x = 1 := by
  rw [outDeg, List.countP_eq_length_filter, hs]
  rfl

theorem inDeg_eq_one_of_tgt_singleton (f : AllFacts R L P) {x y : P}
    (ht : f.cfg_edge.filter (fun e => decide (e.2 = y)) = [(x, y)]) :
    inDeg f y = 1 := by
  rw [inDeg, List.countP_eq_length_filter, ht]
  rfl

theorem exempt_iff_deg (f : AllFacts R L P) (u v : P) :
    exemptPair f u v ↔ outDeg f v = 0 ∧ inDeg f u = 0 := by
  rw [exemptPair, is_endpoint_iff_outDeg, is_startpoint_iff_inDeg]

theorem badPair_congr (f g : AllFacts R L P) (u v : P)
    (hmem : ((u, v) ∈ f.cfg_edge ↔ (u, v) ∈ g.cfg_edge))
    (hu : outDeg f u = outDeg g u) (hv : inDeg f v = inDeg g v)
    (hvout : (outDeg f v = 0 ↔ outDeg g v = 0))
    (huin : (inDeg f u = 0 ↔ inDeg g u = 0))
    (hcol : is_edge_collapsible f u v = is_edge_collapsible g u v) :
    badPair f u v ↔ badPair g u v := by
  unfold badPair
  rw [exempt_iff_deg, exempt_iff_deg, hmem, hu, hv, hcol, hvout, huin]

theorem badPair_congr_deg (f g : AllFacts R L P) (u v : P)
    (hmem : ((u, v) ∈ f.cfg_edge ↔ (u, v) ∈ g.cfg_edge))
    (huo : outDeg f u = outDeg g u) (hui : inDeg f u = inDeg g u)
    (hvo : outDeg f v = outDeg g v) (hvi : inDeg f v = inDeg g v)
    (hcol : is_edge_collapsible f u v = is_edge_collapsible g u v) :
    badPair f u v ↔ badPair g u v :=
  badPair_congr f g u v hmem huo hvi (by rw [hvo]) (by rw [hui]) hcol

theorem go_settled :
    ∀ (rest : List P) (h : AllFacts R L P) (anchor : P),
      chainLinks h anchor rest → (anchor :: rest).Nodup →
      anchorOk h anchor →
      (∀ u v, u ≠ v → badPair h u v →
        (u ∈ anchor :: rest ∨ v ∈ anchor :: rest) →
        consecPair (anchor :: rest) u v) →
      ∀ u v, u ≠ v → (u ∈ anchor :: rest ∨ v ∈ anchor :: rest) →
        ¬ badPair (simplify_chain_go h anchor rest) u v := by
  intro rest
  induction rest with
  | nil =>
    intro h anchor _ _ _ hIII u v hne htouch hbad
    simp only [simplify_chain_go] at hbad
    exact consecPair_not_single anchor u v (hIII u v hne hbad htouch)
  | cons s rest' ih =>
    intro h anchor hlinks hnd hK hIII u v hne htouch
    obtain ⟨hsrc, htgt, hrest⟩ := hlinks
    have hanchor_s : anchor ≠ s := by
      have h1 := (List.nodup_cons.mp hnd).1
      exact fun hh => h1 (hh ▸ List.mem_cons_self _ _)
    simp only [simplify_chain_go]
    cases hc : is_edge_collapsible h anchor s with
    | false =>
      rw [if_neg (by simp)]
      by_cases htouch2 : u ∈ s :: rest' ∨ v ∈ s :: rest'
      · refine ih h s hrest (List.nodup_cons.mp hnd).2 ?_ ?_ u v hne htouch2
        · intro x hx _
          right
          have hxe : x = anchor := fst_eq_of_tgt_singleton h htgt hx
          rw [hxe]
          exact hc
        · intro u' v' hne' hbad' ht'
          have hcp := hIII u' v' hne' hbad'
            (Or.imp (List.mem_cons_of_mem _) (List.mem_cons_of_mem _) ht')
          rcases consecPair_cases hcp with ⟨hau, l', hl'⟩ | hcp2
          · injection hl' with h1 _
            have hcol := hbad'.2.2.2.1
            rw [← hau, ← h1, hc] at hcol
            simp at hcol
          · exact hcp2
      · intro hbad
        have hu_not : u ∉ s :: rest' := fun hh => htouch2 (Or.inl hh)
        have hv_not : v ∉ s :: rest' := fun hh => htouch2 (Or.inr hh)
        have htnd := (List.nodup_cons.mp hnd).2
        have htrans : badPair (simplify_chain_go h s rest') u v ↔ badPair h u v :=
          badPair_congr_deg _ h u v
            (go_mem_outside rest' h s hrest htnd u v hu_not hv_not)
            (go_outDeg_outside rest' h s hrest htnd u hu_not)
            (go_inDeg_outside rest' h s hrest htnd u hu_not)
            (go_outDeg_outside rest' h s hrest htnd v hv_not)
            (go_inDeg_outside rest' h s hrest htnd v hv_not)
            (go_is_edge_collapsible rest' h s hrest htnd u v hu_not hv_not)
        have hbadh := htrans.mp hbad
        have hcp := hIII u v hne hbadh htouch
        rcases consecPair_cases hcp with ⟨hau, l', hl'⟩ | hcp2
        · injection hl' with h1 _
          exact hv_not (by rw [← h1]; exact List.mem_cons_self _ _)
        · exact hu_not (consecPair_mem hcp2).1
    | true =>
      rw [if_pos rfl]
      cases rest' with
      | nil =>
        intro hbad
        simp only [simplify_chain_go] at hbad
        have houtA : outDeg h anchor = 1 := outDeg_eq_one_of_src_singleton h hsrc
        have hinS : inDeg h s = 1 := inDeg_eq_one_of_tgt_singleton h htgt
        cases hend : is_endpoint h s with
        | true =>
          cases hsp : is_startpoint h anchor with
          | true =>
            have hcol : collapse_edge h anchor s = h := collapse_noop h anchor s hend hsp
            rw [hcol] at hbad
            by_cases hua : u = anchor
            · have hvs : v = s := snd_eq_of_src_singleton h hsrc (hua ▸ hbad.1)
              exact hbad.2.2.2.2 (by rw [hua, hvs]; exact ⟨hend, hsp⟩)
            · by_cases hva : v = anchor
              · have h0 : inDeg h anchor = 0 := (is_startpoint_iff_inDeg h anchor).mp hsp
                exact not_mem_of_inDeg_zero h u anchor h0 (hva ▸ hbad.1)
              · by_cases hus : u = s
                · have h0 : outDeg h s = 0 := (is_endpoint_iff_outDeg h s).mp hend
                  exact not_mem_of_outDeg_zero h s v h0 (hus ▸ hbad.1)
                · have hvs : v = s := by
                    rcases htouch with h1 | h1
                    · rcases List.mem_cons.mp h1 with h2 | h2
                      · exact absurd h2 hua
                      · rcases List.mem_cons.mp h2 with h3 | h3
                        · exact absurd h3 hus
                        · exact absurd h3 (List.not_mem_nil u)
                    · rcases List.mem_cons.mp h1 with h2 | h2
                      · exact absurd h2 hva
                      · rcases List.mem_cons.mp h2 with h3 | h3
                        · exact h3
                        · exact absurd h3 (List.not_mem_nil v)
                  exact hua (fst_eq_of_tgt_singleton h htgt (hvs ▸ hbad.1))
          | false =>
            have hcol : collapse_edge h anchor s
                = collapse_edge_keeping_second_point h anchor s :=
              collapse_ks h anchor s hend hsp
            rw [hcol] at hbad
            have hnoa := ks_no_a h anchor s hanchor_s
            by_cases hua : u = anchor
            · exact (hnoa (u, v) hbad.1).1 hua
            · by_cases hva : v = anchor
              · exact (hnoa (u, v) hbad.1).2 hva
              · by_cases hus : u = s
                · have h1 := hbad.2.1
                  rw [hus, ks_outDeg h anchor s s (Ne.symm hanchor_s),
                    (is_endpoint_iff_outDeg h s).mp hend] at h1
                  simp at h1
                · have hvs : v = s := by
                    rcases htouch with h1 | h1
                    · rcases List.mem_cons.mp h1 with h2 | h2
                      · exact absurd h2 hua
                      · rcases List.mem_cons.mp h2 with h3 | h3
                        · exact absurd h3 hus
                        · exact absurd h3 (List.not_mem_nil u)
                    · rcases List.mem_cons.mp h1 with h2 | h2
                      · exact absurd h2 hva
                      · rcases List.mem_cons.mp h2 with h3 | h3
                        · exact h3
                        · exact absurd h3 (List.not_mem_nil v)
                  rw [hvs] at hbad
                  have hinA : inDeg h anchor = 1 := by
                    have h1 := hbad.2.2.1
                    rw [ks_inDeg_s h anchor s hanchor_s hsrc htgt] at h1
                    exact h1
                  rcases ks_mem_tgt_s h anchor s u hbad.1 with hmem1 | hmem2
                  · exact hua (fst_eq_of_tgt_singleton h htgt hmem1)
                  · rcases hK u hmem2 hinA with hout | hncol
                    · have h1 := hbad.2.1
                      rw [ks_outDeg h anchor s u hua] at h1
                      omega
                    · have h1 : is_edge_collapsible h u s = false := by
                        rw [← is_edge_collapsible_trans_right h anchor s u hc]
                        exact hncol
                      have h2 := hbad.2.2.2.1
                      rw [ks_collapsible h anchor s u s hua (Ne.symm hanchor_s), h1] at h2
                      simp at h2
        | false =>
          have hcol : collapse_edge h anchor s
              = collapse_edge_keeping_first_point h anchor s :=
            collapse_kf h anchor s hend
          rw [hcol] at hbad
          have hnos := kf_no_s h anchor s hanchor_s
          by_cases hus : u = s
          · exact (hnos (u, v) hbad.1).1 hus
          · by_cases hvs : v = s
            · exact (hnos (u, v) hbad.1).2 hvs
            · by_cases hua : u = anchor
              · rw [hua] at hbad
                have houtS : outDeg h s = 1 := by
                  have h1 := hbad.2.1
                  rw [kf_outDeg_a h anchor s hanchor_s hsrc htgt] at h1
                  exact h1
                rcases kf_mem_src_a h anchor s v hbad.1 with hmem1 | hmem2
                · exact hvs (snd_eq_of_src_singleton h hsrc hmem1)
                · have hsv : s ≠ v := Ne.symm hvs
                  have hinV : inDeg h v = 1 := by
                    have h1 := hbad.2.2.1
                    rw [kf_inDeg h anchor s v hvs] at h1
                    exact h1
                  have hcolSV : is_edge_collapsible h s v = true := by
                    have h1 := hbad.2.2.2.1
                    rw [kf_collapsible h anchor s anchor v hanchor_s hvs] at h1
                    rw [← is_edge_collapsible_trans_left h anchor s v hc]
                    exact h1
                  have hnex : ¬ exemptPair h s v := by
                    rw [exempt_iff_deg]
                    rintro ⟨_, h2⟩
                    rw [hinS] at h2
                    simp at h2
                  have hbadSV : badPair h s v := ⟨hmem2, houtS, hinV, hcolSV, hnex⟩
                  have hcp := hIII s v hsv hbadSV
                    (Or.inl (List.mem_cons_of_mem _ (List.mem_cons_self _ _)))
                  exact hanchor_s (consecPair_pair hcp).1.symm
              · by_cases hva : v = anchor
                · rw [hva] at hbad
                  have houtS1 : 1 ≤ outDeg h s := by
                    by_cases hz : outDeg h s = 0
                    · rw [(is_endpoint_iff_outDeg h s).mpr hz] at hend
                      simp at hend
                    · omega
                  have htransfer : badPair (collapse_edge_keeping_first_point h anchor s)
                      u anchor ↔ badPair h u anchor := by
                    refine badPair_congr _ h u anchor
                      (kf_mem h anchor s u anchor hua hus hanchor_s)
                      (kf_outDeg h anchor s u hua hus htgt)
                      (kf_inDeg h anchor s anchor hanchor_s)
                      ?_
                      (by rw [kf_inDeg h anchor s u hus])
                      (kf_collapsible h anchor s u anchor hus hanchor_s)
                    rw [kf_outDeg_a h anchor s hanchor_s hsrc htgt, houtA]
                    constructor <;> (intro hz; omega)
                  have hbadh := htransfer.mp hbad
                  have hcp := hIII u anchor (hva ▸ hne) hbadh
                    (Or.inr (List.mem_cons_self _ _))
                  exact consecPair_head_not_snd hnd hcp
                · rcases htouch with h1 | h1
                  · rcases List.mem_cons.mp h1 with h2 | h2
                    · exact hua h2
                    · rcases List.mem_cons.mp h2 with h3 | h3
                      · exact hus h3
                      · exact absurd h3 (List.not_mem_nil u)
                  · rcases List.mem_cons.mp h1 with h2 | h2
                    · exact hva h2
                    · rcases List.mem_cons.mp h2 with h3 | h3
                      · exact hvs h3
                      · exact absurd h3 (List.not_mem_nil v)
      | cons w rest'' =>
        obtain ⟨hsrc2, htgt2, hrest2⟩ := hrest
        have hmem_sw : (s, w) ∈ h.cfg_edge := by
          have hm : (s, w) ∈ h.cfg_edge.filter fun e => decide (e.1 = s) := by
            rw [hsrc2]
            exact List.mem_singleton.mpr rfl
          exact (List.mem_filter.mp hm).1
        have hend : is_endpoint h s = false :=
          (is_endpoint_eq_false_iff h s).mpr ⟨(s, w), hmem_sw, rfl⟩
        have hcol : collapse_edge h anchor s
            = collapse_edge_keeping_first_point h anchor s :=
          collapse_kf h anchor s hend
        have hstep : chainLinks (collapse_edge h anchor s) anchor (w :: rest'') :=
          chainLinks_collapse_step h anchor s (w :: rest'') hnd
            ⟨hsrc, htgt, hsrc2, htgt2, hrest2⟩
        have hnd' : (anchor :: w :: rest'').Nodup := nodup_cons_of_cons_cons hnd
        have hanchor_w : anchor ≠ w := by
          have h1 := (List.nodup_cons.mp hnd').1
          exact fun hh => h1 (hh ▸ List.mem_cons_self _ _)
        have hs_notin : s ∉ anchor :: w :: rest'' := by
          intro hh
          rcases List.mem_cons.mp hh with h1 | h1
          · exact hanchor_s h1.symm
          · exact (List.nodup_cons.mp (List.nodup_cons.mp hnd).2).1 h1
        by_cases htouch2 : u ∈ anchor :: w :: rest'' ∨ v ∈ anchor :: w :: rest''
        · refine ih (collapse_edge h anchor s) anchor hstep hnd' ?_ ?_ u v hne htouch2
          · intro x hx hdeg
            have hxs : x ≠ s :=
              (kf_no_s h anchor s hanchor_s (x, anchor) (by rw [← hcol]; exact hx)).1
            have hxa : x ≠ anchor := by
              intro hh
              subst hh
              exact hanchor_w (snd_eq_of_src_singleton _ hstep.1 hx)
            have hxh : (x, anchor) ∈ h.cfg_edge :=
              (kf_mem h anchor s x anchor hxa hxs hanchor_s).mp
                (by rw [← hcol]; exact hx)
            have hdegh : inDeg h anchor = 1 := by
              rw [← kf_inDeg h anchor s anchor hanchor_s, ← hcol]
              exact hdeg
            rcases hK x hxh hdegh with hout | hncol
            · left
              rw [hcol, kf_outDeg h anchor s x hxa hxs htgt]
              exact hout
            · right
              rw [hcol, kf_collapsible h anchor s x anchor hxs hanchor_s]
              exact hncol
          · intro u' v' hne' hbad' ht'
            have hlift : ∀ x : P, x ∈ anchor :: w :: rest'' →
                x ∈ anchor :: s :: w :: rest'' := by
              intro x hx
              rcases List.mem_cons.mp hx with h1 | h1
              · exact List.mem_cons.mpr (Or.inl h1)
              · exact List.mem_cons_of_mem _ (List.mem_cons_of_mem _ h1)
            have hmem' : (u', v') ∈ (collapse_edge h anchor s).cfg_edge := hbad'.1
            have hu's : u' ≠ s :=
              (kf_no_s h anchor s hanchor_s (u', v') (by rw [← hcol]; exact hmem')).1
            have hv's : v' ≠ s :=
              (kf_no_s h anchor s hanchor_s (u', v') (by rw [← hcol]; exact hmem')).2
            by_cases hu'a : u' = anchor
            · have hv'w : v' = w := snd_eq_of_src_singleton _ hstep.1 (hu'a ▸ hmem')
              rw [hu'a, hv'w]
              exact ⟨[], rest'', rfl⟩
            · by_cases hv'a : v' = anchor
              · rw [hv'a] at hbad'
                have houtS : outDeg h s = 1 := outDeg_eq_one_of_src_singleton h hsrc2
                have houtA : outDeg h anchor = 1 := outDeg_eq_one_of_src_singleton h hsrc
                have htransfer : badPair (collapse_edge h anchor s) u' anchor
                    ↔ badPair h u' anchor := by
                  rw [hcol]
                  refine badPair_congr _ h u' anchor
                    (kf_mem h anchor s u' anchor hu'a hu's hanchor_s)
                    (kf_outDeg h anchor s u' hu'a hu's htgt)
                    (kf_inDeg h anchor s anchor hanchor_s)
                    ?_
                    (by rw [kf_inDeg h anchor s u' hu's])
                    (kf_collapsible h anchor s u' anchor hu's hanchor_s)
                  rw [kf_outDeg_a h anchor s hanchor_s hsrc htgt, houtS, houtA]
                have hbadh := htransfer.mp hbad'
                have hcp := hIII u' anchor (hv'a ▸ hne') hbadh
                  (Or.inr (List.mem_cons_self _ _))
                exact (consecPair_head_not_snd hnd hcp).elim
              · have htransfer : badPair (collapse_edge h anchor s) u' v'
                    ↔ badPair h u' v' := by
                  rw [hcol]
                  exact badPair_congr_deg _ h u' v'
                    (kf_mem h anchor s u' v' hu'a hu's hv's)
                    (kf_outDeg h anchor s u' hu'a hu's htgt)
                    (kf_inDeg h anchor s u' hu's)
                    (kf_outDeg h anchor s v' hv'a hv's htgt)
                    (kf_inDeg h anchor s v' hv's)
                    (kf_collapsible h anchor s u' v' hu's hv's)
                have hbadh := htransfer.mp hbad'
                have hcp := hIII u' v' hne' hbadh (Or.imp (hlift u') (hlift v') ht')
                rcases consecPair_cases hcp with ⟨hau, l', hl'⟩ | hcp2
                · exact absurd hau.symm hu'a
                · rcases consecPair_cases hcp2 with ⟨hsu, l', hl'⟩ | hcp3
                  · exact absurd hsu.symm hu's
                  · exact consecPair_cons anchor hcp3
        · intro hbad
          have hs_out : outDeg (simplify_chain_go (collapse_edge h anchor s) anchor
              (w :: rest'')) s = 0 := by
            rw [go_outDeg_outside (w :: rest'') _ anchor hstep hnd' s hs_notin, hcol]
            exact (kf_deg_s h anchor s hanchor_s).1
          have hs_in : inDeg (simplify_chain_go (collapse_edge h anchor s) anchor
              (w :: rest'')) s = 0 := by
            rw [go_inDeg_outside (w :: rest'') _ anchor hstep hnd' s hs_notin, hcol]
            exact (kf_deg_s h anchor s hanchor_s).2
          rcases htouch with h1 | h1
          · rcases List.mem_cons.mp h1 with h2 | h2
            · exact htouch2 (Or.inl (by rw [h2]; exact List.mem_cons_self _ _))
            · rcases List.mem_cons.mp h2 with h3 | h3
              · exact not_mem_of_outDeg_zero _ s v hs_out (h3 ▸ hbad.1)
              · exact htouch2 (Or.inl (by
                  rw [List.mem_cons]
                  exact Or.inr h3))
          · rcases List.mem_cons.mp h1 with h2 | h2
            · exact htouch2 (Or.inr (by rw [h2]; exact List.mem_cons_self _ _))
            · rcases List.mem_cons.mp h2 with h3 | h3
              · exact not_mem_of_inDeg_zero _ u s hs_in (h3 ▸ hbad.1)
              · exact htouch2 (Or.inr (by
                  rw [List.mem_cons]
                  exact Or.inr h3))

theorem keys_nodup_inj {m : List (P × P)} (hnd : (m.map Prod.fst).Nodup) {p q1 q2 : P}
    (h1 : (p, q1) ∈ m) (h2 : (p, q2) ∈ m) : q1 = q2 := by
  induction m with
  | nil => exact absurd h1 (List.not_mem_nil _)
  | cons e m ih =>
    rw [List.map_cons] at hnd
    have hnd' := List.nodup_cons.mp hnd
    rcases List.mem_cons.mp h1 with he1 | he1 <;> rcases List.mem_cons.mp h2 with he2 | he2
    · rw [← he2] at he1
      exact congrArg Prod.snd he1
    · exfalso
      apply hnd'.1
      rw [← he1]
      exact List.mem_map.mpr ⟨(p, q2), he2, rfl⟩
    · exfalso
      apply hnd'.1
      rw [← he2]
      exact List.mem_map.mpr ⟨(p, q1), he1, rfl⟩
    · exact ih hnd'.2 he1 he2

theorem chainsGoMap_sublist : ∀ (hs : List P) (m : List (P × P)),
    (chainsGoMap hs m).Sublist m := by
  intro hs
  induction hs with
  | nil => intro m; exact List.Sublist.refl m
  | cons h t ih =>
    intro m
    exact (ih (walk m.length m h).2).trans (walk_final_sublist _ _ _)

theorem walk_partition (fuel : Nat) :
    ∀ (m : List (P × P)) (c : P), (m.map Prod.fst).Nodup →
      ∀ p q : P, (p, q) ∈ m →
        (p, q) ∈ (walk fuel m c).2 ∨ consecPair (c :: (walk fuel m c).1) p q := by
  induction fuel with
  | zero => intro m c _ p q hm; exact Or.inl hm
  | succ n ih =>
    intro m c hnd p q hm
    simp only [walk]
    cases hf : m.find? fun e => decide (e.1 = c) with
    | none => exact Or.inl hm
    | some e =>
      by_cases hpc : p = c
      · right
        have he_mem : e ∈ m := List.mem_of_find?_eq_some hf
        have he_fst : e.1 = c := by
          have hp := List.find?_some hf
          simpa using hp
        have hq : q = e.2 := by
          refine keys_nodup_inj hnd (hpc ▸ hm) ?_
          rw [← he_fst]
          exact he_mem
        rw [hq, hpc]
        exact ⟨[], (walk n (m.filter fun e2 => decide (e2.1 ≠ c)) e.2).1, rfl⟩
      · have hm' : (p, q) ∈ m.filter fun e2 => decide (e2.1 ≠ c) :=
          List.mem_filter.mpr ⟨hm, by simp [hpc]⟩
        have hnd' : ((m.filter fun e2 => decide (e2.1 ≠ c)).map Prod.fst).Nodup :=
          ((List.filter_sublist m).map Prod.fst).nodup hnd
        rcases ih (m.filter fun e2 => decide (e2.1 ≠ c)) e.2 hnd' p q hm' with h1 | h1
        · exact Or.inl h1
        · exact Or.inr (consecPair_cons c h1)

theorem chainsGo_partition : ∀ (hs : List P) (m : List (P × P)),
    (m.map Prod.fst).Nodup →
    ∀ p q : P, (p, q) ∈ m →
      (p, q) ∈ chainsGoMap hs m ∨ ∃ ch ∈ chainsGo hs m, consecPair ch p q := by
  intro hs
  induction hs with
  | nil => intro m _ p q hm; exact Or.inl hm
  | cons h t ih =>
    intro m hnd p q hm
    rcases walk_partition m.length m h hnd p q hm with h1 | h1
    · have hnd' : (((walk m.length m h).2).map Prod.fst).Nodup :=
        ((walk_final_sublist _ _ _).map Prod.fst).nodup hnd
      rcases ih (walk m.length m h).2 hnd' p q h1 with h2 | h2
      · exact Or.inl h2
      · obtain ⟨ch, hch, hcp⟩ := h2
        exact Or.inr ⟨ch, List.mem_cons_of_mem _ hch, hcp⟩
    · exact Or.inr ⟨h :: (walk m.length m h).1, List.mem_cons_self _ _, h1⟩

theorem walk_avoid (fuel : Nat) :
    ∀ (m m₀ : List (P × P)) (c : P), m.length ≤ fuel → m.Sublist m₀ →
      (∀ p1 p2 q, (p1, q) ∈ m₀ → (p2, q) ∈ m₀ → p1 = p2) →
      (∀ k, (k, c) ∉ m) →
      ∀ p q : P, (p, q) ∈ (walk fuel m c).2 →
        p ∉ c :: (walk fuel m c).1 ∧ q ∉ c :: (walk fuel m c).1 := by
  induction fuel with
  | zero =>
    intro m m₀ c hlen _ _ _ p q hm
    have : m = [] := List.length_eq_zero.mp (Nat.le_zero.mp hlen)
    rw [this] at hm
    exact absurd hm (List.not_mem_nil _)
  | succ n ih =>
    intro m m₀ c hlen hsub hinj hhead p q hm
    simp only [walk] at hm ⊢
    cases hf : m.find? fun e => decide (e.1 = c) with
    | none =>
      rw [hf] at hm
      have hpc : p ≠ c := by
        intro hh
        have := List.find?_eq_none.mp hf (p, q) hm
        simp [hh] at this
      have hqc : q ≠ c := fun hh => hhead p (hh ▸ hm)
      constructor <;> intro hmem <;> rcases List.mem_cons.mp hmem with h1 | h1
      · exact hpc h1
      · exact absurd h1 (List.not_mem_nil _)
      · exact hqc h1
      · exact absurd h1 (List.not_mem_nil _)
    | some e =>
      rw [hf] at hm
      have he_mem : e ∈ m := List.mem_of_find?_eq_some hf
      have he_fst : e.1 = c := by
        have hp := List.find?_some hf
        simpa using hp
      have hlen' : (m.filter fun e2 => decide (e2.1 ≠ c)).length ≤ n := by
        have hlt : (m.filter fun e2 => decide (e2.1 ≠ c)).length < m.length := by
          rw [List.length_filter_lt_length_iff_exists]
          exact ⟨e, he_mem, by simp [he_fst]⟩
        omega
      have hsub' : (m.filter fun e2 => decide (e2.1 ≠ c)).Sublist m₀ :=
        (List.filter_sublist m).trans hsub
      have hhead' : ∀ k, (k, e.2) ∉ m.filter fun e2 => decide (e2.1 ≠ c) := by
        intro k hk
        have hkm := List.mem_filter.mp hk
        have hkc : k = c := by
          refine hinj k c e.2 (hsub.subset hkm.1) ?_
          rw [← he_fst]
          exact hsub.subset he_mem
        have := hkm.2
        simp [hkc] at this
      have hih := ih (m.filter fun e2 => decide (e2.1 ≠ c)) m₀ e.2 hlen' hsub' hinj
        hhead' p q hm
      have hmm : (p, q) ∈ m.filter fun e2 => decide (e2.1 ≠ c) :=
        (walk_final_sublist _ _ _).subset hm
      have hpc : p ≠ c := by
        have := (List.mem_filter.mp hmm).2
        simpa using this
      have hqc : q ≠ c := fun hh => hhead p (hh ▸ (List.mem_filter.mp hmm).1)
      constructor <;> intro hmem <;> rcases List.mem_cons.mp hmem with h1 | h1
      · exact hpc h1
      · exact hih.1 h1
      · exact hqc h1
      · exact hih.2 h1

theorem chains_avoid : ∀ (hs : List P) (m m₀ : List (P × P)), m.Sublist m₀ →
    (∀ p1 p2 q, (p1, q) ∈ m₀ → (p2, q) ∈ m₀ → p1 = p2) →
    (∀ h ∈ hs, ∀ k, (k, h) ∉ m) →
    ∀ p q : P, (p, q) ∈ chainsGoMap hs m →
      ∀ ch ∈ chainsGo hs m, p ∉ ch ∧ q ∉ ch := by
  intro hs
  induction hs with
  | nil => intro m m₀ _ _ _ p q _ ch hch; simp [chainsGo] at hch
  | cons h t ih =>
    intro m m₀ hsub hinj hheads p q hm ch hch
    have hmw : (p, q) ∈ (walk m.length m h).2 :=
      (chainsGoMap_sublist t _).subset hm
    rcases List.mem_cons.mp hch with h1 | h1
    · rw [h1]
      exact walk_avoid m.length m m₀ h le_rfl hsub hinj
        (hheads h (List.mem_cons_self _ _)) p q hmw
    · exact ih (walk m.length m h).2 m₀ ((walk_final_sublist _ _ _).trans hsub) hinj
        (fun h' hh' k hk => hheads h' (List.mem_cons_of_mem _ hh') k
          ((walk_final_sublist _ _ _).subset hk))
        p q hm ch h1

theorem walk_consumes (m : List (P × P)) (u v : P) (hm : (u, v) ∈ m) :
    (u, v) ∉ (walk m.length m u).2 := by
  intro hfin
  cases hlen : m.length with
  | zero =>
    rw [List.length_eq_zero.mp hlen] at hm
    exact absurd hm (List.not_mem_nil _)
  | succ n =>
    rw [hlen] at hfin
    simp only [walk] at hfin
    cases hf : m.find? fun e => decide (e.1 = u) with
    | none =>
      have := List.find?_eq_none.mp hf (u, v) hm
      simp at this
    | some e =>
      rw [hf] at hfin
      have := (walk_final_sublist n _ _).subset hfin
      have h2 := (List.mem_filter.mp this).2
      simp at h2

theorem chainsGoMap_head_gone : ∀ (hs : List P) (m : List (P × P)) (u v : P),
    u ∈ hs → (u, v) ∈ chainsGoMap hs m → False := by
  intro hs
  induction hs with
  | nil => intro m u v hu _; exact absurd hu (List.not_mem_nil _)
  | cons h t ih =>
    intro m u v hu hfin
    rcases List.mem_cons.mp hu with h1 | h1
    · have hmw : (u, v) ∈ (walk m.length m h).2 :=
        (chainsGoMap_sublist t _).subset hfin
      have hmm : (u, v) ∈ m := (walk_final_sublist _ _ _).subset hmw
      rw [← h1] at hmw
      exact walk_consumes m u v hmm hmw
    · exact ih (walk m.length m h).2 u v h1 hfin

theorem leftover_backward (edges : List (P × P)) (u v : P)
    (hm : (u, v) ∈ leftoverMap edges) : ∃ p, (p, u) ∈ leftoverMap edges := by
  have hnd : ((isolatedEdges edges).map Prod.fst).Nodup := isolatedEdges_keys_nodup edges
  have hinj : ∀ p1 p2 q, (p1, q) ∈ isolatedEdges edges → (p2, q) ∈ isolatedEdges edges →
      p1 = p2 := fun p1 p2 q h1 h2 => isolatedEdges_inj edges h1 h2
  have hm0 : (u, v) ∈ isolatedEdges edges :=
    (chainsGoMap_sublist _ _).subset hm
  by_cases hval : ∃ p, (p, u) ∈ isolatedEdges edges
  · obtain ⟨p, hp⟩ := hval
    rcases chainsGo_partition (chainHeads (isolatedEdges edges)) (isolatedEdges edges)
        hnd p u hp with h1 | h1
    · exact ⟨p, h1⟩
    · obtain ⟨ch, hch, hcp⟩ := h1
      exact absurd (consecPair_mem hcp).2
        (chains_avoid _ _ _ (List.Sublist.refl _) hinj
          (fun h hh k => chainHeads_not_value _ hh k) u v hm ch hch).1
  · exfalso
    have hu_head : u ∈ chainHeads (isolatedEdges edges) := by
      rw [chainHeads, List.mem_filter]
      constructor
      · exact List.mem_map.mpr ⟨(u, v), hm0, rfl⟩
      · simp only [Bool.not_eq_true', List.any_eq_false]
        intro e he
        have hne : e.2 ≠ u := fun hh => hval ⟨e.1, by rw [← hh]; exact he⟩
        simp [hne]
    exact chainsGoMap_head_gone _ _ u v hu_head hm

theorem foldl_outDeg_outside : ∀ (cs : List (List P)) (g : AllFacts R L P),
    chainsOk g cs → ∀ x, (∀ ch ∈ cs, x ∉ ch) →
      outDeg (cs.foldl simplify_chain g) x = outDeg g x := by
  intro cs
  induction cs with
  | nil => intro g _ x _; rfl
  | cons ch cs ih =>
    intro g hok x hx
    rw [List.foldl_cons]
    rw [ih (simplify_chain g ch) (chainsOk_step g ch cs hok) x
      (fun ch' hch' => hx ch' (List.mem_cons_of_mem _ hch'))]
    cases ch with
    | nil => rfl
    | cons c0 tl =>
      obtain ⟨hnd0, hlinks0⟩ := hok.1 (c0 :: tl) (List.mem_cons_self _ _)
      exact go_outDeg_outside tl g c0 hlinks0 hnd0 x (hx _ (List.mem_cons_self _ _))

theorem foldl_inDeg_outside : ∀ (cs : List (List P)) (g : AllFacts R L P),
    chainsOk g cs → ∀ x, (∀ ch ∈ cs, x ∉ ch) →
      inDeg (cs.foldl simplify_chain g) x = inDeg g x := by
  intro cs
  induction cs with
  | nil => intro g _ x _; rfl
  | cons ch cs ih =>
    intro g hok x hx
    rw [List.foldl_cons]
    rw [ih (simplify_chain g ch) (chainsOk_step g ch cs hok) x
      (fun ch' hch' => hx ch' (List.mem_cons_of_mem _ hch'))]
    cases ch with
    | nil => rfl
    | cons c0 tl =>
      obtain ⟨hnd0, hlinks0⟩ := hok.1 (c0 :: tl) (List.mem_cons_self _ _)
      exact go_inDeg_outside tl g c0 hlinks0 hnd0 x (hx _ (List.mem_cons_self _ _))

theorem foldl_mem_outside : ∀ (cs : List (List P)) (g : AllFacts R L P),
    chainsOk g cs → ∀ x y, (∀ ch ∈ cs, x ∉ ch) → (∀ ch ∈ cs, y ∉ ch) →
      ((x, y) ∈ (cs.foldl simplify_chain g).cfg_edge ↔ (x, y) ∈ g.cfg_edge) := by
  intro cs
  induction cs with
  | nil => intro g _ x y _ _; exact Iff.rfl
  | cons ch cs ih =>
    intro g hok x y hx hy
    rw [List.foldl_cons]
    refine (ih (simplify_chain g ch) (chainsOk_step g ch cs hok) x y
      (fun ch' hch' => hx ch' (List.mem_cons_of_mem _ hch'))
      (fun ch' hch' => hy ch' (List.mem_cons_of_mem _ hch'))).trans ?_
    cases ch with
    | nil => exact Iff.rfl
    | cons c0 tl =>
      obtain ⟨hnd0, hlinks0⟩ := hok.1 (c0 :: tl) (List.mem_cons_self _ _)
      exact go_mem_outside tl g c0 hlinks0 hnd0 x y
        (hx _ (List.mem_cons_self _ _)) (hy _ (List.mem_cons_self _ _))

theorem foldl_settled : ∀ (cs : List (List P)) (g : AllFacts R L P) (L₀ : List (P × P)),
    chainsOk g cs →
    (∀ p q, (p, q) ∈ L₀ → ∀ ch ∈ cs, p ∉ ch ∧ q ∉ ch) →
    (∀ u v, u ≠ v → badPair g u v →
      (∃ ch ∈ cs, consecPair ch u v) ∨ (u, v) ∈ L₀) →
    ∀ u v, u ≠ v → badPair (cs.foldl simplify_chain g) u v → (u, v) ∈ L₀ := by
  intro cs
  induction cs with
  | nil =>
    intro g L₀ _ _ hINV u v hne hbad
    rcases hINV u v hne hbad with ⟨ch, hch, _⟩ | h1
    · exact absurd hch (List.not_mem_nil _)
    · exact h1
  | cons ch cs ih =>
    intro g L₀ hok hLdisj hINV u v hne hbad
    rw [List.foldl_cons] at hbad
    cases ch with
    | nil => exact absurd (hok.1 [] (List.mem_cons_self _ _)) (fun hf => hf)
    | cons c0 tl =>
      obtain ⟨hnd0, hlinks0⟩ := hok.1 (c0 :: tl) (List.mem_cons_self _ _)
      have hok' : chainsOk (simplify_chain g (c0 :: tl)) cs :=
        chainsOk_step g (c0 :: tl) cs hok
      have hINV' : ∀ u' v', u' ≠ v' → badPair (simplify_chain g (c0 :: tl)) u' v' →
          (∃ ch' ∈ cs, consecPair ch' u' v') ∨ (u', v') ∈ L₀ := by
        intro u' v' hne' hbad'
        by_cases htouch : u' ∈ c0 :: tl ∨ v' ∈ c0 :: tl
        · exfalso
          cases tl with
          | nil =>
            have hbadg : badPair g u' v' := hbad'
            rcases hINV u' v' hne' hbadg with ⟨ch', hch', hcp⟩ | hl0
            · rcases List.mem_cons.mp hch' with h1 | h1
              · rw [h1] at hcp
                exact consecPair_not_single c0 u' v' hcp
              · have hdisj := (List.pairwise_cons.mp hok.2).1 ch' h1
                rcases htouch with h2 | h2
                · exact hdisj u' h2 (consecPair_mem hcp).1
                · exact hdisj v' h2 (consecPair_mem hcp).2
            · have hld := hLdisj u' v' hl0 [c0] (List.mem_cons_self _ _)
              rcases htouch with h2 | h2
              · exact hld.1 h2
              · exact hld.2 h2
          | cons c1 tl' =>
            have houtC0 : outDeg g c0 = 1 := outDeg_eq_one_of_src_singleton g hlinks0.1
            have hK : anchorOk g c0 := by
              intro x hx hdeg
              by_cases hout2 : 2 ≤ outDeg g x
              · exact Or.inl hout2
              · right
                rcases Bool.eq_false_or_eq_true (is_edge_collapsible g x c0)
                    with hcoll | hcoll
                · exfalso
                  have houtx : outDeg g x = 1 := by
                    have := outDeg_pos_of_mem g hx
                    omega
                  have hxc0 : x ≠ c0 := by
                    intro hh
                    have h2 := snd_eq_of_src_singleton g hlinks0.1 (hh ▸ hx)
                    have h3 := (List.nodup_cons.mp hnd0).1
                    exact h3 (h2 ▸ List.mem_cons_self _ _)
                  have hnex : ¬ exemptPair g x c0 := by
                    rw [exempt_iff_deg]
                    rintro ⟨h1, _⟩
                    rw [houtC0] at h1
                    simp at h1
                  have hbadx : badPair g x c0 := ⟨hx, houtx, hdeg, hcoll, hnex⟩
                  rcases hINV x c0 hxc0 hbadx with ⟨ch', hch', hcp⟩ | hl0
                  · rcases List.mem_cons.mp hch' with h1 | h1
                    · rw [h1] at hcp
                      exact consecPair_head_not_snd hnd0 hcp
                    · exact (List.pairwise_cons.mp hok.2).1 ch' h1 c0
                        (List.mem_cons_self _ _) (consecPair_mem hcp).2
                  · exact (hLdisj x c0 hl0 (c0 :: c1 :: tl')
                      (List.mem_cons_self _ _)).2 (List.mem_cons_self _ _)
                · exact hcoll
            have hIII : ∀ u2 v2, u2 ≠ v2 → badPair g u2 v2 →
                (u2 ∈ c0 :: c1 :: tl' ∨ v2 ∈ c0 :: c1 :: tl') →
                consecPair (c0 :: c1 :: tl') u2 v2 := by
              intro u2 v2 hne2 hbad2 ht2
              rcases hINV u2 v2 hne2 hbad2 with ⟨ch', hch', hcp⟩ | hl0
              · rcases List.mem_cons.mp hch' with h1 | h1
                · rw [h1] at hcp
                  exact hcp
                · exfalso
                  have hdisj := (List.pairwise_cons.mp hok.2).1 ch' h1
                  rcases ht2 with h2 | h2
                  · exact hdisj u2 h2 (consecPair_mem hcp).1
                  · exact hdisj v2 h2 (consecPair_mem hcp).2
              · exfalso
                have hld := hLdisj u2 v2 hl0 (c0 :: c1 :: tl') (List.mem_cons_self _ _)
                rcases ht2 with h2 | h2
                · exact hld.1 h2
                · exact hld.2 h2
            exact go_settled (c1 :: tl') g c0 hlinks0 hnd0 hK hIII u' v' hne' htouch hbad'
        · have hu_not : u' ∉ c0 :: tl := fun hh => htouch (Or.inl hh)
          have hv_not : v' ∉ c0 :: tl := fun hh => htouch (Or.inr hh)
          have htrans : badPair (simplify_chain_go g c0 tl) u' v' ↔ badPair g u' v' :=
            badPair_congr_deg _ g u' v'
              (go_mem_outside tl g c0 hlinks0 hnd0 u' v' hu_not hv_not)
              (go_outDeg_outside tl g c0 hlinks0 hnd0 u' hu_not)
              (go_inDeg_outside tl g c0 hlinks0 hnd0 u' hu_not)
              (go_outDeg_outside tl g c0 hlinks0 hnd0 v' hv_not)
              (go_inDeg_outside tl g c0 hlinks0 hnd0 v' hv_not)
              (go_is_edge_collapsible tl g c0 hlinks0 hnd0 u' v' hu_not hv_not)
          have hbadg := htrans.mp hbad'
          rcases hINV u' v' hne' hbadg with ⟨ch', hch', hcp⟩ | hl0
          · rcases List.mem_cons.mp hch' with h1 | h1
            · exfalso
              rw [h1] at hcp
              exact hu_not (consecPair_mem hcp).1
            · exact Or.inl ⟨ch', h1, hcp⟩
          · exact Or.inr hl0
      exact ih (simplify_chain g (c0 :: tl)) L₀ hok'
        (fun p q hpq ch' hch' => hLdisj p q hpq ch' (List.mem_cons_of_mem _ hch'))
        hINV' u v hne hbad

theorem simplify_cfg_settled (f : AllFacts R L P) :
    ∀ u v, u ≠ v → badPair (simplify_cfg f) u v → (u, v) ∈ leftoverMap f.cfg_edge := by
  intro u v hne hbad
  refine foldl_settled (isolated_chains f.cfg_edge) f (leftoverMap f.cfg_edge)
    (chainsOk_isolated_chains f) ?_ ?_ u v hne hbad
  · intro p q hpq ch hch
    exact chains_avoid (chainHeads (isolatedEdges f.cfg_edge)) (isolatedEdges f.cfg_edge)
      (isolatedEdges f.cfg_edge) (List.Sublist.refl _)
      (fun p1 p2 q' h1 h2 => isolatedEdges_inj f.cfg_edge h1 h2)
      (fun h hh k => chainHeads_not_value _ hh k) p q hpq ch hch
  · intro u' v' hne' hbad'
    have hiso : (u', v') ∈ isolatedEdges f.cfg_edge := by
      rw [mem_isolatedEdges_iff_deg]
      exact ⟨hbad'.1, hbad'.2.1, hbad'.2.2.1⟩
    rcases chainsGo_partition (chainHeads (isolatedEdges f.cfg_edge))
        (isolatedEdges f.cfg_edge) (isolatedEdges_keys_nodup f.cfg_edge) u' v' hiso
      with h1 | h1
    · exact Or.inr h1
    · exact Or.inl h1

theorem leftover_in_g (f : AllFacts R L P) (p q : P)
    (hm : (p, q) ∈ leftoverMap f.cfg_edge) :
    (p, q) ∈ isolatedEdges (simplify_cfg f).cfg_edge := by
  have hdisj : ∀ ch ∈ isolated_chains f.cfg_edge, p ∉ ch ∧ q ∉ ch :=
    chains_avoid (chainHeads (isolatedEdges f.cfg_edge)) (isolatedEdges f.cfg_edge)
      (isolatedEdges f.cfg_edge) (List.Sublist.refl _)
      (fun p1 p2 q' h1 h2 => isolatedEdges_inj f.cfg_edge h1 h2)
      (fun h hh k => chainHeads_not_value _ hh k) p q hm
  have hiso : (p, q) ∈ isolatedEdges f.cfg_edge := (chainsGoMap_sublist _ _).subset hm
  rw [mem_isolatedEdges_iff_deg] at hiso ⊢
  obtain ⟨hmem, hout, hin⟩ := hiso
  refine ⟨?_, ?_, ?_⟩
  · exact (foldl_mem_outside (isolated_chains f.cfg_edge) f (chainsOk_isolated_chains f) p q
      (fun ch hch => (hdisj ch hch).1) (fun ch hch => (hdisj ch hch).2)).mpr hmem
  · show outDeg (simplify_cfg f) p = 1
    rw [show simplify_cfg f
        = (isolated_chains f.cfg_edge).foldl simplify_chain f from rfl]
    rw [foldl_outDeg_outside (isolated_chains f.cfg_edge) f (chainsOk_isolated_chains f) p
      (fun ch hch => (hdisj ch hch).1)]
    exact hout
  · show inDeg (simplify_cfg f) q = 1
    rw [show simplify_cfg f
        = (isolated_chains f.cfg_edge).foldl simplify_chain f from rfl]
    rw [foldl_inDeg_outside (isolated_chains f.cfg_edge) f (chainsOk_isolated_chains f) q
      (fun ch hch => (hdisj ch hch).2)]
    exact hin

theorem chainsGo_chain_struct : ∀ (hs : List P) (m m₀ : List (P × P)), m.Sublist m₀ →
    ∀ ch ∈ chainsGo hs m, ∃ c tl, ch = c :: tl ∧ c ∈ hs ∧
      List.Chain (fun a b => (a, b) ∈ m₀) c tl := by
  intro hs
  induction hs with
  | nil => intro m m₀ _ ch hch; simp [chainsGo] at hch
  | cons h t ih =>
    intro m m₀ hsub ch hch
    rcases List.mem_cons.mp hch with h1 | h1
    · exact ⟨h, (walk m.length m h).1, h1, List.mem_cons_self _ _,
        walk_chain m.length m m₀ h hsub⟩
    · obtain ⟨c, tl, hch_eq, hc_in, hchain⟩ := ih (walk m.length m h).2 m₀
        ((walk_final_sublist _ _ _).trans hsub) ch h1
      exact ⟨c, tl, hch_eq, List.mem_cons_of_mem _ hc_in, hchain⟩

theorem pass2_go (f : AllFacts R L P) :
    ∀ (tl : List P) (c : P),
      (∀ q, (c, q) ∉ leftoverMap f.cfg_edge) →
      (c :: tl).Nodup →
      List.Chain (fun a b => (a, b) ∈ isolatedEdges (simplify_cfg f).cfg_edge) c tl →
      simplify_chain_go (simplify_cfg f) c tl = simplify_cfg f := by
  intro tl
  induction tl with
  | nil => intro c _ _ _; rfl
  | cons s tl' ih =>
    intro c hNL hnd hchain
    cases hchain with
    | cons hlink hchain' =>
      obtain ⟨hmem, hout, hin⟩ := (mem_isolatedEdges_iff_deg _ c s).mp hlink
      have hcs : c ≠ s := by
        have h1 := (List.nodup_cons.mp hnd).1
        exact fun hh => h1 (hh ▸ List.mem_cons_self _ _)
      have hNLs : ∀ q, (s, q) ∉ leftoverMap f.cfg_edge := by
        intro q hq
        obtain ⟨p', hp'⟩ := leftover_backward f.cfg_edge s q hq
        have hgp : (p', s) ∈ isolatedEdges (simplify_cfg f).cfg_edge :=
          leftover_in_g f p' s hp'
        have hpc : p' = c := isolatedEdges_inj _ hgp hlink
        rw [hpc] at hp'
        exact hNL s hp'
      simp only [simplify_chain_go]
      cases hcoll : is_edge_collapsible (simplify_cfg f) c s with
      | false =>
        rw [if_neg (by simp)]
        exact ih s hNLs (List.nodup_cons.mp hnd).2 hchain'
      | true =>
        rw [if_pos rfl]
        have hexempt : exemptPair (simplify_cfg f) c s := by
          by_cases hex : exemptPair (simplify_cfg f) c s
          · exact hex
          · exfalso
            exact hNL s (simplify_cfg_settled f c s hcs ⟨hmem, hout, hin, hcoll, hex⟩)
        cases tl' with
        | nil =>
          have hnoop : collapse_edge (simplify_cfg f) c s = simplify_cfg f :=
            collapse_noop _ c s hexempt.1 hexempt.2
          simp only [simplify_chain_go]
          exact hnoop
        | cons w tl'' =>
          exfalso
          cases hchain' with
          | cons hlink2 _ =>
            have hmem2 := ((mem_isolatedEdges_iff_deg _ s w).mp hlink2).1
            have h0 : outDeg (simplify_cfg f) s = 0 :=
              (is_endpoint_iff_outDeg _ s).mp hexempt.1
            exact not_mem_of_outDeg_zero _ s w h0 hmem2

theorem foldl_eq_self {α β : Type _} (f : β → α → β) (b : β) :
    ∀ l : List α, (∀ a ∈ l, f b a = b) → l.foldl f b = b := by
  intro l
  induction l with
  | nil => intro _; rfl
  | cons a l ih =>
    intro hl
    rw [List.foldl_cons, hl a (List.mem_cons_self _ _)]
    exact ih fun a' ha' => hl a' (List.mem_cons_of_mem _ ha')

theorem parseLine1_eq_none_iff (k1 : AtomKind) (t : InternerTables) (line : String) :
    parseLine1 k1 t line = none ↔ (tabColumns line).length ≠ 1 := by
  rcases h : tabColumns line with _ | ⟨a, _ | ⟨b, rest⟩⟩ <;>
    simp [parseLine1, parseAtom, h]

theorem parseLine2_eq_none_iff (k1 k2 : AtomKind) (t : InternerTables) (line : String) :
    parseLine2 k1 k2 t line = none ↔ (tabColumns line).length ≠ 2 := by
  rcases h : tabColumns line with _ | ⟨a, _ | ⟨b, _ | ⟨c, rest⟩⟩⟩ <;>
    simp [parseLine2, parseAtom, h]

theorem parseLine3_eq_none_iff (k1 k2 k3 : AtomKind) (t : InternerTables) (line : String) :
    parseLine3 k1 k2 k3 t line = none ↔ (tabColumns line).length ≠ 3 := by
  rcases h : tabColumns line with _ | ⟨a, _ | ⟨b, _ | ⟨c, _ | ⟨d, rest⟩⟩⟩⟩ <;>
    simp [parseLine3, parseAtom, h]

theorem parseFile1_eq_none_iff (k1 : AtomKind) (lines : List String) :
    ∀ t : InternerTables,
      parseFile1 k1 t lines = none ↔ ∃ line ∈ lines, (tabColumns line).length ≠ 1 := by
  induction lines with
  | nil => intro t; simp [parseFile1]
  | cons l rest ih =>
    intro t
    cases hl : parseLine1 k1 t l with
    | none =>
      simp only [parseFile1, hl, Option.none_bind, true_iff]
      exact ⟨l, List.mem_cons_self _ _, (parseLine1_eq_none_iff k1 t l).mp hl⟩
    | some w =>
      have hgood : ¬ (tabColumns l).length ≠ 1 := by
        intro hbad
        rw [← parseLine1_eq_none_iff k1 t l] at hbad
        rw [hl] at hbad
        exact Option.noConfusion hbad
      simp only [parseFile1, hl, Option.some_bind, Option.map_eq_none', ih w.1,
        List.mem_cons, exists_eq_or_imp]
      tauto

theorem parseFile2_eq_none_iff (k1 k2 : AtomKind) (lines : List String) :
    ∀ t : InternerTables,
      parseFile2 k1 k2 t lines = none ↔ ∃ line ∈ lines, (tabColumns line).length ≠ 2 := by
  induction lines with
  | nil => intro t; simp [parseFile2]
  | cons l rest ih =>
    intro t
    cases hl : parseLine2 k1 k2 t l with
    | none =>
      simp only [parseFile2, hl, Option.none_bind, true_iff]
      exact ⟨l, List.mem_cons_self _ _, (parseLine2_eq_none_iff k1 k2 t l).mp hl⟩
    | some w =>
      have hgood : ¬ (tabColumns l).length ≠ 2 := by
        intro hbad
        rw [← parseLine2_eq_none_iff k1 k2 t l] at hbad
        rw [hl] at hbad
        exact Option.noConfusion hbad
      simp only [parseFile2, hl, Option.some_bind, Option.map_eq_none', ih w.1,
        List.mem_cons, exists_eq_or_imp]
      tauto

theorem parseFile3_eq_none_iff (k1 k2 k3 : AtomKind) (lines : List String) :
    ∀ t : InternerTables,
      parseFile3 k1 k2 k3 t lines = none ↔ ∃ line ∈ lines, (tabColumns line).length ≠ 3 := by
  induction lines with
  | nil => intro t; simp [parseFile3]
  | cons l rest ih =>
    intro t
    cases hl : parseLine3 k1 k2 k3 t l with
    | none =>
      simp only [parseFile3, hl, Option.none_bind, true_iff]
      exact ⟨l, List.mem_cons_self _ _, (parseLine3_eq_none_iff k1 k2 k3 t l).mp hl⟩
    | some w =>
      have hgood : ¬ (tabColumns l).length ≠ 3 := by
        intro hbad
        rw [← parseLine3_eq_none_iff k1 k2 k3 t l] at hbad
        rw [hl] at hbad
        exact Option.noConfusion hbad
      simp only [parseFile3, hl, Option.some_bind, Option.map_eq_none', ih w.1,
        List.mem_cons, exists_eq_or_imp]
      tauto

/-- The file-badness condition under which loading fails: the file is
missing, or some line's tab-separated column count differs from the
relation's arity. -/
def fileBad (dir : String → Option (List String)) (name : String) (arity : Nat) : Prop :=
  dir (name ++ ".facts") = none
    ∨ ∃ lines, dir (name ++ ".facts") = some lines
        ∧ ∃ line ∈ lines, (tabColumns line).length ≠ arity

theorem loadFilesA_eq_none_iff (t : InternerTables) (dir : String → Option (List String)) :
    loadFilesA t dir = none ↔
      fileBad dir "borrow_region" 3 ∨ fileBad dir "universal_region" 1
        ∨ fileBad dir "cfg_edge" 2 := by
  unfold loadFilesA
  simp only [fileBad, Option.bind_eq_bind]
  cases hd1 : dir "borrow_region.facts" with
  | none => simp [hd1]
  | some l1 =>
    simp only [hd1, Option.some_bind]
    cases hp1 : parseFile3 AtomKind.region AtomKind.loan AtomKind.point t l1 with
    | none =>
      simp only [hp1, Option.none_bind, true_iff]
      exact Or.inl (Or.inr ⟨l1, hd1, (parseFile3_eq_none_iff _ _ _ l1 t).mp hp1⟩)
    | some w1 =>
      have hg1 : ¬ ∃ line ∈ l1, (tabColumns line).length ≠ 3 := by
        rw [← parseFile3_eq_none_iff _ _ _ l1 t, hp1]
        exact fun hc => Option.noConfusion hc
      simp only [hp1, Option.some_bind]
      cases hd2 : dir "universal_region.facts" with
      | none => simp [hd2, hd1, hg1]
      | some l2 =>
        simp only [hd2, Option.some_bind]
        cases hp2 : parseFile1 AtomKind.region w1.1 l2 with
        | none =>
          simp only [hp2, Option.none_bind, true_iff]
          exact Or.inr (Or.inl (Or.inr ⟨l2, hd2, (parseFile1_eq_none_iff _ l2 w1.1).mp hp2⟩))
        | some w2 =>
          have hg2 : ¬ ∃ line ∈ l2, (tabColumns line).length ≠ 1 := by
            rw [← parseFile1_eq_none_iff _ l2 w1.1, hp2]
            exact fun hc => Option.noConfusion hc
          simp only [hp2, Option.some_bind]
          cases hd3 : dir "cfg_edge.facts" with
          | none => simp [hd3, hd1, hd2, hg1, hg2]
          | some l3 =>
            simp only [hd3, Option.some_bind]
            cases hp3 : parseFile2 AtomKind.point AtomKind.point w2.1 l3 with
            | none =>
              simp only [hp3, Option.none_bind, true_iff]
              exact Or.inr (Or.inr (Or.inr ⟨l3, hd3, (parseFile2_eq_none_iff _ _ l3 w2.1).mp hp3⟩))
            | some w3 =>
              have hg3 : ¬ ∃ line ∈ l3, (tabColumns line).length ≠ 2 := by
                rw [← parseFile2_eq_none_iff _ _ l3 w2.1, hp3]
                exact fun hc => Option.noConfusion hc
              simp [hp3, hd1, hd2, hd3, hg1, hg2, hg3]

theorem loadFilesB_eq_none_iff (t : InternerTables) (dir : String → Option (List String)) :
    loadFilesB t dir = none ↔ fileBad dir "killed" 2 ∨ fileBad dir "outlives" 3 := by
  unfold loadFilesB
  simp only [fileBad, Option.bind_eq_bind]
  cases hd4 : dir "killed.facts" with
  | none => simp [hd4]
  | some l4 =>
    simp only [hd4, Option.some_bind]
    cases hp4 : parseFile2 AtomKind.loan AtomKind.point t l4 with
    | none =>
      simp only [hp4, Option.none_bind, true_iff]
      exact Or.inl (Or.inr ⟨l4, hd4, (parseFile2_eq_none_iff _ _ l4 t).mp hp4⟩)
    | some w4 =>
      have hg4 : ¬ ∃ line ∈ l4, (tabColumns line).length ≠ 2 := by
        rw [← parseFile2_eq_none_iff _ _ l4 t, hp4]
        exact fun hc => Option.noConfusion hc
      simp only [hp4, Option.some_bind]
      cases hd5 : dir "outlives.facts" with
      | none => simp [hd5, hd4, hg4]
      | some l5 =>
        simp only [hd5, Option.some_bind]
        cases hp5 : parseFile3 AtomKind.region AtomKind.region AtomKind.point w4.1 l5 with
        | none =>
          simp only [hp5, Option.none_bind, true_iff]
          exact Or.inr (Or.inr ⟨l5, hd5, (parseFile3_eq_none_iff _ _ _ l5 w4.1).mp hp5⟩)
        | some w5 =>
          have hg5 : ¬ ∃ line ∈ l5, (tabColumns line).length ≠ 3 := by
            rw [← parseFile3_eq_none_iff _ _ _ l5 w4.1, hp5]
            exact fun hc => Option.noConfusion hc
          simp [hp5, hd4, hd5, hg4, hg5]

theorem loadFilesC_eq_none_iff (t : InternerTables) (dir : String → Option (List String)) :
    loadFilesC t dir = none ↔ fileBad dir "region_live_at" 2 ∨ fileBad dir "invalidates" 2 := by
  unfold loadFilesC
  simp only [fileBad, Option.bind_eq_bind]
  cases hd6 : dir "region_live_at.facts" with
  | none => simp [hd6]
  | some l6 =>
    simp only [hd6, Option.some_bind]
    cases hp6 : parseFile2 AtomKind.region AtomKind.point t l6 with
    | none =>
      simp only [hp6, Option.none_bind, true_iff]
      exact Or.inl (Or.inr ⟨l6, hd6, (parseFile2_eq_none_iff _ _ l6 t).mp hp6⟩)
    | some w6 =>
      have hg6 : ¬ ∃ line ∈ l6, (tabColumns line).length ≠ 2 := by
        rw [← parseFile2_eq_none_iff _ _ l6 t, hp6]
        exact fun hc => Option.noConfusion hc
      simp only [hp6, Option.some_bind]
      cases hd7 : dir "invalidates.facts" with
      | none => simp [hd7, hd6, hg6]
      | some l7 =>
        simp only [hd7, Option.some_bind]
        cases hp7 : parseFile2 AtomKind.point AtomKind.loan w6.1 l7 with
        | none =>
          simp only [hp7, Option.none_bind, true_iff]
          exact Or.inr (Or.inr ⟨l7, hd7, (parseFile2_eq_none_iff _ _ l7 w6.1).mp hp7⟩)
        | some w7 =>
          have hg7 : ¬ ∃ line ∈ l7, (tabColumns line).length ≠ 2 := by
            rw [← parseFile2_eq_none_iff _ _ l7 w6.1, hp7]
            exact fun hc => Option.noConfusion hc
          simp [hp7, hd6, hd7, hg6, hg7]

theorem load_facts_eq_none_iff (t : InternerTables) (dir : String → Option (List String)) :
    load_tab_delimited_facts t dir = none ↔
      ∃ s ∈ relationSchemas, fileBad dir s.1 s.2.length := by
  have expand : (∃ s ∈ relationSchemas, fileBad dir s.1 s.2.length) ↔
      (fileBad dir "borrow_region" 3 ∨ fileBad dir "universal_region" 1
        ∨ fileBad dir "cfg_edge" 2)
      ∨ (fileBad dir "killed" 2 ∨ fileBad dir "outlives" 3)
      ∨ (fileBad dir "region_live_at" 2 ∨ fileBad dir "invalidates" 2) := by
    simp only [relationSchemas, List.mem_cons, List.not_mem_nil, or_false,
      exists_eq_or_imp, exists_eq_left]
    norm_num [List.length]
    tauto
  rw [expand, ← loadFilesA_eq_none_iff t dir]
  unfold load_tab_delimited_facts
  simp only [Option.bind_eq_bind]
  cases ha : loadFilesA t dir with
  | none => simp [ha]
  | some a =>
    have ha' : ¬ loadFilesA t dir = none := by rw [ha]; exact fun hc => Option.noConfusion hc
    simp only [ha, Option.some_bind]
    rw [← loadFilesB_eq_none_iff a.1 dir]
    cases hb : loadFilesB a.1 dir with
    | none => simp [ha', hb]
    | some b =>
      have hb' : ¬ loadFilesB a.1 dir = none := by rw [hb]; exact fun hc => Option.noConfusion hc
      simp only [hb, Option.some_bind]
      rw [← loadFilesC_eq_none_iff b.1 dir]
      cases hc : loadFilesC b.1 dir with
      | none => simp [ha', hb', hc]
      | some c => simp [ha', hb', hc]

theorem ungroup_append {V : Type} (m₁ m₂ : List (Nat × List V)) :
    ungroup (m₁ ++ m₂) = ungroup m₁ ++ ungroup m₂ := by
  simp [ungroup]

theorem insertGrouped_keys_nodup {V : Type} [DecidableEq V] (m : List (Nat × List V)) (k : Nat)
    (v : V) (h : (m.map Prod.fst).Nodup) :
    ((insertGrouped m k v).map Prod.fst).Nodup := by
  unfold insertGrouped
  split_ifs with hk
  · have heq : (m.map fun e => if e.1 = k then (e.1, e.2 ++ [v]) else e).map Prod.fst
        = m.map Prod.fst := by
      rw [List.map_map]
      apply List.map_congr_left
      intro e _
      by_cases h1 : e.1 = k <;> simp [h1]
    rw [heq]
    exact h
  · rw [List.map_append]
    refine List.Nodup.append h (by simp) ?_
    intro a ha hb
    simp only [List.map_cons, List.map_nil, List.mem_singleton] at hb
    subst hb
    simp only [List.any_eq_true, decide_eq_true_eq] at hk
    obtain ⟨e, he, hek⟩ := List.mem_map.mp ha
    exact hk ⟨e, he, hek⟩

theorem ungroup_insertGrouped {V : Type} [DecidableEq V] (m : List (Nat × List V)) (k : Nat)
    (v : V) (h : (m.map Prod.fst).Nodup) :
    (ungroup (insertGrouped m k v)).Perm (ungroup m ++ [(k, v)]) := by
  induction m with
  | nil => simp [insertGrouped, ungroup]
  | cons e rest ih =>
    rw [List.map_cons, List.nodup_cons] at h
    by_cases he : e.1 = k
    · have hk : ((e :: rest).any fun x => decide (x.1 = k)) = true := by
        simp [List.any_cons, he]
      have hrest : rest.map (fun x => if x.1 = k then (x.1, x.2 ++ [v]) else x) = rest := by
        have hcong : ∀ x ∈ rest, (if x.1 = k then (x.1, x.2 ++ [v]) else x) = id x := by
          intro x hx
          have hxk : x.1 ≠ k := by
            intro hxk
            apply h.1
            have hmem : x.1 ∈ rest.map Prod.fst := List.mem_map_of_mem Prod.fst hx
            rwa [hxk, ← he] at hmem
          simp [hxk]
        rw [List.map_congr_left hcong, List.map_id]
      unfold insertGrouped
      rw [if_pos hk, List.map_cons, if_pos he, hrest]
      have expand1 : ungroup ((e.1, e.2 ++ [v]) :: rest)
          = (e.2.map fun v' => (e.1, v')) ++ ([(e.1, v)] ++ ungroup rest) := by
        simp [ungroup, List.append_assoc]
      have expand2 : ungroup (e :: rest) ++ [(k, v)]
          = (e.2.map fun v' => (e.1, v')) ++ (ungroup rest ++ [(k, v)]) := by
        simp [ungroup, List.append_assoc]
      rw [expand1, expand2, he]
      exact List.Perm.append_left _ List.perm_append_comm
    · have hfe : (if e.1 = k then (e.1, e.2 ++ [v]) else e) = e := if_neg he
      by_cases hk : (rest.any fun x => decide (x.1 = k)) = true
      · have hka : ((e :: rest).any fun x => decide (x.1 = k)) = true := by
          simp [List.any_cons, hk]
        have hrec := ih h.2
        unfold insertGrouped at hrec ⊢
        rw [if_pos hk] at hrec
        rw [if_pos hka, List.map_cons, hfe]
        simp only [ungroup, List.flatMap_cons] at hrec ⊢
        rw [List.append_assoc]
        exact List.Perm.append_left _ hrec
      · have hka : ¬ (((e :: rest).any fun x => decide (x.1 = k)) = true) := by
          simp only [List.any_cons, Bool.or_eq_true, not_or]
          exact ⟨by simp [he], hk⟩
        unfold insertGrouped
        rw [if_neg hka]
        rw [ungroup_append]
        simp [ungroup]

theorem foldl_insertGrouped_perm {V : Type} [DecidableEq V] (rows : List (Nat × V)) :
    ∀ m : List (Nat × List V), (m.map Prod.fst).Nodup →
      (ungroup (rows.foldl (fun m r => insertGrouped m r.1 r.2) m)).Perm (ungroup m ++ rows) := by
  induction rows with
  | nil => intro m _; simp
  | cons r rows ih =>
    intro m hm
    rw [List.foldl_cons]
    have hm' : ((insertGrouped m r.1 r.2).map Prod.fst).Nodup :=
      insertGrouped_keys_nodup m r.1 r.2 hm
    have hperm := ungroup_insertGrouped m r.1 r.2 hm
    have hstep := (ih _ hm').trans (List.Perm.append_right rows hperm)
    rwa [List.append_assoc] at hstep

theorem groupByKey_perm {V : Type} [DecidableEq V] (rows : List (Nat × V)) :
    (ungroup (groupByKey rows)).Perm rows := by
  have h := foldl_insertGrouped_perm rows [] (by simp)
  simpa [ungroup] using h

theorem tableOf_intern_self (k : AtomKind) (t : InternerTables) (s : String) :
    tableOf k (intern k t s).2 = (internIn (tableOf k t) s).2
      ∧ (intern k t s).1 = (internIn (tableOf k t) s).1 := by
  cases k <;> exact ⟨rfl, rfl⟩

theorem tableOf_intern_other (k k' : AtomKind) (t : InternerTables) (s : String)
    (h : k ≠ k') : tableOf k (intern k' t s).2 = tableOf k t := by
  cases k <;> cases k' <;> first | exact absurd rfl h | rfl

theorem internIn_lookup (table : List String) (s : String) :
    ((internIn table s).2.findIdx? (· == s)) = some (internIn table s).1 := by
  unfold internIn
  cases h : table.findIdx? (· == s) with
  | some i => exact h
  | none =>
    simp only [List.findIdx?_append, h, Option.none_or]
    have hone : ([s].findIdx? (· == s)) = some 0 := by simp [List.findIdx?_cons]
    rw [hone]
    simp

theorem internIn_extend (table : List String) (u : String) :
    ∃ ext, (internIn table u).2 = table ++ ext := by
  unfold internIn
  cases h : table.findIdx? (· == u) with
  | some i => exact ⟨[], by simp⟩
  | none => exact ⟨[u], rfl⟩

theorem findIdx?_append_stable {α : Type _} (p : α → Bool) (l ext : List α) (i : Nat)
    (h : l.findIdx? p = some i) : (l ++ ext).findIdx? p = some i := by
  rw [List.findIdx?_append, h]
  rfl

theorem intern_found (k : AtomKind) (t : InternerTables) (s : String) (a : Nat)
    (h : (tableOf k t).findIdx? (· == s) = some a) :
    (intern k t s).1 = a ∧ (intern k t s).2 = t := by
  have hin : internIn (tableOf k t) s = (a, tableOf k t) := by
    unfold internIn
    rw [h]
  cases k <;> simp_all [intern, tableOf]

theorem intern_lookup_stable (k : AtomKind) (us : List String) :
    ∀ (t : InternerTables) (s : String) (a : Nat),
      (tableOf k t).findIdx? (· == s) = some a →
        (tableOf k (us.foldl (fun acc u => (intern k acc u).2) t)).findIdx? (· == s) = some a := by
  induction us with
  | nil => intro t s a h; exact h
  | cons u us ih =>
    intro t s a h
    rw [List.foldl_cons]
    refine ih _ s a ?_
    rw [(tableOf_intern_self k t u).1]
    obtain ⟨ext, hext⟩ := internIn_extend (tableOf k t) u
    rw [hext]
    exact findIdx?_append_stable _ _ _ a h

theorem intern_lookup_self (k : AtomKind) (t : InternerTables) (s : String) :
    (tableOf k (intern k t s).2).findIdx? (· == s) = some (intern k t s).1 := by
  rw [(tableOf_intern_self k t s).1, (tableOf_intern_self k t s).2]
  exact internIn_lookup (tableOf k t) s

theorem intern_intern (k : AtomKind) (t : InternerTables) (s : String) :
    intern k (intern k t s).2 s = intern k t s := by
  obtain ⟨ha, ht⟩ := intern_found k (intern k t s).2 s (intern k t s).1 (intern_lookup_self k t s)
  exact Prod.ext_iff.mpr ⟨ha, ht⟩

theorem intern_atom_stable (k : AtomKind) (t : InternerTables) (s : String) (us : List String) :
    (intern k (us.foldl (fun acc u => (intern k acc u).2) (intern k t s).2) s).1
      = (intern k t s).1 :=
  (intern_found k _ s (intern k t s).1
    (intern_lookup_stable k us (intern k t s).2 s (intern k t s).1
      (intern_lookup_self k t s))).1

theorem loadFilesA_congr (dir₁ dir₂ : String → Option (List String))
    (h1 : dir₁ "borrow_region.facts" = dir₂ "borrow_region.facts")
    (h2 : dir₁ "universal_region.facts" = dir₂ "universal_region.facts")
    (h3 : dir₁ "cfg_edge.facts" = dir₂ "cfg_edge.facts") :
    ∀ t, loadFilesA t dir₁ = loadFilesA t dir₂ := by
  intro t
  unfold loadFilesA
  rw [h1, h2, h3]

theorem loadFilesB_congr (dir₁ dir₂ : String → Option (List String))
    (h1 : dir₁ "killed.facts" = dir₂ "killed.facts")
    (h2 : dir₁ "outlives.facts" = dir₂ "outlives.facts") :
    ∀ t, loadFilesB t dir₁ = loadFilesB t dir₂ := by
  intro t
  unfold loadFilesB
  rw [h1, h2]

theorem loadFilesC_congr (dir₁ dir₂ : String → Option (List String))
    (h1 : dir₁ "region_live_at.facts" = dir₂ "region_live_at.facts")
    (h2 : dir₁ "invalidates.facts" = dir₂ "invalidates.facts") :
    ∀ t, loadFilesC t dir₁ = loadFilesC t dir₂ := by
  intro t
  unfold loadFilesC
  rw [h1, h2]

theorem load_facts_congr (dir₁ dir₂ : String → Option (List String))
    (h : ∀ name ∈ factFileNames, dir₁ name = dir₂ name) :
    ∀ t, load_tab_delimited_facts t dir₁ = load_tab_delimited_facts t dir₂ := by
  intro t
  have hA := loadFilesA_congr dir₁ dir₂ (h _ (by simp [factFileNames]))
    (h _ (by simp [factFileNames])) (h _ (by simp [factFileNames]))
  have hB := loadFilesB_congr dir₁ dir₂ (h _ (by simp [factFileNames]))
    (h _ (by simp [factFileNames]))
  have hC := loadFilesC_congr dir₁ dir₂ (h _ (by simp [factFileNames]))
    (h _ (by simp [factFileNames]))
  unfold load_tab_delimited_facts
  simp only [hA, hB, hC]

end Lemmas

section ClaimTheorems

variable {R L P : Type} [DecidableEq R] [DecidableEq L] [DecidableEq P]

/-- C1 (counterexample): `is_edge_collapsible` is *not* equivalent to the
claimed conjunction with order-independent set equality of live regions:
in `liveMismatchFacts`, points 0 and 1 have equal live-region sets and no
killed/outlives/invalidates facts, yet `is_edge_collapsible` is false,
because the code compares the live-region `Vec`s for (order-sensitive)
equality. -/
theorem live_region_order_counterexample :
    ¬ (is_edge_collapsible liveMismatchFacts 0 1 = true ↔
        ((∀ r ∈ live_regions_at liveMismatchFacts 0, r ∈ live_regions_at liveMismatchFacts 1)
          ∧ (∀ r ∈ live_regions_at liveMismatchFacts 1, r ∈ live_regions_at liveMismatchFacts 0)
          ∧ (∀ t ∈ liveMismatchFacts.killed, t.2 ≠ 0 ∧ t.2 ≠ 1)
          ∧ (∀ t ∈ liveMismatchFacts.outlives, t.2.2 ≠ 0 ∧ t.2.2 ≠ 1)
          ∧ (∀ t ∈ liveMismatchFacts.invalidates, t.1 ≠ 0 ∧ t.1 ≠ 1))) := by
  decide

/-- C1 (amended): `is_edge_collapsible f p q` returns true iff (1) the
*sequence* of regions live at `p` (in relation order, with multiplicity)
equals the sequence of regions live at `q`, (2) no killed tuple mentions
`p` or `q`, (3) no outlives tuple mentions `p` or `q`, and (4) no
invalidates tuple mentions `p` or `q`. -/
theorem is_edge_collapsible_iff (f : AllFacts R L P) (p q : P) :
    is_edge_collapsible f p q = true ↔
      (live_regions_at f p = live_regions_at f q
        ∧ (∀ t ∈ f.killed, t.2 ≠ p ∧ t.2 ≠ q)
        ∧ (∀ t ∈ f.outlives, t.2.2 ≠ p ∧ t.2.2 ≠ q)
        ∧ (∀ t ∈ f.invalidates, t.1 ≠ p ∧ t.1 ≠ q)) :=
  is_edge_collapsible_eq_true f p q

/-- C4 (counterexample): `collapse_edge` does not implement the claimed
rewrite: with edges `[(0,2),(1,2),(2,3)]`, collapsing `(0, 2)` keeps
point 0 (2 is not an endpoint) and drops *every* edge with target 2 —
including `(1, 2)`, which the claim says should survive. -/
theorem collapse_edge_counterexample :
    collapse_edge (edgeOnlyFacts [(0, 2), (1, 2), (2, 3)]) 0 2
        ≠ collapse_edge_claimed (edgeOnlyFacts [(0, 2), (1, 2), (2, 3)]) 0 2
      ∧ (collapse_edge (edgeOnlyFacts [(0, 2), (1, 2), (2, 3)]) 0 2).cfg_edge = [(0, 3)]
      ∧ (collapse_edge_claimed (edgeOnlyFacts [(0, 2), (1, 2), (2, 3)]) 0 2).cfg_edge
          = [(1, 2), (0, 3)] := by
  decide

/-- C4 (amended): `collapse_edge f p q` behaves as described by the spec,
with one correction: in the branch keeping `p` it removes *every* edge
whose target is `q` (not only the edge `(p, q)`), and in the branch
keeping `q` it removes every edge whose source is `p`; the remaining
description (removal of the five point-indexed fact tuples at the dropped
point, source/target rewriting, and the final no-op branch) is as
claimed. -/
theorem collapse_edge_eq_described (f : AllFacts R L P) (p q : P) :
    collapse_edge f p q = collapse_edge_described f p q := by
  unfold collapse_edge collapse_edge_described
  by_cases h1 : ∃ e ∈ f.cfg_edge, e.1 = q
  · have hb : is_endpoint f q = false := (is_endpoint_eq_false_iff f q).mpr h1
    rw [hb, if_pos h1]
    rfl
  · have hb : is_endpoint f q = true := by
      cases h : is_endpoint f q
      · exact absurd ((is_endpoint_eq_false_iff f q).mp h) h1
      · rfl
    rw [hb, if_neg h1]
    by_cases h2 : ∃ e ∈ f.cfg_edge, e.2 = p
    · have hs : is_startpoint f p = false := (is_startpoint_eq_false_iff f p).mpr h2
      rw [hs, if_pos h2]
      rfl
    · have hs : is_startpoint f p = true := by
        cases h : is_startpoint f p
        · exact absurd ((is_startpoint_eq_false_iff f p).mp h) h2
        · rfl
      rw [hs, if_neg h2]
      rfl

/-- C5: the isolated-edge mapping contains `p ↦ q` exactly when `(p, q)`
is an edge, `p` is the source of exactly one edge of the multiset, and
`q` is the target of exactly one edge of the multiset; in particular a
source of two or more edges (or a target of two or more edges) has no
isolated edge. -/
theorem isolated_edges_characterization (edges : List (P × P)) (p q : P) :
    ((p, q) ∈ isolatedEdges edges ↔
        ((p, q) ∈ edges ∧ edges.countP (fun e => decide (e.1 = p)) = 1
          ∧ edges.countP (fun e => decide (e.2 = q)) = 1))
      ∧ (2 ≤ edges.countP (fun e => decide (e.1 = p)) → (p, q) ∉ isolatedEdges edges)
      ∧ (2 ≤ edges.countP (fun e => decide (e.2 = q)) → (p, q) ∉ isolatedEdges edges) := by
  have main : (p, q) ∈ isolatedEdges edges ↔
      ((p, q) ∈ edges ∧ edges.countP (fun e => decide (e.1 = p)) = 1
        ∧ edges.countP (fun e => decide (e.2 = q)) = 1) := by
    rw [mem_isolatedEdges_iff, isolatedSucc_eq_some_iff, succOf_eq_some_iff,
      predOf_isSome_iff, filter_eq_singleton_iff]
    simp only [decide_eq_true_eq]
    constructor
    · rintro ⟨⟨hm, _, hcs⟩, hct⟩
      exact ⟨hm, hcs, hct⟩
    · rintro ⟨hm, hcs, hct⟩
      exact ⟨⟨hm, trivial, hcs⟩, hct⟩
  refine ⟨main, fun h hmem => ?_, fun h hmem => ?_⟩
  · have := (main.mp hmem).2.1
    omega
  · have := (main.mp hmem).2.2
    omega

/-- Witness for `isolated_edges_characterization` at concrete inputs:
`(0,1)` is isolated in a one-edge graph; an edge whose source (resp.
target) occurs in two edges is excluded. -/
theorem isolated_edges_characterization_witness :
    (0, 1) ∈ isolatedEdges [((0 : Nat), (1 : Nat))]
      ∧ (2, 3) ∉ isolatedEdges [((2 : Nat), (3 : Nat)), (2, 4)]
      ∧ (2, 3) ∉ isolatedEdges [((2 : Nat), (3 : Nat)), (5, 3)] :=
  ⟨(isolated_edges_characterization [(0, 1)] 0 1).1.mpr (by decide),
    (isolated_edges_characterization [(2, 3), (2, 4)] 2 3).2.1 (by decide),
    (isolated_edges_characterization [(2, 3), (5, 3)] 2 3).2.2 (by decide)⟩

/-- C6: on the `chain_with_loop` input, `simplify_cfg` produces exactly
the edge set `{(0,4), (4,9), (0,10), (10,9)}` (indeed exactly that edge
list). -/
theorem simplify_cfg_loop_example :
    (simplify_cfg loopFacts).cfg_edge = [(0, 4), (4, 9), (0, 10), (10, 9)]
      ∧ ∀ e : Nat × Nat,
          (e ∈ (simplify_cfg loopFacts).cfg_edge ↔ e ∈ [(0, 4), (4, 9), (0, 10), (10, 9)]) := by
  have h : (simplify_cfg loopFacts).cfg_edge = [(0, 4), (4, 9), (0, 10), (10, 9)] := by decide
  exact ⟨h, fun e => by rw [h]⟩

/-- C9: `simplify_cfg` never modifies `universal_region`: every collapse
branch keeps the field, so the whole fold over chains keeps it. -/
theorem simplify_cfg_preserves_universal_region (f : AllFacts R L P) :
    (simplify_cfg f).universal_region = f.universal_region :=
  foldl_simplify_chain_universal_region _ f

/-- C2: whenever `collapse_edge` is invoked during a run of
`simplify_cfg` (events recorded by `simplify_cfg_trace`, whose resulting
store coincides with `simplify_cfg`), the store at that moment has
identical live-region sets at the two points and no killed, outlives, or
invalidates tuples at either. -/
theorem collapse_soundness (f : AllFacts R L P) :
    (simplify_cfg_trace f).1 = simplify_cfg f
      ∧ ∀ ev ∈ (simplify_cfg_trace f).2, collapseEventOk ev :=
  ⟨foldl_trace_fst _ _, fun ev hev =>
    foldl_trace_sound _ (f, []) (fun _ h => absurd h (List.not_mem_nil _)) ev hev⟩

/-- Witness for `collapse_soundness`: on the two-edge chain input the
first recorded collapse is of edge `(0, 1)` on the initial store. -/
theorem collapse_soundness_witness :
    (simplify_cfg_trace (edgeOnlyFacts [(0, 1), (1, 2)])).1
        = simplify_cfg (edgeOnlyFacts [(0, 1), (1, 2)])
      ∧ collapseEventOk (edgeOnlyFacts [(0, 1), (1, 2)], 0, 1) :=
  ⟨(collapse_soundness (edgeOnlyFacts [(0, 1), (1, 2)])).1,
    (collapse_soundness (edgeOnlyFacts [(0, 1), (1, 2)])).2
      (edgeOnlyFacts [(0, 1), (1, 2)], 0, 1) (by decide)⟩

/-- C8: totality and panic-freedom of `simplify_cfg`: every chain handed
to `simplify_chain` is nonempty (so the `chain[0]` access is in bounds
and the checked run returns the unchecked result), the `while let` walk
of `isolated_chains` terminates within `m.length` iterations (its result
is fuel-independent from that point on), and an empty `cfg_edge` yields
no chains and leaves the store unchanged. -/
theorem simplify_cfg_total (f : AllFacts R L P) :
    (∀ c ∈ isolated_chains f.cfg_edge, c ≠ [])
      ∧ simplify_cfg_checked f = some (simplify_cfg f)
      ∧ (f.cfg_edge = [] → isolated_chains f.cfg_edge = [] ∧ simplify_cfg f = f)
      ∧ (∀ (fuel : Nat) (m : List (P × P)) (c : P), m.length ≤ fuel →
          walk fuel m c = walk m.length m c) := by
  refine ⟨fun c hc => chainsGo_ne_nil _ _ c hc,
    foldlM_simplify_chain_checked _ (fun c hc => chainsGo_ne_nil _ _ c hc) f,
    fun h => ⟨?_, ?_⟩,
    fun fuel m c hf => walk_congr fuel m.length m c hf le_rfl⟩
  · show isolated_chains f.cfg_edge = []
    rw [h]
    rfl
  · show simplify_cfg f = f
    unfold simplify_cfg
    rw [h]
    rfl

/-- C7: the chains returned by `isolated_chains` are pairwise
vertex-disjoint, no point repeats within a chain, every chain point
occurs as a source or target of some `cfg_edge` tuple, and consequently
folding `simplify_chain` over the chains in any order yields the same
store as `simplify_cfg`. -/
theorem isolated_chains_disjoint (f : AllFacts R L P) :
    (∀ c ∈ isolated_chains f.cfg_edge, c.Nodup)
      ∧ List.Pairwise (fun c₁ c₂ => ∀ x ∈ c₁, x ∉ c₂) (isolated_chains f.cfg_edge)
      ∧ (∀ c ∈ isolated_chains f.cfg_edge, ∀ x ∈ c, ∃ e ∈ f.cfg_edge, e.1 = x ∨ e.2 = x)
      ∧ (∀ cs : List (List P), cs.Perm (isolated_chains f.cfg_edge) →
          cs.foldl simplify_chain f = simplify_cfg f) := by
  have hK2 : ∀ p1 p2 q, (p1, q) ∈ isolatedEdges f.cfg_edge →
      (p2, q) ∈ isolatedEdges f.cfg_edge → p1 = p2 :=
    fun p1 p2 q h1 h2 => isolatedEdges_inj f.cfg_edge h1 h2
  have hheads : ∀ h ∈ chainHeads (isolatedEdges f.cfg_edge), ∀ k,
      (k, h) ∉ isolatedEdges f.cfg_edge :=
    fun h hh k => chainHeads_not_value _ hh k
  refine ⟨?_, ?_, ?_, ?_⟩
  · exact chainsGo_nodup _ hK2 _ _ (List.Sublist.refl _) hheads
  · exact chainsGo_pairwise _ hK2 _ _ (List.Sublist.refl _)
      (chainHeads_nodup _ (isolatedEdges_keys_nodup f.cfg_edge)) hheads
  · intro c hc x hx
    rcases chainsGo_mem_src _ _ c x hc hx with hxh | ⟨k, hk⟩
    · obtain ⟨q, hq⟩ := chainHeads_key _ hxh
      exact ⟨(x, q), isolatedEdges_mem_edges f.cfg_edge hq, Or.inl rfl⟩
    · exact ⟨(k, x), isolatedEdges_mem_edges f.cfg_edge hk, Or.inr rfl⟩
  · intro cs hp
    exact (foldl_simplify_chain_perm hp.symm f (chainsOk_isolated_chains f)).symm

/-- Witness for `isolated_chains_disjoint` at a two-chain input: the two
chains are `[0, 1, 2]` and `[3, 4]`, and processing them in the reversed
order produces the same store as `simplify_cfg`. -/
theorem isolated_chains_disjoint_witness :
    ([0, 1, 2] : List Nat).Nodup
      ∧ (∃ e ∈ [((0 : Nat), (1 : Nat)), (1, 2), (3, 4)], e.1 = 3 ∨ e.2 = 3)
      ∧ ([[3, 4], [0, 1, 2]] : List (List Nat)).foldl simplify_chain
          (edgeOnlyFacts [(0, 1), (1, 2), (3, 4)])
        = simplify_cfg (edgeOnlyFacts [(0, 1), (1, 2), (3, 4)]) :=
  ⟨(isolated_chains_disjoint (edgeOnlyFacts [(0, 1), (1, 2), (3, 4)])).1
      [0, 1, 2] (by decide),
    (isolated_chains_disjoint (edgeOnlyFacts [(0, 1), (1, 2), (3, 4)])).2.2.1
      [3, 4] (by decide) 3 (by decide),
    (isolated_chains_disjoint (edgeOnlyFacts [(0, 1), (1, 2), (3, 4)])).2.2.2
      [[3, 4], [0, 1, 2]] (by decide)⟩

/-- C3: `simplify_cfg` is idempotent: running it twice in succession
yields exactly the same store (all seven relations) as running it once.
After one pass every remaining isolated edge is either not collapsible or
hits the no-op branch of `collapse_edge` (its endpoints are the leftover
cyclically-linked part the walks never reach, or a pair the pass already
tested and rejected), so the second pass changes nothing. -/
theorem simplify_cfg_idempotent (f : AllFacts R L P) :
    simplify_cfg (simplify_cfg f) = simplify_cfg f := by
  show (isolated_chains (simplify_cfg f).cfg_edge).foldl simplify_chain (simplify_cfg f)
    = simplify_cfg f
  refine foldl_eq_self simplify_chain (simplify_cfg f) _ ?_
  intro ch hch
  obtain ⟨c, tl, hch_eq, hc_in, hchain⟩ := chainsGo_chain_struct
    (chainHeads (isolatedEdges (simplify_cfg f).cfg_edge))
    (isolatedEdges (simplify_cfg f).cfg_edge) (isolatedEdges (simplify_cfg f).cfg_edge)
    (List.Sublist.refl _) ch hch
  have hnd : ch.Nodup := chainsGo_nodup (isolatedEdges (simplify_cfg f).cfg_edge)
    (fun p1 p2 q h1 h2 => isolatedEdges_inj _ h1 h2) _ _ (List.Sublist.refl _)
    (fun h hh k => chainHeads_not_value _ hh k) ch hch
  have hNL : ∀ q, (c, q) ∉ leftoverMap f.cfg_edge := by
    intro q hq
    obtain ⟨p', hp'⟩ := leftover_backward f.cfg_edge c q hq
    exact chainHeads_not_value _ hc_in p' (leftover_in_g f p' c hp')
  rw [hch_eq]
  rw [hch_eq] at hnd
  exact pass2_go f tl c hNL hnd hchain

/-- C10: `load_tab_delimited_facts` (i) reads exactly the seven
`<relation>.facts` files (its result depends on the directory only
through those names); (ii) fails — the whole load aborts — exactly when
one of the seven files is missing or has a line whose tab-separated
column count differs from the relation's arity (too few or extra
columns; interning accepts any token, so no column is unparsable);
(iii) the grouped point-indexed maps it builds hold exactly the parsed
rows, columns mapped left-to-right onto the tuple fields; and (iv) the
shared per-kind interning tables give the same atom to the same textual
token everywhere: re-interning a token is stable under any later
interning, and interning one kind never touches another kind's table. -/
theorem load_tab_delimited_facts_spec :
    (∀ (t : InternerTables) (dir₁ dir₂ : String → Option (List String)),
        (∀ name ∈ factFileNames, dir₁ name = dir₂ name) →
          load_tab_delimited_facts t dir₁ = load_tab_delimited_facts t dir₂)
      ∧ (∀ (t : InternerTables) (dir : String → Option (List String)),
          load_tab_delimited_facts t dir = none ↔
            ∃ s ∈ relationSchemas, fileBad dir s.1 s.2.length)
      ∧ (∀ rows : List (Nat × (Nat × Nat)), (ungroup (groupByKey rows)).Perm rows)
      ∧ (∀ rows : List (Nat × Nat), (ungroup (groupByKey rows)).Perm rows)
      ∧ (∀ (k : AtomKind) (t : InternerTables) (s : String),
          intern k (intern k t s).2 s = intern k t s)
      ∧ (∀ (k : AtomKind) (t : InternerTables) (s : String) (us : List String),
          (intern k (us.foldl (fun acc u => (intern k acc u).2) (intern k t s).2) s).1
            = (intern k t s).1)
      ∧ (∀ (k k' : AtomKind) (t : InternerTables) (s : String), k ≠ k' →
          tableOf k (intern k' t s).2 = tableOf k t) :=
  ⟨fun t dir₁ dir₂ h => load_facts_congr dir₁ dir₂ h t,
    load_facts_eq_none_iff,
    fun rows => groupByKey_perm rows,
    fun rows => groupByKey_perm rows,
    intern_intern,
    intern_atom_stable,
    fun k k' t s h => tableOf_intern_other k k' t s h⟩

/-- Witness for `load_tab_delimited_facts_spec`: loading aborts on a
`killed.facts` line with a single column; a directory equal to itself on
the seven file names loads identically; interning a loan leaves the
region table unchanged. -/
theorem load_tab_delimited_facts_spec_witness :
    load_tab_delimited_facts emptyTables badColumnsDir = none
      ∧ load_tab_delimited_facts emptyTables exampleDir
          = load_tab_delimited_facts emptyTables exampleDir
      ∧ tableOf AtomKind.region (intern AtomKind.loan emptyTables "x").2
          = tableOf AtomKind.region emptyTables :=
  ⟨(load_tab_delimited_facts_spec.2.1 emptyTables badColumnsDir).mpr
      ⟨("killed", [AtomKind.loan, AtomKind.point]), by decide,
        Or.inr ⟨["only_one_column"], by decide, "only_one_column", by decide, by decide⟩⟩,
    load_tab_delimited_facts_spec.1 emptyTables exampleDir exampleDir (fun _ _ => rfl),
    load_tab_delimited_facts_spec.2.2.2.2.2.2 AtomKind.region AtomKind.loan emptyTables "x"
      (by decide)⟩

/-- Witness for `simplify_cfg_total`: the empty store is a fixed point
with no chains, and the walk's result is fuel-independent at a concrete
map. -/
theorem simplify_cfg_total_witness :
    (isolated_chains (edgeOnlyFacts []).cfg_edge = []
        ∧ simplify_cfg (edgeOnlyFacts []) = edgeOnlyFacts [])
      ∧ walk 5 [((0 : Nat), (1 : Nat))] 0 = walk 1 [((0 : Nat), (1 : Nat))] 0 :=
  ⟨(simplify_cfg_total (edgeOnlyFacts [])).2.2.1 rfl,
    (simplify_cfg_total (edgeOnlyFacts [])).2.2.2 5 [(0, 1)] 0 (by decide)⟩

end ClaimTheorems

end Polonius

